import Mathlib

/-!
Verification development for the url-normalizer repository.

The query-string parser is embedded from `src/urlcanon/utils.py`
(`_parse_qsl`, `_coerce_args`, and the CPython `unquote_to_bytes` routine it
invokes).  The normalizer pipeline itself (`normalize_url` in
`urlcanon/normalizer.py`) is not present under `src/`; it is modelled from the
specification, section by section, in the definitions marked
"Modelled from the spec".

Text is modelled as `List Char`; raw byte strings as `List Nat` with every
element below 256 by construction.
-/

/-! ## Character classes and basic utilities -/

/-- ASCII decimal digit. -/
def isDigitB (c : Char) : Bool := 48 ≤ c.toNat && c.toNat ≤ 57

/-- ASCII letter. -/
def isAlphaB (c : Char) : Bool :=
  (65 ≤ c.toNat && c.toNat ≤ 90) || (97 ≤ c.toNat && c.toNat ≤ 122)

/-- ASCII letter or digit. -/
def isAlnumB (c : Char) : Bool := isAlphaB c || isDigitB c

/-- Whitespace characters stripped by the preprocessor (space, tab, newline,
carriage return, vertical tab, form feed). -/
def isWSB (c : Char) : Bool :=
  c == ' ' || c.toNat == 9 || c.toNat == 10 || c.toNat == 13 ||
    c.toNat == 11 || c.toNat == 12

/-- Strip leading and trailing whitespace. -/
def stripWS (l : List Char) : List Char :=
  ((l.dropWhile isWSB).reverse.dropWhile isWSB).reverse

/-- Lowercasing of a character, modelled from the spec's case-folding of
scheme and host: ASCII capital letters and the basic Cyrillic capital range
are mapped to their lowercase forms; other characters are unchanged. -/
def toLowerBasic (c : Char) : Char :=
  if 65 ≤ c.toNat && c.toNat ≤ 90 then Char.ofNat (c.toNat + 32)
  else if 1040 ≤ c.toNat && c.toNat ≤ 1071 then Char.ofNat (c.toNat + 32)
  else c

/-! ## Splitting utilities -/

/-- Split a character list at every occurrence of `sep`; mirrors Python's
`str.split(sep)` (always returns at least one piece). -/
def splitOnChar (sep : Char) (l : List Char) : List (List Char) := l.splitOn sep

/-- Split at the first occurrence of `sep`: returns the part before it and,
when `sep` occurs, the part after it; mirrors Python's `str.split(sep, 1)`. -/
def splitFirst (sep : Char) : List Char → List Char × Option (List Char)
  | [] => ([], none)
  | c :: cs =>
    if c = sep then ([], some cs)
    else
      let r := splitFirst sep cs
      (c :: r.1, r.2)

/-- Split at the last occurrence of `sep`: returns the part before it (when
`sep` occurs) and the part after it; mirrors Python's `str.rsplit(sep, 1)`. -/
def splitLast (sep : Char) (l : List Char) : Option (List Char) × List Char :=
  match splitFirst sep l.reverse with
  | (_, none) => (none, l)
  | (suf, some pre) => (some pre.reverse, suf.reverse)

/-! ## Hex digits and UTF-8 encoding -/

/-- Value of an ASCII hex digit, accepting both cases (mirrors the
`_hextobyte` table of CPython's `urllib.parse`). -/
def hexVal (c : Char) : Option Nat :=
  if 48 ≤ c.toNat && c.toNat ≤ 57 then some (c.toNat - 48)
  else if 65 ≤ c.toNat && c.toNat ≤ 70 then some (c.toNat - 55)
  else if 97 ≤ c.toNat && c.toNat ≤ 102 then some (c.toNat - 87)
  else none

/-- Uppercase hex digit for a value below 16. -/
def hexDigitUpper (n : Nat) : Char :=
  if n < 10 then Char.ofNat (48 + n) else Char.ofNat (55 + n)

/-- Percent-encoding of one byte with uppercase hex digits. -/
def pctUpper (b : Nat) : List Char := ['%', hexDigitUpper (b / 16), hexDigitUpper (b % 16)]

/-- UTF-8 encoding of a single character. -/
def utf8EncodeChar (c : Char) : List Nat :=
  let n := c.toNat
  if n < 128 then [n]
  else if n < 2048 then [192 + n / 64, 128 + n % 64]
  else if n < 65536 then [224 + n / 4096, 128 + n / 64 % 64, 128 + n % 64]
  else [240 + n / 262144, 128 + n / 4096 % 64, 128 + n / 64 % 64, 128 + n % 64]

/-- UTF-8 encoding of a character sequence. -/
def utf8Bytes (cs : List Char) : List Nat := cs.flatMap utf8EncodeChar

/-! ## Percent decoding: CPython unquote_to_bytes

Embedded from CPython's `urllib.parse.unquote_to_bytes`, which
`src/urlcanon/utils.py` imports and calls: the input is UTF-8 encoded, split
on `%`, and each piece after the first is decoded through the two-hex-digit
table when possible, with the `%` kept literally otherwise. -/

/-- Decoding of one piece following a `%` sign. -/
def unquotePiece (p : List Char) : List Nat :=
  match p with
  | a :: b :: rest =>
    match hexVal a, hexVal b with
    | some hi, some lo => (16 * hi + lo) :: utf8Bytes rest
    | _, _ => 37 :: utf8Bytes p
  | _ => 37 :: utf8Bytes p

/-- CPython's `unquote_to_bytes` on text input. -/
def unquoteToBytes (cs : List Char) : List Nat :=
  match splitOnChar '%' cs with
  | [] => []
  | first :: rest => utf8Bytes first ++ rest.flatMap unquotePiece

/-- Replace every plus sign by a space; mirrors `.replace('+', ' ')`. -/
def plusToSpace (cs : List Char) : List Char :=
  cs.map (fun c => if c = '+' then ' ' else c)

/-! ## The query-string parser, embedded from src/urlcanon/utils.py -/

/-- Loop body of `_parse_qsl` with the default arguments
(`keep_blank_values=False`, `strict_parsing=False`): empty candidates are
skipped, candidates without `=` are dropped, pairs with an empty value are
dropped, and surviving name/value parts are plus-replaced then
percent-decoded to raw bytes. -/
def parseQslLoop : List (List Char) → List (List Nat × List Nat)
  | [] => []
  | nv :: rest =>
    if nv = [] then parseQslLoop rest
    else
      match splitFirst '=' nv with
      | (_, none) => parseQslLoop rest
      | (n, some v) =>
        if v = [] then parseQslLoop rest
        else (unquoteToBytes (plusToSpace n), unquoteToBytes (plusToSpace v)) ::
          parseQslLoop rest

/-- Embedding of `_parse_qsl` from `src/urlcanon/utils.py` at its default
arguments, on text input: the query string is split on both ampersand and
semicolon, and each surviving candidate contributes one raw-byte pair. -/
def parse_qsl (qs : List Char) : List (List Nat × List Nat) :=
  parseQslLoop ((splitOnChar '&' qs).flatMap (splitOnChar ';'))

/-! ## The full parser with both error channels, for the totality claim

The general form of `_parse_qsl` takes either text or a byte string, passes
it through `_coerce_args`, and honours `keep_blank_values` and
`strict_parsing`.  Python exceptions (`TypeError` from `_coerce_args`,
`ValueError` from strict parsing, decoding errors) are modelled as the error
channel of `Except`. -/

/-- A Python argument that is either text or a byte string. -/
inductive PyStr where
  | str (s : String)
  | bytes (b : List Nat)
deriving DecidableEq

instance : Inhabited PyStr := ⟨.str ""⟩

/-- Python truthiness of a text or byte string. -/
def PyStr.truthy : PyStr → Bool
  | .str s => !(s == "")
  | .bytes b => !b.isEmpty

/-- Whether the value is text (`isinstance(x, text_type)`). -/
def PyStr.isText : PyStr → Bool
  | .str _ => true
  | .bytes _ => false

/-- Characters of a text value (byte strings have been decoded away before
this is used). -/
def PyStr.chars : PyStr → List Char
  | .str s => s.toList
  | .bytes _ => []

/-- Strict UTF-8 decoding of a byte string, rejecting truncated sequences,
continuation errors, overlong forms, surrogates and out-of-range values. -/
def utf8DecodeStrict : List Nat → Option (List Char)
  | [] => some []
  | b :: bs =>
    if b < 128 then
      match utf8DecodeStrict bs with
      | some cs => some (Char.ofNat b :: cs)
      | none => none
    else if 194 ≤ b && b ≤ 223 then
      match bs with
      | b2 :: rest =>
        if 128 ≤ b2 && b2 ≤ 191 then
          match utf8DecodeStrict rest with
          | some cs => some (Char.ofNat ((b - 192) * 64 + (b2 - 128)) :: cs)
          | none => none
        else none
      | _ => none
    else if 224 ≤ b && b ≤ 239 then
      match bs with
      | b2 :: b3 :: rest =>
        let lo2 := if b == 224 then 160 else 128
        let hi2 := if b == 237 then 159 else 191
        if lo2 ≤ b2 && b2 ≤ hi2 && 128 ≤ b3 && b3 ≤ 191 then
          match utf8DecodeStrict rest with
          | some cs =>
            some (Char.ofNat ((b - 224) * 4096 + (b2 - 128) * 64 + (b3 - 128)) :: cs)
          | none => none
        else none
      | _ => none
    else if 240 ≤ b && b ≤ 244 then
      match bs with
      | b2 :: b3 :: b4 :: rest =>
        let lo2 := if b == 240 then 144 else 128
        let hi2 := if b == 244 then 143 else 191
        if lo2 ≤ b2 && b2 ≤ hi2 && 128 ≤ b3 && b3 ≤ 191 && 128 ≤ b4 && b4 ≤ 191 then
          match utf8DecodeStrict rest with
          | some cs =>
            some (Char.ofNat
              ((b - 240) * 262144 + (b2 - 128) * 4096 + (b3 - 128) * 64 + (b4 - 128)) :: cs)
          | none => none
        else none
      | _ => none
    else none

/-- One argument of `_decode_args`: a byte string is decoded strictly, a
falsy value becomes the empty text, and calling `decode` on a truthy text
value is an attribute error (that case is unreachable after the mixing
check). -/
def decodeArg : PyStr → Except String PyStr
  | .bytes b =>
    if b.isEmpty then .ok (.str "")
    else
      match utf8DecodeStrict b with
      | some cs => .ok (.str (String.mk cs))
      | none => .error "UnicodeDecodeError"
  | .str s => if s = "" then .ok (.str "") else .error "AttributeError"

/-- Embedding of `_decode_args` from `src/urlcanon/utils.py`. -/
def decode_args (args : List PyStr) : Except String (List PyStr) :=
  args.mapM decodeArg

/-- Embedding of `_coerce_args` from `src/urlcanon/utils.py`.  The variadic
argument tuple is modelled as a first argument plus the remaining ones; the
returned flag is true when the result coercion is `_encode_result` and false
when it is `_noop`. -/
def coerce_args (first : PyStr) (rest : List PyStr) : Except String (List PyStr × Bool) :=
  let strInput := first.isText
  if rest.any (fun a => a.truthy && (a.isText != strInput)) then
    .error "TypeError: Cannot mix str and non-str arguments"
  else if strInput then .ok (first :: rest, false)
  else
    match decode_args (first :: rest) with
    | .ok l => .ok (l, true)
    | .error e => .error e

/-- Result coercion applied to the raw bytes of a parsed name or value:
`_noop` keeps the bytes; `_encode_result` calls `encode` on a byte object,
which is an attribute error. -/
def coerce_result (flag : Bool) (b : List Nat) : Except String PyStr :=
  if flag then .error "AttributeError: encode on bytes"
  else .ok (.bytes b)

/-- Emission of one surviving pair inside the `_parse_qsl` loop. -/
def processPairE (flag : Bool) (n v : List Char)
    (restR : Except String (List (PyStr × PyStr))) :
    Except String (List (PyStr × PyStr)) := do
  let name ← coerce_result flag (unquoteToBytes (plusToSpace n))
  let value ← coerce_result flag (unquoteToBytes (plusToSpace v))
  let r ← restR
  pure ((name, value) :: r)

/-- Loop of `_parse_qsl` in full generality. -/
def parseQslLoopE (flag keepBlank strict : Bool) :
    List (List Char) → Except String (List (PyStr × PyStr))
  | [] => .ok []
  | nv :: rest =>
    if nv = [] && !strict then parseQslLoopE flag keepBlank strict rest
    else
      match splitFirst '=' nv with
      | (n, none) =>
        if strict then .error "ValueError: bad query field"
        else if keepBlank then processPairE flag n [] (parseQslLoopE flag keepBlank strict rest)
        else parseQslLoopE flag keepBlank strict rest
      | (n, some v) =>
        if !v.isEmpty || keepBlank then
          processPairE flag n v (parseQslLoopE flag keepBlank strict rest)
        else parseQslLoopE flag keepBlank strict rest

/-- Embedding of `_parse_qsl` from `src/urlcanon/utils.py` in full
generality: argument coercion, then the splitting loop, with every Python
exception routed through the error channel. -/
def parse_qslE (qs : PyStr) (keepBlank strict : Bool) :
    Except String (List (PyStr × PyStr)) := do
  let (args, flag) ← coerce_args qs []
  let cs := (args.headD (.str "")).chars
  parseQslLoopE flag keepBlank strict ((splitOnChar '&' cs).flatMap (splitOnChar ';'))

/-! ## Canonical character-safety policy

Modelled from the spec, section 6: the sets of characters left unescaped
when re-encoding the path and the query. -/

/-- Characters beyond letters and digits that stay unescaped in the path. -/
def pathSafeExtra : List Char :=
  ['-', '_', '.', '~', '!', '$', '&', Char.ofNat 39, '(', ')', '*', '+', ',',
    ';', '=', ':', '@']

/-- Modelled from the spec: the path-safe set is ASCII letters and digits
plus the listed punctuation. -/
def pathSafeChar (c : Char) : Bool := isAlnumB c || pathSafeExtra.contains c

/-- Characters beyond letters and digits that stay unescaped in the query. -/
def querySafeExtra : List Char :=
  ['-', '_', '.', '~', '!', '$', Char.ofNat 39, '(', ')', '*', ',', ';', '=',
    ':', '@', '/']

/-- Modelled from the spec: the query-safe set is ASCII letters and digits
plus the listed punctuation; space is handled separately (it encodes
as a plus sign). -/
def querySafeChar (c : Char) : Bool := isAlnumB c || querySafeExtra.contains c

/-- A byte whose character is path-safe. -/
def pathSafeByte (b : Nat) : Bool := b < 128 && pathSafeChar (Char.ofNat b)

/-- The reserved delimiter bytes of the path: slash, question mark, hash. -/
def reservedByte (b : Nat) : Bool := b == 47 || b == 63 || b == 35

/-! ## Path normalizer

Modelled from the spec, section 4.4: percent-decode then re-encode with the
canonical policy (reserved delimiters stay escaped, their hex uppercased),
remove dot segments, collapse duplicate slashes, strip a single trailing
slash unless the path is exactly the root. -/

/-- A path analysed into percent-escape tokens and literal characters. -/
inductive PTok where
  | esc (b : Nat)
  | lit (c : Char)
deriving DecidableEq

/-- Tokenize a path: a percent sign followed by two hex digits is an escape
token; anything else is a literal. -/
def tokenizePath : List Char → List PTok
  | [] => []
  | '%' :: a :: b :: r2 =>
    match hexVal a, hexVal b with
    | some hi, some lo => .esc (16 * hi + lo) :: tokenizePath r2
    | _, _ => .lit '%' :: tokenizePath (a :: b :: r2)
  | '%' :: r => .lit '%' :: tokenizePath r
  | c :: r => .lit c :: tokenizePath r

/-- Canonical re-encoding of one token: an escaped byte that is path-safe
and not a reserved delimiter is decoded to its literal character; any other
escaped byte stays escaped (rendered with uppercase hex); a literal slash is
kept; a literal path-safe character is kept; any other literal character is
escaped through its UTF-8 bytes. -/
def normTok : PTok → List PTok
  | .esc b =>
    if pathSafeByte b && !reservedByte b then [.lit (Char.ofNat b)] else [.esc b]
  | .lit c =>
    if c = '/' then [.lit c]
    else if pathSafeChar c then [.lit c]
    else (utf8EncodeChar c).map .esc

/-- Rendering of one token back to characters. -/
def renderTok : PTok → List Char
  | .esc b => pctUpper b
  | .lit c => [c]

/-- Rendering of a token list. -/
def renderToks (ts : List PTok) : List Char := ts.flatMap renderTok

/-- The percent decode-then-recode round trip over the path. -/
def recodePath (p : List Char) : List Char :=
  renderToks ((tokenizePath p).flatMap normTok)

/-- Dot-segment removal over a segment list: single dots are dropped, double
dots remove the preceding segment when there is one. -/
def dotSegProcess (segs : List (List Char)) : List (List Char) :=
  segs.foldl
    (fun st seg =>
      if seg = ['.'] then st
      else if seg = ['.', '.'] then st.dropLast
      else st ++ [seg])
    []

/-- Dot-segment removal, producing an absolute path. -/
def dotRemove (p : List Char) : List Char :=
  let body := match p with
    | '/' :: r => r
    | _ => p
  '/' :: List.intercalate ['/'] (dotSegProcess (splitOnChar '/' body))

/-- Collapse every run of consecutive slashes to a single slash. -/
def collapseSlashes : List Char → List Char
  | [] => []
  | [c] => [c]
  | a :: b :: r =>
    if a = '/' && b = '/' then collapseSlashes (b :: r)
    else a :: collapseSlashes (b :: r)

/-- Strip a single trailing slash unless the path is exactly the root. -/
def stripTrailingSlash (p : List Char) : List Char :=
  if p = ['/'] then p
  else if p.getLast? = some '/' then p.dropLast else p

/-- Modelled from the spec, section 4.4: the path normalizer (an absent path
defaults to the root). -/
def pathNormalize (p : List Char) : List Char :=
  let p0 := if p = [] then ['/'] else p
  stripTrailingSlash (collapseSlashes (dotRemove (recodePath p0)))

/-! ## Query normalizer

Modelled from the spec, section 4.5: pairs are parsed by `parse_qsl`,
caller-supplied extra pairs are appended, the result is sorted by name with
a stable byte-wise sort and re-encoded with the query-safe set, a space
encoding as a plus sign. -/

/-- Re-encoding of one query byte. -/
def queryEncByte (b : Nat) : List Char :=
  if b == 32 then ['+']
  else if b < 128 && querySafeChar (Char.ofNat b) then [Char.ofNat b]
  else pctUpper b

/-- Re-encoding of a byte string for the query. -/
def queryEncBytes (bs : List Nat) : List Char := bs.flatMap queryEncByte

/-- Serialization of the sorted pair list. -/
def renderQuery (ps : List (List Nat × List Nat)) : List Char :=
  List.intercalate ['&'] (ps.map fun p => queryEncBytes p.1 ++ '=' :: queryEncBytes p.2)

/-- Byte-wise lexicographic comparison of byte strings. -/
def leBytes : List Nat → List Nat → Bool
  | [], _ => true
  | _ :: _, [] => false
  | x :: xs, y :: ys => if x < y then true else if y < x then false else leBytes xs ys

/-- Ordering of query pairs by name. -/
def pairLe (p q : List Nat × List Nat) : Prop := leBytes p.1 q.1 = true

instance : DecidableRel pairLe := fun p q => by
  unfold pairLe
  infer_instance

/-- The stable by-name sort of the query pairs (insertion sort is the stable
sorting function). -/
def sortPairs (ps : List (List Nat × List Nat)) : List (List Nat × List Nat) :=
  List.insertionSort pairLe ps

/-! ## Host normalization: validation, case folding, IDNA

Modelled from the spec, section 4.3: the host is lowercased, a single
trailing root-label dot is stripped first, non-ASCII hosts are converted
label by label to their punycode form, and bracketed IPv6 literals pass
through with their hex lowercased. -/

/-- Base-36 digit of the punycode alphabet (a-z then 0-9). -/
def punyDigit (d : Nat) : Char :=
  if d < 26 then Char.ofNat (97 + d) else Char.ofNat (22 + d)

/-- Scaling loop of the punycode bias adaptation. -/
def punyAdaptLoop : Nat → Nat → Nat → Nat × Nat
  | 0, delta, k => (delta, k)
  | fuel + 1, delta, k =>
    if 455 < delta then punyAdaptLoop fuel (delta / 35) (k + 36) else (delta, k)

/-- Punycode bias adaptation (RFC 3492 parameters). -/
def punyAdapt (delta numpoints : Nat) (firsttime : Bool) : Nat :=
  let d0 := if firsttime then delta / 700 else delta / 2
  let d1 := d0 + d0 / numpoints
  let dk := punyAdaptLoop (d1 + 1) d1 0
  dk.2 + 36 * dk.1 / (dk.1 + 38)

/-- Variable-length integer emission of punycode. -/
def punyEncInt : Nat → Nat → Nat → Nat → List Char
  | 0, _, _, _ => []
  | fuel + 1, q, k, bias =>
    let t := if k ≤ bias + 1 then 1 else if bias + 26 ≤ k then 26 else k - bias
    if q < t then [punyDigit q]
    else punyDigit (t + (q - t) % (36 - t)) ::
      punyEncInt fuel ((q - t) / (36 - t)) (k + 36) bias

/-- Inner pass of the punycode encoder over all code points for the current
value of `n`; the state is (delta, bias, handled count, output). -/
def punyInner (n b : Nat) : List Nat → Nat × Nat × Nat × List Char → Nat × Nat × Nat × List Char
  | [], st => st
  | c :: cs, (delta, bias, h, out) =>
    if c < n then punyInner n b cs (delta + 1, bias, h, out)
    else if c = n then
      punyInner n b cs
        (0, punyAdapt delta (h + 1) (h == b), h + 1,
          out ++ punyEncInt (delta + 1) delta 36 bias)
    else punyInner n b cs (delta, bias, h, out)

/-- Outer loop of the punycode encoder; the fuel is the code point count,
which bounds the number of outer iterations. -/
def punyOuter : Nat → List Nat → Nat → Nat → Nat → Nat → Nat → List Char → List Char
  | 0, _, _, _, _, _, _, out => out
  | fuel + 1, cps, b, n, delta, bias, h, out =>
    if h < cps.length then
      match cps.filter (fun c => n ≤ c) with
      | [] => out
      | c0 :: rest =>
        let m := rest.foldl Nat.min c0
        let st := punyInner m b cps (delta + (m - n) * (h + 1), bias, h, out)
        punyOuter fuel cps b (m + 1) (st.1 + 1) st.2.1 st.2.2.1 st.2.2.2
    else out

/-- Punycode encoding of one label (RFC 3492 encoder). -/
def punycodeEncode (label : List Char) : List Char :=
  let cps := label.map Char.toNat
  let basic := label.filter (fun c => c.toNat < 128)
  let b := basic.length
  punyOuter (cps.length + 1) cps b 128 0 72 b
    (basic ++ (if 0 < b then ['-'] else []))

/-- IDNA transformation of one label: all-ASCII labels pass through, any
other label becomes its punycode form behind the xn prefix. -/
def idnaLabel (l : List Char) : List Char :=
  if l.all (fun c => c.toNat < 128) then l
  else 'x' :: 'n' :: '-' :: '-' :: punycodeEncode l

/-- IDNA transformation of a dotted host. -/
def idnaHost (h : List Char) : List Char :=
  List.intercalate ['.'] ((splitOnChar '.' h).map idnaLabel)

/-- Characters allowed inside a domain label. -/
def hostCharOK (c : Char) : Bool :=
  isAlnumB c || c == '-' || c == '_' || 128 ≤ c.toNat

/-- Modelled from the spec: a usable domain host has at least two labels,
and every label is nonempty and made of allowed characters (this is the
discriminator that rejects inputs in which no usable host can be located,
such as a bare word). -/
def validDomainHost (h : List Char) : Bool :=
  let labels := splitOnChar '.' h
  2 ≤ labels.length && labels.all (fun l => !l.isEmpty && l.all hostCharOK)

/-- Characters allowed inside an IPv6 bracket literal. -/
def bracketInnerOK (c : Char) : Bool :=
  isDigitB c || (97 ≤ c.toNat && c.toNat ≤ 102) || (65 ≤ c.toNat && c.toNat ≤ 70) ||
    c == ':' || c == '.'

/-- Modelled from the spec, section 4.3: host normalization.  Bracketed
IPv6 literals are validated and lowercased; other hosts lose one trailing
root-label dot, are validated, lowercased, and pass through IDNA. -/
def normalizeHost (host : List Char) : Option (List Char) :=
  if host.take 1 = ['['] then
    let inner := (host.drop 1).dropLast
    if !inner.isEmpty && inner.all bracketInnerOK then
      some ('[' :: (inner.map toLowerBasic) ++ [']'])
    else none
  else
    let h1 := if host.getLast? = some '.' then host.dropLast else host
    if validDomainHost h1 then some (idnaHost (h1.map toLowerBasic)) else none

/-- Well-known default ports. -/
def defaultPort (scheme : List Char) : Option (List Char) :=
  if scheme = ['h', 't', 't', 'p'] then some ['8', '0']
  else if scheme = ['h', 't', 't', 'p', 's'] then some ['4', '4', '3']
  else none

/-- Modelled from the spec, sections 4.2 and 4.3: an empty port is removed,
the scheme's default port is removed, any other all-digit port is retained
verbatim, and a non-numeric port makes the authority unusable (this is the
disambiguation rule that rejects credential-like authorities such as
user-at-pass-colon-host). -/
def normalizePort (scheme : List Char) : Option (List Char) → Option (Option (List Char))
  | none => some none
  | some p =>
    if p.isEmpty then some none
    else if p.all isDigitB then
      if defaultPort scheme = some p then some none else some (some p)
    else none

/-! ## Parser and serializer

Modelled from the spec, sections 4.2 and 4.5. -/

/-- The canonical components of a successfully normalized URL. -/
structure CanonParts where
  scheme : List Char
  userinfo : Option (List Char)
  host : List Char
  port : Option (List Char)
  path : List Char
  query : List (List Nat × List Nat)
  fragment : Option (List Char)
deriving DecidableEq, Repr

/-- Modelled from the spec, section 4.2: a leading all-letter scheme
followed by the scheme separator is accepted; otherwise a scheme-relative
or bare form gets the default http scheme.  Returns the scheme and the
remainder starting at the authority. -/
def parseSchemeSplit (cs : List Char) : List Char × List Char :=
  let a := cs.takeWhile isAlphaB
  let r := cs.dropWhile isAlphaB
  if !a.isEmpty && r.take 3 = [':', '/', '/'] then (a, r.drop 3)
  else if cs.take 2 = ['/', '/'] then (['h', 't', 't', 'p'], cs.drop 2)
  else (['h', 't', 't', 'p'], cs)

/-- Characters ending the authority segment. -/
def isAuthEnd (c : Char) : Bool := c == '/' || c == '?' || c == '#'

/-- The authority is the leading token up to the first slash, question mark
or hash; the rest is path, query, fragment. -/
def splitAuthorityRest (r : List Char) : List Char × List Char :=
  (r.takeWhile (fun c => !isAuthEnd c), r.dropWhile (fun c => !isAuthEnd c))

/-- Split the tail after the authority into path, optional query, optional
fragment: the fragment starts at the first hash, the query at the first
question mark before it. -/
def splitTail (t : List Char) : List Char × Option (List Char) × Option (List Char) :=
  let fr := splitFirst '#' t
  let pq := splitFirst '?' fr.1
  (pq.1, pq.2, fr.2)

/-- Split a host-port segment: a bracketed IPv6 literal keeps its brackets
and may be followed by a colon and port; otherwise the text after the final
colon is the port.  Junk after a bracket or an unterminated bracket makes
the authority unusable. -/
def splitHostPort (hp : List Char) : Option (List Char × Option (List Char)) :=
  if hp.take 1 = ['['] then
    match splitFirst ']' (hp.drop 1) with
    | (_, none) => none
    | (inner, some rest) =>
      match rest with
      | [] => some ('[' :: inner ++ [']'], none)
      | ':' :: p => some ('[' :: inner ++ [']'], some p)
      | _ => none
  else
    match splitLast ':' hp with
    | (none, h) => some (h, none)
    | (some h, p) => some (h, some p)

/-- Modelled from the spec, sections 4.1 to 4.5: the full pipeline from
trimmed text to canonical components (the serializer excepted). -/
def normCore (raw : List Char) (extra : List (List Nat × List Nat)) : Option CanonParts :=
  let s := stripWS raw
  if s.isEmpty then none
  else
    let sr := parseSchemeSplit s
    let scheme := sr.1.map toLowerBasic
    let ar := splitAuthorityRest sr.2
    let tp := splitTail ar.2
    let uhp := splitLast '@' ar.1
    match splitHostPort uhp.2 with
    | none => none
    | some (host0, port0) =>
      match normalizeHost host0 with
      | none => none
      | some host =>
        match normalizePort scheme port0 with
        | none => none
        | some port =>
          some { scheme := scheme, userinfo := uhp.1, host := host, port := port,
                 path := pathNormalize tp.1,
                 query := sortPairs (parse_qsl (tp.2.1.getD []) ++ extra),
                 fragment := tp.2.2 }

/-- Modelled from the spec, section 4.5: final assembly of the canonical
components. -/
def renderParts (k : CanonParts) (dropFragments : Bool) : List Char :=
  k.scheme ++ ':' :: '/' :: '/' ::
    ((match k.userinfo with | some u => u ++ ['@'] | none => []) ++
      k.host ++ (match k.port with | some p => ':' :: p | none => []) ++
      k.path ++ (if k.query.isEmpty then [] else '?' :: renderQuery k.query) ++
      (if dropFragments then []
       else match k.fragment with | some f => '#' :: f | none => []))

/-- The kinds of value the public entry point may receive: text, or one of
the non-text kinds named by the spec (absence of value, a generic
collection, a numeric value). -/
inductive PyObj where
  | str (s : String)
  | noneVal
  | intVal (n : Int)
  | listVal (xs : List Int)
deriving DecidableEq

/-- Modelled from the spec, section 6: the public entry point.  Non-text
input fails immediately with the absence-of-value sentinel; text input runs
the pipeline and serializes the canonical components.  Caller-supplied
extra query pairs are UTF-8 encoded and appended to the parsed pairs before
sorting. -/
def normalize_url (url : PyObj) (extraQueryArgs : List (String × String))
    (dropFragments : Bool) : Option String :=
  match url with
  | .str s =>
    match normCore s.toList
        (extraQueryArgs.map fun p => (utf8Bytes p.1.toList, utf8Bytes p.2.toList)) with
    | some k => some (String.mk (renderParts k dropFragments))
    | none => none
  | _ => none

/-! ## Definitions used only to state claims -/

/-- The specified form of query parsing, written from the claim's words:
split the query on ampersand and semicolon, split each candidate at the
first equals sign, drop any candidate lacking one and any pair whose value
is empty, replace plus by space in name and value before percent-decoding,
and keep the surviving pairs in insertion order. -/
def parseQslSpec (qs : List Char) : List (List Nat × List Nat) :=
  ((splitOnChar '&' qs).flatMap (splitOnChar ';')).filterMap fun cand =>
    match splitFirst '=' cand with
    | (_, none) => none
    | (n, some v) =>
      if v = [] then none
      else some (unquoteToBytes (plusToSpace n), unquoteToBytes (plusToSpace v))

/-- Whether every percent sign in the text heads a triplet of uppercase
hex digits (lowercase hex after a percent sign is a violation). -/
def escapesUpperOK : List Char → Bool
  | [] => true
  | '%' :: a :: b :: r2 =>
    (hexVal a).isSome && (hexVal b).isSome && !(97 ≤ a.toNat && a.toNat ≤ 102) &&
      !(97 ≤ b.toNat && b.toNat ≤ 102) && escapesUpperOK r2
  | '%' :: _ => false
  | _ :: r => escapesUpperOK r

/-- The fixed URL skeleton used by the query tests: a query string attached
to a plain host and path. -/
def urlWithQuery (ps : List (String × String)) : String :=
  String.mk ("http://example.com/a?".toList ++
    List.intercalate ['&'] (ps.map fun p => p.1.toList ++ '=' :: p.2.toList))

/-- Characters from which permutation-invariant query pairs are built:
unreserved characters only (letters, digits, and the four unreserved
punctuation marks). -/
def unreservedChar (c : Char) : Bool :=
  isAlnumB c || c == '-' || c == '.' || c == '_' || c == '~'

/-- A query pair whose serialized form survives a reparse unchanged: no
semicolon byte in name or value, and no equals-sign byte in the name. -/
def BenignPair (p : List Nat × List Nat) : Prop :=
  59 ∉ p.1 ∧ 59 ∉ p.2 ∧ 61 ∉ p.1

instance (p : List Nat × List Nat) : Decidable (BenignPair p) := by
  unfold BenignPair
  infer_instance

/-- The canonical query pairs the pipeline computes for a text input
(empty when normalization fails). -/
def canonQueryPairs (s : String) : List (List Nat × List Nat) :=
  match normCore s.toList [] with
  | some k => k.query
  | none => []

/-- A path in canonical form at the character level: every percent sign
heads an uppercase-hex escape of a byte that is not a decodable safe byte,
and every other character is a slash or path-safe. -/
def pathCanon : List Char → Bool
  | [] => true
  | '%' :: a :: b :: r2 =>
    (match hexVal a, hexVal b with
     | some hi, some lo =>
       !(97 ≤ a.toNat && a.toNat ≤ 102) && !(97 ≤ b.toNat && b.toNat ≤ 102) &&
         !(pathSafeByte (16 * hi + lo) && !reservedByte (16 * hi + lo)) && pathCanon r2
     | _, _ => false)
  | '%' :: _ => false
  | c :: r => (c == '/' || pathSafeChar c) && pathCanon r

/-- The invariant satisfied by every normalized path: canonical characters,
absolute, no double slash, root or no trailing slash, and no empty or dot
segments (except for the bare root). -/
def PathWF (p : List Char) : Prop :=
  pathCanon p = true ∧ (∃ t, p = '/' :: t) ∧
  p.Chain' (fun a b => ¬(a = '/' ∧ b = '/')) ∧
  (p = ['/'] ∨ p.getLast? ≠ some '/') ∧
  (p = ['/'] ∨ ∀ x ∈ splitOnChar '/' p.tail, x ≠ [] ∧ x ≠ ['.'] ∧ x ≠ ['.', '.'])

/-- The invariant satisfied by every normalized host: a lowercased
bracketed IPv6 literal, or a validated all-ASCII lowercase domain fixed by
the IDNA transformation. -/
def HostWF (h : List Char) : Prop :=
  (∃ inner, h = '[' :: inner ++ [']'] ∧ inner ≠ [] ∧
    (∀ c ∈ inner, bracketInnerOK c = true) ∧ inner.map toLowerBasic = inner) ∨
  (validDomainHost h = true ∧ h.map toLowerBasic = h ∧ (∀ c ∈ h, c.toNat < 128) ∧
    idnaHost h = h ∧ h.getLast? ≠ some '.')

/-- The invariant satisfied by the canonical components of every
successfully normalized URL. -/
structure CanonWF (K : CanonParts) : Prop where
  scheme_ne : K.scheme ≠ []
  scheme_lower : ∀ c ∈ K.scheme, 97 ≤ c.toNat ∧ c.toNat ≤ 122
  ui_ok : ∀ u, K.userinfo = some u → ∀ c ∈ u, isAuthEnd c = false
  host_wf : HostWF K.host
  port_ok : ∀ p, K.port = some p → p ≠ [] ∧ (∀ c ∈ p, isDigitB c = true) ∧
    defaultPort K.scheme ≠ some p
  path_wf : PathWF K.path
  query_bytes : ∀ q ∈ K.query, (∀ b ∈ q.1, b < 256) ∧ ∀ b ∈ q.2, b < 256
  query_sorted : List.Sorted pairLe K.query

/-- A canonical path token: an escape of a byte that must stay escaped, or
a literal that is a slash or path-safe (never a percent sign). -/
def tokCanon : PTok → Prop
  | .esc b => b < 256 ∧ (pathSafeByte b && !reservedByte b) = false
  | .lit c => c ≠ '%' ∧ (c == '/' || pathSafeChar c) = true

/-! ## Supporting lemmas -/

theorem splitOnChar_nil (sep : Char) : splitOnChar sep [] = [[]] := rfl

theorem splitOnChar_ne_nil (sep : Char) (l : List Char) : splitOnChar sep l ≠ [] :=
  List.splitOnP_ne_nil _ l

theorem splitOnChar_cons_eq (sep : Char) (cs : List Char) :
    splitOnChar sep (sep :: cs) = [] :: splitOnChar sep cs := by
  simp [splitOnChar, List.splitOn, List.splitOnP_cons]

theorem splitOnChar_cons_ne (sep c : Char) (cs : List Char) (h : c ≠ sep) :
    splitOnChar sep (c :: cs) =
      (c :: (splitOnChar sep cs).headI) :: (splitOnChar sep cs).tail := by
  simp only [splitOnChar, List.splitOn, List.splitOnP_cons, beq_eq_false_iff_ne.mpr h,
    if_neg]
  rcases hs : cs.splitOnP (· == sep) with _ | ⟨p, ps⟩
  · exact absurd hs (List.splitOnP_ne_nil _ cs)
  · simp

/-- Joining the pieces of a split with the separator recovers the input. -/
theorem intercalate_splitOnChar (sep : Char) (l : List Char) :
    List.intercalate [sep] (splitOnChar sep l) = l := by
  simp only [splitOnChar]
  exact List.intercalate_splitOn l sep

/-- Splitting is a left inverse of joining when no piece contains the
separator. -/
theorem splitOnChar_intercalate (sep : Char) (ls : List (List Char))
    (hx : ∀ l ∈ ls, sep ∉ l) (hls : ls ≠ []) :
    splitOnChar sep (List.intercalate [sep] ls) = ls := by
  simp only [splitOnChar]
  exact List.splitOn_intercalate ls sep hx hls

/-- A list free of the separator splits into a single piece. -/
theorem splitOnChar_eq_single (sep : Char) (l : List Char) (h : sep ∉ l) :
    splitOnChar sep l = [l] := by
  refine List.splitOnP_eq_single _ _ ?_
  intro x hx hb
  rw [beq_iff_eq] at hb
  subst hb
  exact h hx

theorem splitFirst_not_mem (sep : Char) (l : List Char) (h : sep ∉ l) :
    splitFirst sep l = (l, none) := by
  induction l with
  | nil => rfl
  | cons c cs ih =>
    rw [List.mem_cons, not_or] at h
    have hc : c ≠ sep := fun hh => h.1 hh.symm
    simp [splitFirst, hc, ih h.2]

theorem splitFirst_append (sep : Char) (u v : List Char) (h : sep ∉ u) :
    splitFirst sep (u ++ sep :: v) = (u, some v) := by
  induction u with
  | nil => simp [splitFirst]
  | cons c cs ih =>
    rw [List.mem_cons, not_or] at h
    have hc : c ≠ sep := fun hh => h.1 hh.symm
    simp [splitFirst, hc, ih h.2]

theorem plusToSpace_eq_self (l : List Char) (h : '+' ∉ l) : plusToSpace l = l := by
  induction l with
  | nil => rfl
  | cons c cs ih =>
    rw [List.mem_cons, not_or] at h
    have hc : c ≠ '+' := fun hh => h.1 hh.symm
    simp only [plusToSpace] at ih ⊢
    simp [hc, ih h.2]

theorem hexVal_hexDigitUpper : ∀ n, n < 16 → hexVal (hexDigitUpper n) = some n := by
  decide

theorem isAlnumB_hexDigitUpper : ∀ n, n < 16 → isAlnumB (hexDigitUpper n) = true := by
  decide

/-! ### Step equations for unquote_to_bytes -/

theorem unquoteToBytes_nil : unquoteToBytes [] = [] := rfl

theorem unquoteToBytes_cons_lit (c : Char) (cs : List Char) (h : c ≠ '%') :
    unquoteToBytes (c :: cs) = utf8EncodeChar c ++ unquoteToBytes cs := by
  rcases hs : splitOnChar '%' cs with _ | ⟨first, rest⟩
  · exact absurd hs (splitOnChar_ne_nil _ cs)
  · rw [unquoteToBytes, splitOnChar_cons_ne '%' c cs h, hs]
    rw [unquoteToBytes, hs]
    simp [utf8Bytes]

theorem unquoteToBytes_pct (a b : Char) (hi lo : Nat) (r : List Char)
    (ha : hexVal a = some hi) (hb : hexVal b = some lo) :
    unquoteToBytes ('%' :: a :: b :: r) = (16 * hi + lo) :: unquoteToBytes r := by
  have hpct : hexVal '%' = none := rfl
  have hA : a ≠ '%' := by
    intro h
    rw [h, hpct] at ha
    cases ha
  have hB : b ≠ '%' := by
    intro h
    rw [h, hpct] at hb
    cases hb
  rcases hs : splitOnChar '%' r with _ | ⟨fr, rr⟩
  · exact absurd hs (splitOnChar_ne_nil _ r)
  rw [unquoteToBytes, splitOnChar_cons_eq, splitOnChar_cons_ne '%' a _ hA,
    splitOnChar_cons_ne '%' b _ hB, hs]
  rw [unquoteToBytes, hs]
  simp [unquotePiece, ha, hb, utf8Bytes]

/-- Percent-decoding inverts full percent-encoding on arbitrary bytes: the
decoded content is the exact byte string, whether or not it is valid
UTF-8. -/
theorem unquote_pctUpper_flat (bs : List Nat) (h : ∀ b ∈ bs, b < 256) :
    unquoteToBytes (bs.flatMap pctUpper) = bs := by
  induction bs with
  | nil => rfl
  | cons b rest ih =>
    have hb : b < 256 := h b (List.mem_cons_self b rest)
    have h16a : b / 16 < 16 := by omega
    have h16b : b % 16 < 16 := by omega
    rw [List.flatMap_cons]
    show unquoteToBytes ('%' :: hexDigitUpper (b / 16) :: hexDigitUpper (b % 16) ::
      rest.flatMap pctUpper) = b :: rest
    rw [unquoteToBytes_pct _ _ _ _ _ (hexVal_hexDigitUpper _ h16a)
      (hexVal_hexDigitUpper _ h16b)]
    rw [ih (fun x hx => h x (List.mem_cons_of_mem b hx))]
    congr 1
    omega

theorem mem_pctUpper_flat (bs : List Nat) (hb : ∀ b ∈ bs, b < 256) (c : Char)
    (hc : c ∈ bs.flatMap pctUpper) : c = '%' ∨ isAlnumB c = true := by
  rw [List.mem_flatMap] at hc
  rcases hc with ⟨b, hbmem, hcb⟩
  have h256 := hb b hbmem
  simp only [pctUpper, List.mem_cons, List.not_mem_nil, or_false] at hcb
  rcases hcb with h | h | h
  · exact Or.inl h
  · exact Or.inr (h ▸ isAlnumB_hexDigitUpper _ (by omega))
  · exact Or.inr (h ▸ isAlnumB_hexDigitUpper _ (by omega))

theorem not_mem_pctUpper_flat (bs : List Nat) (hb : ∀ b ∈ bs, b < 256) (c : Char)
    (hc : c ≠ '%') (ha : isAlnumB c = false) : c ∉ bs.flatMap pctUpper := by
  intro hmem
  rcases mem_pctUpper_flat bs hb c hmem with h | h
  · exact hc h
  · rw [h] at ha
    cases ha

theorem pctUpper_flat_ne_nil (bs : List Nat) (h : bs ≠ []) :
    bs.flatMap pctUpper ≠ [] := by
  cases bs with
  | nil => exact absurd rfl h
  | cons b r => simp [pctUpper]

theorem parseQslLoop_eq_filterMap (l : List (List Char)) :
    parseQslLoop l = l.filterMap fun cand =>
      match splitFirst '=' cand with
      | (_, none) => none
      | (n, some v) =>
        if v = [] then none
        else some (unquoteToBytes (plusToSpace n), unquoteToBytes (plusToSpace v)) := by
  induction l with
  | nil => rfl
  | cons nv rest ih =>
    rw [List.filterMap_cons]
    by_cases h : nv = []
    · subst h
      simp only [parseQslLoop, if_pos rfl, ih]
      rfl
    · rcases hnv : splitFirst '=' nv with ⟨n, vo⟩
      cases vo with
      | none => simp [parseQslLoop, h, hnv, ih]
      | some v =>
        by_cases hv : v = []
        · simp [parseQslLoop, h, hnv, hv, ih]
        · simp [parseQslLoop, h, hnv, hv, ih]

/-- Parsing a single fully percent-encoded pair recovers its exact bytes. -/
theorem parse_qsl_encoded_pair (n v : List Nat) (hn : ∀ b ∈ n, b < 256)
    (hv : ∀ b ∈ v, b < 256) (hne : v ≠ []) :
    parse_qsl (n.flatMap pctUpper ++ '=' :: v.flatMap pctUpper) = [(n, v)] := by
  have hAmp : '&' ∉ n.flatMap pctUpper ++ '=' :: v.flatMap pctUpper := by
    intro hmem
    rcases List.mem_append.mp hmem with h | h
    · exact not_mem_pctUpper_flat n hn '&' (by decide) (by decide) h
    · rcases List.mem_cons.mp h with h | h
      · cases h
      · exact not_mem_pctUpper_flat v hv '&' (by decide) (by decide) h
  have hSemi : ';' ∉ n.flatMap pctUpper ++ '=' :: v.flatMap pctUpper := by
    intro hmem
    rcases List.mem_append.mp hmem with h | h
    · exact not_mem_pctUpper_flat n hn ';' (by decide) (by decide) h
    · rcases List.mem_cons.mp h with h | h
      · cases h
      · exact not_mem_pctUpper_flat v hv ';' (by decide) (by decide) h
  have hEq : '=' ∉ n.flatMap pctUpper :=
    not_mem_pctUpper_flat n hn '=' (by decide) (by decide)
  have hPlusN : '+' ∉ n.flatMap pctUpper :=
    not_mem_pctUpper_flat n hn '+' (by decide) (by decide)
  have hPlusV : '+' ∉ v.flatMap pctUpper :=
    not_mem_pctUpper_flat v hv '+' (by decide) (by decide)
  rw [parse_qsl, splitOnChar_eq_single _ _ hAmp]
  rw [List.flatMap_cons, List.flatMap_nil, List.append_nil,
    splitOnChar_eq_single _ _ hSemi]
  have hcand : (n.flatMap pctUpper ++ '=' :: v.flatMap pctUpper) ≠ [] := by
    simp
  rw [parseQslLoop, if_neg hcand, splitFirst_append _ _ _ hEq]
  dsimp only
  rw [if_neg (pctUpper_flat_ne_nil v hne)]
  rw [plusToSpace_eq_self _ hPlusN, plusToSpace_eq_self _ hPlusV]
  rw [unquote_pctUpper_flat n hn, unquote_pctUpper_flat v hv]
  rfl

theorem parseQslLoopE_default_ok (l : List (List Char)) :
    parseQslLoopE false false false l =
      .ok ((parseQslLoop l).map fun p => (PyStr.bytes p.1, PyStr.bytes p.2)) := by
  induction l with
  | nil => rfl
  | cons nv rest ih =>
    by_cases h : nv = []
    · subst h
      simp [parseQslLoopE, parseQslLoop, ih]
    · rcases hnv : splitFirst '=' nv with ⟨n, vo⟩
      cases vo with
      | none => simp [parseQslLoopE, parseQslLoop, h, hnv, ih]
      | some v =>
        by_cases hv : v = []
        · subst hv
          simp [parseQslLoopE, parseQslLoop, h, hnv, ih]
        · have hv2 : v.isEmpty = false := by
            cases v with
            | nil => exact absurd rfl hv
            | cons a r => rfl
          simp only [parseQslLoopE, parseQslLoop, h, hnv, hv, hv2, processPairE,
            coerce_result, ih, Bool.not_false, Bool.and_false, Bool.false_and,
            if_neg, if_pos, ite_false, ite_true]
          rfl

/-! ## Claims -/

/-- C3: for every text query string, `_parse_qsl` with its default options
splits on both ampersand and semicolon, splits each candidate at the first
equals sign, drops candidates lacking one and pairs with an empty value,
replaces plus by a literal space in name and value before percent-decoding,
and returns the surviving pairs in insertion order. -/
theorem claim_C3_parse_qsl_algorithm (qs : List Char) :
    parse_qsl qs = parseQslSpec qs := by
  rw [parse_qsl, parseQslSpec, parseQslLoop_eq_filterMap]

/-- C4: each pair produced by `_parse_qsl` carries raw percent-decoded
bytes: full percent-encodings of arbitrary byte strings (valid UTF-8 or
not) decode to exactly those bytes, a fully encoded pair parses back to its
exact byte content, and the concrete non-UTF-8 query decodes without any
replacement or dropping. -/
theorem claim_C4_raw_byte_preservation :
    (∀ bs : List Nat, (∀ b ∈ bs, b < 256) →
      unquoteToBytes (bs.flatMap pctUpper) = bs) ∧
    (∀ n v : List Nat, (∀ b ∈ n, b < 256) → (∀ b ∈ v, b < 256) → v ≠ [] →
      parse_qsl (n.flatMap pctUpper ++ '=' :: v.flatMap pctUpper) = [(n, v)]) ∧
    parse_qsl "a=%FF%FE".toList = [([97], [255, 254])] :=
  ⟨unquote_pctUpper_flat, parse_qsl_encoded_pair, by decide⟩

theorem claim_C4_witness :
    unquoteToBytes (([255, 0, 128] : List Nat).flatMap pctUpper) = [255, 0, 128] ∧
    parse_qsl (([97] : List Nat).flatMap pctUpper ++ '=' ::
      ([255, 254] : List Nat).flatMap pctUpper) = [([97], [255, 254])] :=
  ⟨claim_C4_raw_byte_preservation.1 [255, 0, 128] (by decide),
   claim_C4_raw_byte_preservation.2.1 [97] [255, 254] (by decide) (by decide)
     (by decide)⟩

/-- C8: every non-text input (absence of value, a generic collection, a
numeric value) makes `normalize_url` return the failure sentinel
immediately; the option type is the only error channel. -/
theorem claim_C8_non_text_input (x : PyObj) (extra : List (String × String))
    (drop : Bool) (h : ∀ s, x ≠ PyObj.str s) :
    normalize_url x extra drop = none := by
  cases x with
  | str s => exact absurd rfl (h s)
  | noneVal => rfl
  | intVal n => rfl
  | listVal xs => rfl

theorem claim_C8_witness :
    normalize_url PyObj.noneVal [] true = none ∧
    normalize_url (PyObj.listVal []) [] true = none ∧
    normalize_url (PyObj.intVal 123) [] true = none :=
  ⟨claim_C8_non_text_input _ [] true (fun s h => by cases h),
   claim_C8_non_text_input _ [] true (fun s h => by cases h),
   claim_C8_non_text_input _ [] true (fun s h => by cases h)⟩

/-- C10: on any text input, `_parse_qsl` with its default arguments returns
a value through the ordinary channel: the strict-parsing ValueError branch
and the mixed-argument TypeError branch of `_coerce_args` are never
taken. -/
theorem claim_C10_parse_qsl_total (s : String) :
    parse_qslE (.str s) false false =
      .ok ((parse_qsl s.toList).map fun p => (PyStr.bytes p.1, PyStr.bytes p.2)) := by
  show parseQslLoopE false false false
    ((splitOnChar '&' s.toList).flatMap (splitOnChar ';')) = _
  rw [parseQslLoopE_default_ok, parse_qsl]

/-! ### Path lemmas -/

theorem collapse_cons_head (b : Char) (r : List Char) :
    ∃ t, collapseSlashes (b :: r) = b :: t := by
  induction r generalizing b with
  | nil => exact ⟨[], rfl⟩
  | cons c r' ih =>
    by_cases h : b = '/' ∧ c = '/'
    · rcases ih c with ⟨t, ht⟩
      refine ⟨t, ?_⟩
      rw [show collapseSlashes (b :: c :: r') = collapseSlashes (c :: r') by
        simp [collapseSlashes, h.1, h.2]]
      rw [ht, h.1, h.2]
    · rcases ih c with ⟨t, ht⟩
      refine ⟨collapseSlashes (c :: r'), ?_⟩
      rw [show collapseSlashes (b :: c :: r') = b :: collapseSlashes (c :: r') by
        by_cases hb : b = '/' <;> by_cases hc : c = '/' <;>
          simp_all [collapseSlashes]]

/-- The collapsed path never contains two adjacent slashes. -/
theorem collapse_no_double (l : List Char) :
    (collapseSlashes l).Chain' (fun a b => ¬(a = '/' ∧ b = '/')) := by
  induction l with
  | nil => simp [collapseSlashes]
  | cons a tail ih =>
    cases tail with
    | nil => simp [collapseSlashes]
    | cons b r =>
      by_cases h : a = '/' ∧ b = '/'
      · rw [show collapseSlashes (a :: b :: r) = collapseSlashes (b :: r) by
          simp [collapseSlashes, h.1, h.2]]
        exact ih
      · rw [show collapseSlashes (a :: b :: r) = a :: collapseSlashes (b :: r) by
          by_cases ha : a = '/' <;> by_cases hb : b = '/' <;>
            simp_all [collapseSlashes]]
        rcases collapse_cons_head b r with ⟨t, ht⟩
        rw [ht]
        rw [ht] at ih
        exact List.Chain'.cons (fun hab => h hab) ih

/-- Stripping the trailing slash of a double-slash-free path leaves either
the root or a path with no trailing slash. -/
theorem strip_no_trailing (q : List Char)
    (hch : q.Chain' (fun a b => ¬(a = '/' ∧ b = '/'))) :
    stripTrailingSlash q = ['/'] ∨ (stripTrailingSlash q).getLast? ≠ some '/' := by
  by_cases h1 : q = ['/']
  · left
    rw [stripTrailingSlash, if_pos h1]
    exact h1
  · rw [stripTrailingSlash, if_neg h1]
    by_cases h2 : q.getLast? = some '/'
    · rw [if_pos h2]
      right
      intro hcontra
      have hq : q ≠ [] := by
        intro hq
        rw [hq] at h2
        cases h2
      have hinit : q.dropLast ≠ [] := by
        intro hd
        rw [hd] at hcontra
        cases hcontra
      have e1 : q.dropLast.dropLast ++ ['/'] = q.dropLast := by
        have h3 := List.dropLast_append_getLast hinit
        rwa [(List.getLast_eq_iff_getLast?_eq_some hinit).mpr hcontra] at h3
      have e2 : q.dropLast ++ ['/'] = q := by
        have h3 := List.dropLast_append_getLast hq
        rwa [(List.getLast_eq_iff_getLast?_eq_some hq).mpr h2] at h3
      have e3 : q.dropLast.dropLast ++ ['/', '/'] = q := by
        rw [← e2, ← e1]
        simp
      rw [← e3] at hch
      rcases (List.chain'_append.mp hch) with ⟨_, hc2, _⟩
      simp at hc2
    · rw [if_neg h2]
      right
      exact h2

/-- The normalized path is the root or carries no trailing slash. -/
theorem pathNormalize_root_or_no_trailing (p : List Char) :
    pathNormalize p = ['/'] ∨ (pathNormalize p).getLast? ≠ some '/' := by
  rw [pathNormalize]
  exact strip_no_trailing _ (collapse_no_double _)

/-- C6: a percent-escaped reserved delimiter (slash, question mark, hash)
in the path is never decoded: its token survives recoding and renders as an
uppercase-hex escape; a percent-escaped path-safe unreserved byte is
decoded to its literal character; concretely, an escaped slash keeps its
escape with uppercase hex and an escaped tilde becomes the literal
character, end to end. -/
theorem claim_C6_reserved_escapes :
    (∀ b : Nat, reservedByte b = true →
      normTok (.esc b) = [.esc b] ∧ renderToks (normTok (.esc b)) = pctUpper b) ∧
    (∀ b : Nat, pathSafeByte b = true → reservedByte b = false →
      normTok (.esc b) = [.lit (Char.ofNat b)]) ∧
    recodePath "/a%2fb%3f%23%7e".toList = "/a%2Fb%3F%23~".toList ∧
    normalize_url (.str "http://example.com/foo%2fbar") [] true =
      some "http://example.com/foo%2Fbar" ∧
    normalize_url (.str "http://www.example.com/%7Eusername/") [] true =
      some "http://www.example.com/~username" := by
  refine ⟨?_, ?_, by decide, by decide, by decide⟩
  · intro b h
    constructor
    · simp [normTok, h]
    · simp [normTok, h, renderToks, renderTok]
  · intro b h1 h2
    simp [normTok, h1, h2]

theorem claim_C6_witness :
    normTok (.esc 47) = [.esc 47] ∧ normTok (.esc 126) = [.lit '~'] := by
  constructor
  · exact (claim_C6_reserved_escapes.1 47 (by decide)).1
  · exact claim_C6_reserved_escapes.2.1 126 (by decide) (by decide)

/-- C7: the normalized path is either exactly the root or carries no
trailing slash (one trailing slash having been stripped); concretely the
trailing slash before a query is dropped and the root path stays exactly
the root. -/
theorem claim_C7_trailing_slash :
    (∀ p : List Char,
      pathNormalize p = ['/'] ∨ (pathNormalize p).getLast? ≠ some '/') ∧
    normalize_url (.str "http://example.com/a/?b=1") [] true =
      some "http://example.com/a?b=1" ∧
    normalize_url (.str "http://example.com/") [] true =
      some "http://example.com/" ∧
    pathNormalize "/a/b/".toList = "/a/b".toList :=
  ⟨pathNormalize_root_or_no_trailing, by decide, by decide, by decide⟩

/-! ### Symbolic evaluation of the parser -/

theorem takeWhile_boundary (p : Char → Bool) (u q : List Char)
    (hu : ∀ c ∈ u, p c = true)
    (hq : q = [] ∨ ∃ c t, q = c :: t ∧ p c = false) :
    (u ++ q).takeWhile p = u ∧ (u ++ q).dropWhile p = q := by
  induction u with
  | nil =>
    rcases hq with h | ⟨c, t, hcq, hc⟩
    · subst h
      simp
    · subst hcq
      simp [List.takeWhile_cons, List.dropWhile_cons, hc]
  | cons a u2 ih =>
    have ha := hu a (List.mem_cons_self a u2)
    have ih2 := ih (fun c hc => hu c (List.mem_cons_of_mem a hc))
    simp [List.takeWhile_cons, List.dropWhile_cons, ha, ih2.1, ih2.2]

theorem stripWS_append (u q : List Char) (hu : u ≠ [])
    (hh : ∀ c, u.head? = some c → isWSB c = false)
    (hl : ∀ c, u.getLast? = some c → isWSB c = false) :
    stripWS (u ++ q) = u ++ (q.reverse.dropWhile isWSB).reverse := by
  have h1 : (u ++ q).dropWhile isWSB = u ++ q := by
    cases u with
    | nil => exact absurd rfl hu
    | cons c t => simp [List.dropWhile_cons, hh c rfl]
  rw [stripWS, h1, List.reverse_append, List.dropWhile_append]
  by_cases he : (q.reverse.dropWhile isWSB).isEmpty
  · rw [if_pos he]
    have h2 : u.reverse.dropWhile isWSB = u.reverse := by
      cases hr : u.reverse with
      | nil => simp
      | cons d r =>
        have hd : u.getLast? = some d := by
          rw [← List.head?_reverse, hr]
          rfl
        simp [List.dropWhile_cons, hl d hd]
    have h3 : q.reverse.dropWhile isWSB = [] := by
      cases hq : q.reverse.dropWhile isWSB with
      | nil => rfl
      | cons x xs =>
        rw [hq] at he
        cases he
    rw [h2, h3, List.reverse_reverse]
    simp
  · rw [if_neg he]
    simp

theorem stripWS_eq_self (u : List Char) (hu : u ≠ [])
    (hh : ∀ c, u.head? = some c → isWSB c = false)
    (hl : ∀ c, u.getLast? = some c → isWSB c = false) :
    stripWS u = u := by
  have h := stripWS_append u [] hu hh hl
  simpa using h

theorem rtrim_head_cases (q : List Char) :
    (q.reverse.dropWhile isWSB).reverse = [] ∨
      ((q.reverse.dropWhile isWSB).reverse).head? = q.head? := by
  rcases List.dropWhile_suffix (l := q.reverse) isWSB with ⟨t, ht⟩
  cases hr : (q.reverse.dropWhile isWSB).reverse with
  | nil => exact Or.inl rfl
  | cons a r =>
    right
    have hq : q = (q.reverse.dropWhile isWSB).reverse ++ t.reverse := by
      rw [← List.reverse_append, ht, List.reverse_reverse]
    rw [hq, hr]
    simp

theorem splitLast_not_mem (sep : Char) (l : List Char) (h : sep ∉ l) :
    splitLast sep l = (none, l) := by
  rw [splitLast, splitFirst_not_mem sep l.reverse (by simpa using h)]

theorem splitLast_append (sep : Char) (u v : List Char) (h : sep ∉ v) :
    splitLast sep (u ++ sep :: v) = (some u, v) := by
  have h2 : (u ++ sep :: v).reverse = v.reverse ++ sep :: u.reverse := by
    simp
  rw [splitLast, h2, splitFirst_append sep _ _ (by simpa using h)]
  simp

theorem parseSchemeSplit_scheme (sch w : List Char) (hs : sch ≠ [])
    (ha : ∀ c ∈ sch, isAlphaB c = true) :
    parseSchemeSplit (sch ++ ':' :: '/' :: '/' :: w) = (sch, w) := by
  have hb := takeWhile_boundary isAlphaB sch (':' :: '/' :: '/' :: w) ha
    (Or.inr ⟨':', '/' :: '/' :: w, rfl, by decide⟩)
  rw [parseSchemeSplit]
  simp only [hb.1, hb.2]
  have hsne : sch.isEmpty = false := by
    cases sch with
    | nil => exact absurd rfl hs
    | cons c t => rfl
  simp [hsne]

theorem splitAuthorityRest_boundary (A q : List Char)
    (hA : ∀ c ∈ A, isAuthEnd c = false)
    (hq : q = [] ∨ ∃ c t, q = c :: t ∧ isAuthEnd c = true) :
    splitAuthorityRest (A ++ q) = (A, q) := by
  have hb := takeWhile_boundary (fun c => !isAuthEnd c) A q
    (fun c hc => by simp only [hA c hc]; rfl)
    (by
      rcases hq with h | ⟨c, t, hcq, hc⟩
      · exact Or.inl h
      · exact Or.inr ⟨c, t, hcq, by simp only [hc]; rfl⟩)
  rw [splitAuthorityRest, hb.1, hb.2]

/-- Symbolic evaluation of the pipeline core on an input whose stripped
form decomposes into a scheme, an authority, and a tail that starts at an
authority-ending character. -/
theorem normCore_eval (raw sch A q : List Char) (extra : List (List Nat × List Nat))
    (hstrip : stripWS raw = sch ++ ':' :: '/' :: '/' :: (A ++ q))
    (hs : sch ≠ []) (hsa : ∀ c ∈ sch, isAlphaB c = true)
    (hA : ∀ c ∈ A, isAuthEnd c = false)
    (hq : q = [] ∨ ∃ c t, q = c :: t ∧ isAuthEnd c = true) :
    normCore raw extra =
      match splitHostPort (splitLast '@' A).2 with
      | none => none
      | some (host0, port0) =>
        match normalizeHost host0 with
        | none => none
        | some host =>
          match normalizePort (sch.map toLowerBasic) port0 with
          | none => none
          | some port =>
            some { scheme := sch.map toLowerBasic, userinfo := (splitLast '@' A).1,
                   host := host, port := port,
                   path := pathNormalize (splitTail q).1,
                   query := sortPairs (parse_qsl ((splitTail q).2.1.getD []) ++ extra),
                   fragment := (splitTail q).2.2 } := by
  have hne : (sch ++ ':' :: '/' :: '/' :: (A ++ q)).isEmpty = false := by
    cases sch with
    | nil => rfl
    | cons c t => rfl
  rw [normCore, hstrip]
  simp only [hne, Bool.false_eq_true, if_false, parseSchemeSplit_scheme sch _ hs hsa,
    splitAuthorityRest_boundary A q hA hq]

theorem digit_not_authEnd (c : Char) (h : isDigitB c = true) : isAuthEnd c = false := by
  simp only [isDigitB, Bool.and_eq_true, decide_eq_true_eq] at h
  simp only [isAuthEnd, Bool.or_eq_false_iff, beq_eq_false_iff_ne]
  refine ⟨⟨?_, ?_⟩, ?_⟩ <;> intro hc <;> subst hc <;> revert h <;> decide

theorem digit_ne_char (c d : Char) (h : isDigitB c = true) (hd : isDigitB d = false) :
    c ≠ d := by
  intro hc
  subst hc
  rw [h] at hd
  cases hd

theorem head_hyp_of_cons (a : Char) (t : List Char) (ha : isWSB a = false) :
    ∀ c : Char, (a :: t).head? = some c → isWSB c = false := by
  intro c hc
  cases hc
  exact ha

theorem last_hyp_of_eq (u : List Char) (d : Char) (hd : u.getLast? = some d)
    (hw : isWSB d = false) : ∀ c : Char, u.getLast? = some c → isWSB c = false := by
  intro c hc
  rw [hd] at hc
  cases hc
  exact hw

theorem rtrim_tail_cond (rest : List Char)
    (hrest : rest = [] ∨ ∃ c t, rest = c :: t ∧ isAuthEnd c = true) :
    (rest.reverse.dropWhile isWSB).reverse = [] ∨
      ∃ c t, (rest.reverse.dropWhile isWSB).reverse = c :: t ∧ isAuthEnd c = true := by
  rcases rtrim_head_cases rest with h | h
  · exact Or.inl h
  · cases hq : (rest.reverse.dropWhile isWSB).reverse with
    | nil => exact Or.inl rfl
    | cons a r =>
      rcases hrest with h0 | ⟨c, t, hct, hc⟩
      · subst h0
        exact List.noConfusion hq
      · right
        rw [hq, hct] at h
        injection h with h2
        exact ⟨a, r, rfl, h2 ▸ hc⟩

theorem splitHostPort_no_colon (c : Char) (t : List Char)
    (hc : c ≠ '[') (hp : ':' ∉ c :: t) :
    splitHostPort (c :: t) = some (c :: t, none) := by
  rw [splitHostPort]
  rw [if_neg (by
    intro h
    rw [show (c :: t).take 1 = [c] from rfl] at h
    exact hc (List.cons_eq_cons.mp h).1)]
  rw [splitLast_not_mem ':' (c :: t) hp]

theorem splitHostPort_colon (host port : List Char) (c : Char) (t : List Char)
    (hh : host = c :: t) (hc : c ≠ '[') (hpc : ':' ∉ port) :
    splitHostPort (host ++ ':' :: port) = some (host, some port) := by
  subst hh
  rw [splitHostPort]
  rw [if_neg (by
    intro h
    rw [show ((c :: t) ++ ':' :: port).take 1 = [c] from rfl] at h
    exact hc (List.cons_eq_cons.mp h).1)]
  rw [splitLast_append ':' (c :: t) port hpc]

/-- C5: an empty port (bare trailing colon) is removed; the scheme's
default port (80 for http, 443 for https) is removed, so the URL
normalizes identically to the same URL without the port; any other
(all-digit, nonempty) port survives into the canonical components
verbatim.  The tail quantifies over every continuation of the authority
(nothing, a path, a query, or a fragment). -/
theorem claim_C5_port_normalization :
    (∀ rest : List Char,
      (rest = [] ∨ ∃ c t, rest = c :: t ∧ isAuthEnd c = true) →
      normalize_url (.str (String.mk ("http://example.com:80".toList ++ rest))) [] true =
        normalize_url (.str (String.mk ("http://example.com".toList ++ rest))) [] true ∧
      normalize_url (.str (String.mk ("https://example.com:443".toList ++ rest))) [] true =
        normalize_url (.str (String.mk ("https://example.com".toList ++ rest))) [] true ∧
      normalize_url (.str (String.mk ("http://example.com:".toList ++ rest))) [] true =
        normalize_url (.str (String.mk ("http://example.com".toList ++ rest))) [] true) ∧
    (∀ port : List Char, port ≠ [] → (∀ c ∈ port, isDigitB c = true) →
      port ≠ "80".toList →
      (normCore ("http://example.com:".toList ++ port ++ "/a".toList) []).map
        CanonParts.port = some (some port)) := by
  constructor
  · intro rest hrest
    have hq := rtrim_tail_cond rest hrest
    have e80 := normCore_eval ("http://example.com:80".toList ++ rest) "http".toList
      "example.com:80".toList ((rest.reverse.dropWhile isWSB).reverse) []
      (stripWS_append "http://example.com:80".toList rest
        (fun hc => List.noConfusion hc)
        (head_hyp_of_cons 'h' _ (by decide))
        (last_hyp_of_eq _ '0' rfl (by decide)))
      (by decide) (by decide) (by decide) hq
    have eP0 := normCore_eval ("http://example.com".toList ++ rest) "http".toList
      "example.com".toList ((rest.reverse.dropWhile isWSB).reverse) []
      (stripWS_append "http://example.com".toList rest
        (fun hc => List.noConfusion hc)
        (head_hyp_of_cons 'h' _ (by decide))
        (last_hyp_of_eq _ 'm' rfl (by decide)))
      (by decide) (by decide) (by decide) hq
    have e443 := normCore_eval ("https://example.com:443".toList ++ rest) "https".toList
      "example.com:443".toList ((rest.reverse.dropWhile isWSB).reverse) []
      (stripWS_append "https://example.com:443".toList rest
        (fun hc => List.noConfusion hc)
        (head_hyp_of_cons 'h' _ (by decide))
        (last_hyp_of_eq _ '3' rfl (by decide)))
      (by decide) (by decide) (by decide) hq
    have eS0 := normCore_eval ("https://example.com".toList ++ rest) "https".toList
      "example.com".toList ((rest.reverse.dropWhile isWSB).reverse) []
      (stripWS_append "https://example.com".toList rest
        (fun hc => List.noConfusion hc)
        (head_hyp_of_cons 'h' _ (by decide))
        (last_hyp_of_eq _ 'm' rfl (by decide)))
      (by decide) (by decide) (by decide) hq
    have eC := normCore_eval ("http://example.com:".toList ++ rest) "http".toList
      "example.com:".toList ((rest.reverse.dropWhile isWSB).reverse) []
      (stripWS_append "http://example.com:".toList rest
        (fun hc => List.noConfusion hc)
        (head_hyp_of_cons 'h' _ (by decide))
        (last_hyp_of_eq _ ':' rfl (by decide)))
      (by decide) (by decide) (by decide) hq
    refine ⟨?_, ?_, ?_⟩
    · have h12 : normCore ("http://example.com:80".toList ++ rest) [] =
          normCore ("http://example.com".toList ++ rest) [] := by
        rw [e80, eP0]
        rfl
      exact congrArg
        (fun o => match o with
          | some k => some (String.mk (renderParts k true))
          | none => none) h12
    · have h12 : normCore ("https://example.com:443".toList ++ rest) [] =
          normCore ("https://example.com".toList ++ rest) [] := by
        rw [e443, eS0]
        rfl
      exact congrArg
        (fun o => match o with
          | some k => some (String.mk (renderParts k true))
          | none => none) h12
    · have h12 : normCore ("http://example.com:".toList ++ rest) [] =
          normCore ("http://example.com".toList ++ rest) [] := by
        rw [eC, eP0]
        rfl
      exact congrArg
        (fun o => match o with
          | some k => some (String.mk (renderParts k true))
          | none => none) h12
  · intro port hne hdig h80
    have hpc : ':' ∉ port := by
      intro hc
      have := hdig ':' hc
      cases this
    have hat : '@' ∉ "example.com".toList ++ ':' :: port := by
      intro hc
      rcases List.mem_append.mp hc with h | h
      · revert h
        decide
      · rcases List.mem_cons.mp h with h | h
        · cases h
        · have := hdig '@' h
          cases this
    have hA : ∀ c ∈ "example.com".toList ++ ':' :: port, isAuthEnd c = false := by
      intro c hc
      rcases List.mem_append.mp hc with h | h
      · have hd : ∀ x ∈ "example.com".toList, isAuthEnd x = false := by decide
        exact hd c h
      · rcases List.mem_cons.mp h with h | h
        · subst h
          rfl
        · exact digit_not_authEnd c (hdig c h)
    have hlast : ("http://example.com:".toList ++ port ++ "/a".toList).getLast? =
        some 'a' := by
      rw [List.getLast?_append]
      rfl
    have hstrip := stripWS_eq_self
      ("http://example.com:".toList ++ port ++ "/a".toList)
      (fun hc => List.noConfusion hc)
      (head_hyp_of_cons 'h' _ (by decide))
      (last_hyp_of_eq _ 'a' hlast (by decide))
    have e := normCore_eval ("http://example.com:".toList ++ port ++ "/a".toList)
      "http".toList ("example.com".toList ++ ':' :: port) "/a".toList []
      hstrip (by decide) (by decide) hA (Or.inr ⟨'/', ['a'], rfl, rfl⟩)
    rw [e, splitLast_not_mem '@' _ hat]
    rw [splitHostPort_colon "example.com".toList port 'e' _ rfl (by decide) hpc]
    have hempty : port.isEmpty = false := by
      cases port with
      | nil => exact absurd rfl hne
      | cons a r => rfl
    have halldig : port.all isDigitB = true := List.all_eq_true.mpr hdig
    show (match normalizePort ("http".toList.map toLowerBasic) (some port) with
      | none => none
      | some p =>
        some { scheme := "http".toList.map toLowerBasic, userinfo := none,
               host := idnaHost ("example.com".toList.map toLowerBasic), port := p,
               path := pathNormalize (splitTail "/a".toList).1,
               query := sortPairs (parse_qsl ((splitTail "/a".toList).2.1.getD []) ++ []),
               fragment := (splitTail "/a".toList).2.2 } : Option CanonParts).map
        CanonParts.port = some (some port)
    rw [show normalizePort ("http".toList.map toLowerBasic) (some port) =
        some (some port) by
      rw [normalizePort]
      rw [if_neg (by rw [hempty]; intro hc; cases hc)]
      rw [if_pos halldig]
      rw [if_neg (by
        intro hc
        have := (Option.some.inj hc).symm
        exact h80 this)]]
    rfl

theorem claim_C5_witness :
    normalize_url (.str (String.mk ("http://example.com:80".toList ++ "/x".toList)))
        [] true =
      normalize_url (.str (String.mk ("http://example.com".toList ++ "/x".toList)))
        [] true ∧
    (normCore ("http://example.com:".toList ++ "8080".toList ++ "/a".toList) []).map
      CanonParts.port = some (some "8080".toList) :=
  ⟨(claim_C5_port_normalization.1 "/x".toList (Or.inr ⟨'/', ['x'], rfl, rfl⟩)).1,
   claim_C5_port_normalization.2 "8080".toList (by decide) (by decide) (by decide)⟩

/-! ### Query joining and benign pair parsing -/

theorem intercalate_nil (c : Char) : List.intercalate [c] ([] : List (List Char)) = [] := rfl

theorem intercalate_single (c : Char) (x : List Char) :
    List.intercalate [c] [x] = x := by
  simp [List.intercalate]

theorem intercalate_cons₂ (c : Char) (x y : List Char) (zs : List (List Char)) :
    List.intercalate [c] (x :: y :: zs) = x ++ c :: List.intercalate [c] (y :: zs) := by
  simp [List.intercalate, List.intersperse]

theorem unreserved_toNat (c : Char) (h : unreservedChar c = true) :
    (65 ≤ c.toNat ∧ c.toNat ≤ 90) ∨ (97 ≤ c.toNat ∧ c.toNat ≤ 122) ∨
      (48 ≤ c.toNat ∧ c.toNat ≤ 57) ∨ c.toNat = 45 ∨ c.toNat = 46 ∨
      c.toNat = 95 ∨ c.toNat = 126 := by
  simp only [unreservedChar, isAlnumB, isAlphaB, isDigitB, Bool.or_eq_true,
    Bool.and_eq_true, decide_eq_true_eq, beq_iff_eq] at h
  rcases h with (((((h | h) | h) | h) | h) | h) | h
  · exact Or.inl h
  · exact Or.inr (Or.inl h)
  · exact Or.inr <| Or.inr <| Or.inl h
  · exact Or.inr (Or.inr (Or.inr (Or.inl (congrArg Char.toNat h))))
  · exact Or.inr (Or.inr (Or.inr (Or.inr (Or.inl (congrArg Char.toNat h)))))
  · exact Or.inr (Or.inr (Or.inr (Or.inr (Or.inr (Or.inl (congrArg Char.toNat h))))))
  · exact Or.inr (Or.inr (Or.inr (Or.inr (Or.inr (Or.inr (congrArg Char.toNat h))))))

theorem char_ne_of_toNat_ne (c d : Char) (h : c.toNat ≠ d.toNat) : c ≠ d :=
  fun hc => h (congrArg Char.toNat hc)

/-- The facts about unreserved characters the query reasoning relies on. -/
theorem unreserved_facts (c : Char) (h : unreservedChar c = true) :
    c.toNat < 128 ∧ isWSB c = false ∧ c ≠ '&' ∧ c ≠ '=' ∧ c ≠ ';' ∧ c ≠ '%' ∧
      c ≠ '+' ∧ c ≠ '#' ∧ c ≠ '?' ∧ c ≠ '/' := by
  have ht := unreserved_toNat c h
  have hn : c.toNat < 128 ∧ c.toNat ≠ 32 ∧ c.toNat ≠ 9 ∧ c.toNat ≠ 10 ∧
      c.toNat ≠ 13 ∧ c.toNat ≠ 11 ∧ c.toNat ≠ 12 ∧ c.toNat ≠ 38 ∧ c.toNat ≠ 61 ∧
      c.toNat ≠ 59 ∧ c.toNat ≠ 37 ∧ c.toNat ≠ 43 ∧ c.toNat ≠ 35 ∧ c.toNat ≠ 63 ∧
      c.toNat ≠ 47 := by
    omega
  refine ⟨hn.1, ?_, ?_, ?_, ?_, ?_, ?_, ?_, ?_, ?_⟩
  · simp only [isWSB, Bool.or_eq_false_iff, beq_eq_false_iff_ne]
    refine ⟨⟨⟨⟨⟨?_, ?_⟩, ?_⟩, ?_⟩, ?_⟩, ?_⟩
    · exact char_ne_of_toNat_ne c ' ' hn.2.1
    · exact hn.2.2.1
    · exact hn.2.2.2.1
    · exact hn.2.2.2.2.1
    · exact hn.2.2.2.2.2.1
    · exact hn.2.2.2.2.2.2.1
  · exact char_ne_of_toNat_ne c '&' hn.2.2.2.2.2.2.2.1
  · exact char_ne_of_toNat_ne c '=' hn.2.2.2.2.2.2.2.2.1
  · exact char_ne_of_toNat_ne c ';' hn.2.2.2.2.2.2.2.2.2.1
  · exact char_ne_of_toNat_ne c '%' hn.2.2.2.2.2.2.2.2.2.2.1
  · exact char_ne_of_toNat_ne c '+' hn.2.2.2.2.2.2.2.2.2.2.2.1
  · exact char_ne_of_toNat_ne c '#' hn.2.2.2.2.2.2.2.2.2.2.2.2.1
  · exact char_ne_of_toNat_ne c '?' hn.2.2.2.2.2.2.2.2.2.2.2.2.2.1
  · exact char_ne_of_toNat_ne c '/' hn.2.2.2.2.2.2.2.2.2.2.2.2.2.2

theorem utf8Bytes_ascii (cs : List Char) (h : ∀ c ∈ cs, c.toNat < 128) :
    utf8Bytes cs = cs.map Char.toNat := by
  induction cs with
  | nil => rfl
  | cons c r ih =>
    have hc := h c (List.mem_cons_self c r)
    rw [utf8Bytes, List.flatMap_cons, List.map_cons]
    rw [show utf8EncodeChar c = [c.toNat] by simp [utf8EncodeChar, hc]]
    rw [show r.flatMap utf8EncodeChar = utf8Bytes r from rfl,
      ih (fun x hx => h x (List.mem_cons_of_mem c hx))]
    rfl

theorem unquoteToBytes_no_pct (cs : List Char) (h : '%' ∉ cs) :
    unquoteToBytes cs = utf8Bytes cs := by
  rw [unquoteToBytes, splitOnChar_eq_single '%' cs h]
  simp

theorem splitOnChar_append_cons (sep : Char) (u v : List Char) (h : sep ∉ u) :
    splitOnChar sep (u ++ sep :: v) = u :: splitOnChar sep v := by
  show List.splitOnP (fun x => x == sep) (u ++ sep :: v) =
    u :: List.splitOnP (fun x => x == sep) v
  refine List.splitOnP_first (fun x => x == sep) u ?_ sep (beq_self_eq_true sep) v
  intro x hx hb
  rw [beq_iff_eq] at hb
  subst hb
  exact h hx

/-- One benign candidate at the head of the parse loop produces its pair of
ASCII code points. -/
theorem parseQslLoop_cons_benign (n v : List Char) (L : List (List Char))
    (hnc : ∀ c ∈ n, unreservedChar c = true) (hv : v ≠ [])
    (hvc : ∀ c ∈ v, unreservedChar c = true) :
    parseQslLoop ((n ++ '=' :: v) :: L) =
      (n.map Char.toNat, v.map Char.toNat) :: parseQslLoop L := by
  have hne : n ++ '=' :: v ≠ [] := by simp
  have hEq : '=' ∉ n := fun hc => (unreserved_facts _ (hnc _ hc)).2.2.2.1 rfl
  have hPlusN : '+' ∉ n := fun hc => (unreserved_facts _ (hnc _ hc)).2.2.2.2.2.2.1 rfl
  have hPlusV : '+' ∉ v := fun hc => (unreserved_facts _ (hvc _ hc)).2.2.2.2.2.2.1 rfl
  have hPctN : '%' ∉ n := fun hc => (unreserved_facts _ (hnc _ hc)).2.2.2.2.2.1 rfl
  have hPctV : '%' ∉ v := fun hc => (unreserved_facts _ (hvc _ hc)).2.2.2.2.2.1 rfl
  rw [parseQslLoop, if_neg hne, splitFirst_append '=' n v hEq]
  dsimp only
  rw [if_neg hv, plusToSpace_eq_self _ hPlusN, plusToSpace_eq_self _ hPlusV]
  rw [unquoteToBytes_no_pct _ hPctN, unquoteToBytes_no_pct _ hPctV]
  rw [utf8Bytes_ascii n (fun c hc => (unreserved_facts c (hnc c hc)).1),
    utf8Bytes_ascii v (fun c hc => (unreserved_facts c (hvc c hc)).1)]

/-- Parsing the ampersand-join of benign pairs recovers exactly their ASCII
code points in order. -/
theorem parse_qsl_join (P : List (String × String))
    (hok : ∀ p ∈ P, p.1.toList ≠ [] ∧ (∀ c ∈ p.1.toList, unreservedChar c = true) ∧
      p.2.toList ≠ [] ∧ (∀ c ∈ p.2.toList, unreservedChar c = true)) :
    parse_qsl (List.intercalate ['&'] (P.map fun p => p.1.toList ++ '=' :: p.2.toList)) =
      P.map fun p => (p.1.toList.map Char.toNat, p.2.toList.map Char.toNat) := by
  induction P with
  | nil => rfl
  | cons p rest ih =>
    have hp := hok p (List.mem_cons_self p rest)
    have hcandMem : ∀ c ∈ p.1.toList ++ '=' :: p.2.toList,
        unreservedChar c = true ∨ c = '=' := by
      intro c hc
      rcases List.mem_append.mp hc with h | h
      · exact Or.inl (hp.2.1 c h)
      · rcases List.mem_cons.mp h with h | h
        · exact Or.inr h
        · exact Or.inl (hp.2.2.2 c h)
    have hAmpCand : '&' ∉ p.1.toList ++ '=' :: p.2.toList := by
      intro hc
      rcases hcandMem '&' hc with h | h
      · exact (unreserved_facts _ h).2.2.1 rfl
      · cases h
    have hSemiCand : ';' ∉ p.1.toList ++ '=' :: p.2.toList := by
      intro hc
      rcases hcandMem ';' hc with h | h
      · exact (unreserved_facts _ h).2.2.2.2.1 rfl
      · cases h
    cases rest with
    | nil =>
      rw [List.map_cons, List.map_nil, intercalate_single]
      rw [parse_qsl, splitOnChar_eq_single '&' _ hAmpCand, List.flatMap_cons,
        List.flatMap_nil, List.append_nil, splitOnChar_eq_single ';' _ hSemiCand]
      rw [parseQslLoop_cons_benign p.1.toList p.2.toList [] hp.2.1 hp.2.2.1 hp.2.2.2]
      rfl
    | cons p2 r2 =>
      have ih2 := ih (fun x hx => hok x (List.mem_cons_of_mem p hx))
      rw [parse_qsl] at ih2
      rw [List.map_cons] at ih2
      rw [List.map_cons, List.map_cons, intercalate_cons₂]
      rw [parse_qsl, splitOnChar_append_cons '&' _ _ hAmpCand]
      rw [List.flatMap_cons, splitOnChar_eq_single ';' _ hSemiCand,
        List.singleton_append]
      rw [parseQslLoop_cons_benign p.1.toList p.2.toList _ hp.2.1 hp.2.2.1 hp.2.2.2]
      rw [ih2]
      rfl

/-! ### Stable sorting of query pairs -/

theorem leBytes_total (a b : List Nat) : leBytes a b = true ∨ leBytes b a = true := by
  induction a generalizing b with
  | nil => exact Or.inl rfl
  | cons x xs ih =>
    cases b with
    | nil => exact Or.inr rfl
    | cons y ys =>
      by_cases h1 : x < y
      · left
        simp [leBytes, h1]
      · by_cases h2 : y < x
        · right
          simp [leBytes, h2]
        · have hxy : x = y := by omega
          subst hxy
          rcases ih ys with h | h
          · left
            simp [leBytes, h]
          · right
            simp [leBytes, h]

theorem leBytes_trans (a b c : List Nat) (h1 : leBytes a b = true)
    (h2 : leBytes b c = true) : leBytes a c = true := by
  induction a generalizing b c with
  | nil => rfl
  | cons x xs ih =>
    cases b with
    | nil => cases h1
    | cons y ys =>
      cases c with
      | nil => cases h2
      | cons z zs =>
        simp only [leBytes] at h1 h2 ⊢
        by_cases hxy : x < y
        · by_cases hyz : y < z
          · simp [show x < z by omega]
          · by_cases hzy : z < y
            · simp [hyz, hzy] at h2
            · simp [show x < z by omega]
        · by_cases hyx : y < x
          · simp [hxy, hyx] at h1
          · have hx : x = y := by omega
            subst hx
            by_cases hxz : x < z
            · simp [hxz]
            · by_cases hzx : z < x
              · simp [hxz, hzx] at h2
              · simp [hxy, hyx] at h1
                simp [hxz, hzx] at h2 ⊢
                exact ih ys zs h1 h2

theorem leBytes_antisymm (a b : List Nat) (h1 : leBytes a b = true)
    (h2 : leBytes b a = true) : a = b := by
  induction a generalizing b with
  | nil =>
    cases b with
    | nil => rfl
    | cons y ys => cases h2
  | cons x xs ih =>
    cases b with
    | nil => cases h1
    | cons y ys =>
      simp only [leBytes] at h1 h2
      by_cases hxy : x < y
      · simp [hxy, show ¬y < x by omega] at h2
      · by_cases hyx : y < x
        · simp [hxy, hyx] at h1
        · have hx : x = y := by omega
          subst hx
          simp [lt_irrefl] at h1 h2
          rw [ih ys h1 h2]

theorem sortPairs_sorted (l : List (List Nat × List Nat)) :
    List.Sorted pairLe (sortPairs l) :=
  @List.sorted_insertionSort _ pairLe _ ⟨fun p q => leBytes_total p.1 q.1⟩
    ⟨fun a b c h1 h2 => leBytes_trans a.1 b.1 c.1 h1 h2⟩ l

theorem sortPairs_perm (l : List (List Nat × List Nat)) : (sortPairs l).Perm l :=
  List.perm_insertionSort pairLe l

/-- Stable sorts of two permuted pair lists with pairwise distinct names
coincide. -/
theorem sortPairs_perm_eq (l₁ l₂ : List (List Nat × List Nat))
    (hperm : l₁.Perm l₂) (hnod : (l₁.map Prod.fst).Nodup) :
    sortPairs l₁ = sortPairs l₂ := by
  have hanti : IsAntisymm (List Nat × List Nat)
      (fun p q => pairLe p q ∧ p.1 ≠ q.1) := by
    constructor
    intro a b h1 h2
    exact absurd (leBytes_antisymm a.1 b.1 h1.1 h2.1) h1.2
  have hp : (sortPairs l₁).Perm (sortPairs l₂) :=
    (sortPairs_perm l₁).trans (hperm.trans (sortPairs_perm l₂).symm)
  have hn1 : ((sortPairs l₁).map Prod.fst).Nodup :=
    (((sortPairs_perm l₁).map Prod.fst).nodup_iff).mpr hnod
  have hn2 : ((sortPairs l₂).map Prod.fst).Nodup := by
    refine (((sortPairs_perm l₂).map Prod.fst).nodup_iff).mpr ?_
    exact ((hperm.map Prod.fst).nodup_iff).mp hnod
  have hs1 : List.Pairwise (fun p q : List Nat × List Nat =>
      pairLe p q ∧ p.1 ≠ q.1) (sortPairs l₁) :=
    (sortPairs_sorted l₁).and (List.pairwise_map.mp hn1)
  have hs2 : List.Pairwise (fun p q : List Nat × List Nat =>
      pairLe p q ∧ p.1 ≠ q.1) (sortPairs l₂) :=
    (sortPairs_sorted l₂).and (List.pairwise_map.mp hn2)
  exact @List.eq_of_perm_of_sorted _ _ hanti _ _ hp hs1 hs2

/-! ### The query example family -/

theorem mem_of_getLast?_eq (l : List Char) (d : Char) (h : l.getLast? = some d) :
    d ∈ l := by
  rcases List.mem_getLast?_eq_getLast (show d ∈ l.getLast? by rw [h]; rfl) with ⟨hne, heq⟩
  rw [heq]
  exact List.getLast_mem hne

theorem mem_joinQuery (P : List (String × String)) (c : Char)
    (hc : c ∈ List.intercalate ['&'] (P.map fun p => p.1.toList ++ '=' :: p.2.toList)) :
    (∃ p ∈ P, c ∈ p.1.toList ∨ c ∈ p.2.toList) ∨ c = '&' ∨ c = '=' := by
  induction P with
  | nil => exact absurd hc (List.not_mem_nil c)
  | cons p rest ih =>
    have hcand : c ∈ p.1.toList ++ '=' :: p.2.toList →
        (∃ q ∈ p :: rest, c ∈ q.1.toList ∨ c ∈ q.2.toList) ∨ c = '&' ∨ c = '=' := by
      intro h
      rcases List.mem_append.mp h with h | h
      · exact Or.inl ⟨p, List.mem_cons_self p rest, Or.inl h⟩
      · rcases List.mem_cons.mp h with h | h
        · exact Or.inr (Or.inr h)
        · exact Or.inl ⟨p, List.mem_cons_self p rest, Or.inr h⟩
    cases rest with
    | nil =>
      rw [List.map_cons, List.map_nil, intercalate_single] at hc
      exact hcand hc
    | cons p2 r2 =>
      rw [List.map_cons, List.map_cons, intercalate_cons₂] at hc
      rcases List.mem_append.mp hc with h | h
      · exact hcand h
      · rcases List.mem_cons.mp h with h | h
        · exact Or.inr (Or.inl h)
        · rcases ih (by rw [List.map_cons]; exact h) with ⟨q, hq, hcq⟩ | h | h
          · exact Or.inl ⟨q, List.mem_cons_of_mem p hq, hcq⟩
          · exact Or.inr (Or.inl h)
          · exact Or.inr (Or.inr h)

theorem splitTail_slash_a_query (J : List Char) (hJ : '#' ∉ J) :
    splitTail ('/' :: 'a' :: '?' :: J) = (['/', 'a'], some J, none) := by
  have h1 : splitFirst '#' ('/' :: 'a' :: '?' :: J) = ('/' :: 'a' :: '?' :: J, none) := by
    refine splitFirst_not_mem _ _ ?_
    intro hc
    simp only [List.mem_cons] at hc
    rcases hc with h | h | h | h
    · exact absurd h (by decide)
    · exact absurd h (by decide)
    · exact absurd h (by decide)
    · exact hJ h
  rw [splitTail, h1]
  dsimp only
  rw [show ('/' :: 'a' :: '?' :: J) = (['/', 'a'] ++ '?' :: J) from rfl]
  rw [splitFirst_append '?' ['/', 'a'] J (by decide)]

/-- Full evaluation of the pipeline on the query example family. -/
theorem normCore_url_query (J : List Char)
    (hJ : ∀ c ∈ J, unreservedChar c = true ∨ c = '&' ∨ c = '=') :
    normCore ("http://example.com/a?".toList ++ J) [] =
      some { scheme := "http".toList, userinfo := none,
             host := "example.com".toList, port := none, path := "/a".toList,
             query := sortPairs (parse_qsl J), fragment := none } := by
  have hWSJ : ∀ c ∈ J, isWSB c = false := by
    intro c hc
    rcases hJ c hc with h | h | h
    · exact (unreserved_facts c h).2.1
    · subst h
      rfl
    · subst h
      rfl
  have hHashJ : '#' ∉ J := by
    intro hc
    rcases hJ '#' hc with h | h | h
    · exact (unreserved_facts _ h).2.2.2.2.2.2.2.1 rfl
    · cases h
    · cases h
  have hlast : ∀ c, ("http://example.com/a?".toList ++ J).getLast? = some c →
      isWSB c = false := by
    intro c hc
    rw [List.getLast?_append] at hc
    cases hJl : J.getLast? with
    | none =>
      rw [hJl] at hc
      cases hc
      rfl
    | some d =>
      rw [hJl] at hc
      cases hc
      exact hWSJ _ (mem_of_getLast?_eq J _ hJl)
  have hstrip := stripWS_eq_self ("http://example.com/a?".toList ++ J)
    (fun hc => List.noConfusion hc) (head_hyp_of_cons 'h' _ (by decide)) hlast
  have e := normCore_eval ("http://example.com/a?".toList ++ J) "http".toList
    "example.com".toList ('/' :: 'a' :: '?' :: J) [] hstrip
    (by decide) (by decide) (by decide) (Or.inr ⟨'/', 'a' :: '?' :: J, rfl, rfl⟩)
  rw [e]
  rw [splitLast_not_mem '@' "example.com".toList (by decide)]
  dsimp only
  rw [show ("example.com".toList : List Char) = 'e' :: "xample.com".toList from rfl]
  rw [splitHostPort_no_colon 'e' _ (by decide) (by decide)]
  rw [splitTail_slash_a_query J hHashJ]
  dsimp only
  rw [List.append_nil]
  rfl

/-- C2 as stated is false on the code: the two orders of a duplicate-name
query are permutations of each other, yet the two URLs normalize to
different outputs, because the stable sort preserves the differing relative
orders of the equal names. -/
theorem claim_C2_counterexample :
    ([(("a" : String), ("2" : String)), ("a", "1")]).Perm [("a", "1"), ("a", "2")] ∧
    normalize_url (.str (urlWithQuery [("a", "2"), ("a", "1")])) [] true ≠
      normalize_url (.str (urlWithQuery [("a", "1"), ("a", "2")])) [] true := by
  constructor
  · exact List.Perm.swap ("a", "1") ("a", "2") []
  · decide

/-- C2 amended: over pair sequences with pairwise-distinct names whose
names and values are nonempty unreserved text, the URL carrying any
permutation of the pairs normalizes identically to the URL carrying the
original order. -/
theorem claim_C2_query_order_invariance (P Q : List (String × String))
    (hperm : Q.Perm P) (hnodup : (P.map Prod.fst).Nodup)
    (hok : ∀ p ∈ P, p.1.toList ≠ [] ∧ (∀ c ∈ p.1.toList, unreservedChar c = true) ∧
      p.2.toList ≠ [] ∧ (∀ c ∈ p.2.toList, unreservedChar c = true)) :
    normalize_url (.str (urlWithQuery Q)) [] true =
      normalize_url (.str (urlWithQuery P)) [] true := by
  have hokQ : ∀ p ∈ Q, p.1.toList ≠ [] ∧ (∀ c ∈ p.1.toList, unreservedChar c = true) ∧
      p.2.toList ≠ [] ∧ (∀ c ∈ p.2.toList, unreservedChar c = true) :=
    fun p hp => hok p (hperm.subset hp)
  have hJcls : ∀ (R : List (String × String)),
      (∀ p ∈ R, p.1.toList ≠ [] ∧ (∀ c ∈ p.1.toList, unreservedChar c = true) ∧
        p.2.toList ≠ [] ∧ (∀ c ∈ p.2.toList, unreservedChar c = true)) →
      ∀ c ∈ List.intercalate ['&'] (R.map fun p => p.1.toList ++ '=' :: p.2.toList),
        unreservedChar c = true ∨ c = '&' ∨ c = '=' := by
    intro R hR c hc
    rcases mem_joinQuery R c hc with ⟨p, hp, hcp | hcp⟩ | h | h
    · exact Or.inl ((hR p hp).2.1 c hcp)
    · exact Or.inl ((hR p hp).2.2.2 c hcp)
    · exact Or.inr (Or.inl h)
    · exact Or.inr (Or.inr h)
  have hQ := normCore_url_query _ (hJcls Q hokQ)
  have hP := normCore_url_query _ (hJcls P hok)
  have hinj : Function.Injective (fun s : String => s.toList.map Char.toNat) := by
    intro a b hab
    have h1 : a.toList = b.toList :=
      (List.map_injective_iff.mpr (fun c d h => by
        rw [← Char.ofNat_toNat c, ← Char.ofNat_toNat d, h])) hab
    exact String.ext h1
  have hnodP : ((P.map fun p =>
      (p.1.toList.map Char.toNat, p.2.toList.map Char.toNat)).map Prod.fst).Nodup := by
    rw [List.map_map]
    have hcomp : (Prod.fst ∘ fun p : String × String =>
        (p.1.toList.map Char.toNat, p.2.toList.map Char.toNat)) =
        (fun s : String => s.toList.map Char.toNat) ∘ Prod.fst := rfl
    rw [hcomp, ← List.map_map]
    exact List.Nodup.map hinj hnodup
  have hnodQ : ((Q.map fun p =>
      (p.1.toList.map Char.toNat, p.2.toList.map Char.toNat)).map Prod.fst).Nodup :=
    (((hperm.map _).map Prod.fst).nodup_iff).mpr hnodP
  have hquery : sortPairs (parse_qsl (List.intercalate ['&']
        (Q.map fun p => p.1.toList ++ '=' :: p.2.toList))) =
      sortPairs (parse_qsl (List.intercalate ['&']
        (P.map fun p => p.1.toList ++ '=' :: p.2.toList))) := by
    rw [parse_qsl_join Q hokQ, parse_qsl_join P hok]
    exact sortPairs_perm_eq _ _ (hperm.map _) hnodQ
  show (match normCore ("http://example.com/a?".toList ++
      List.intercalate ['&'] (Q.map fun p => p.1.toList ++ '=' :: p.2.toList)) [] with
    | some k => some (String.mk (renderParts k true))
    | none => none) =
    (match normCore ("http://example.com/a?".toList ++
      List.intercalate ['&'] (P.map fun p => p.1.toList ++ '=' :: p.2.toList)) [] with
    | some k => some (String.mk (renderParts k true))
    | none => none)
  rw [hQ, hP, hquery]

theorem claim_C2_witness :
    normalize_url (.str (urlWithQuery [("c", "2"), ("b", "1")])) [] true =
      normalize_url (.str (urlWithQuery [("b", "1"), ("c", "2")])) [] true :=
  claim_C2_query_order_invariance [("b", "1"), ("c", "2")] [("c", "2"), ("b", "1")]
    (List.Perm.swap _ _ _) (by decide) (by decide)

/-! ### Step equations for the path tokenizer and the uppercase checker -/

theorem tokenizePath_nil : tokenizePath [] = [] := rfl

theorem tokenizePath_cons_ne (c : Char) (r : List Char) (h : c ≠ '%') :
    tokenizePath (c :: r) = .lit c :: tokenizePath r := by
  rw [tokenizePath.eq_def]
  split <;> simp_all

theorem tokenizePath_esc (a b : Char) (r : List Char) (hi lo : Nat)
    (ha : hexVal a = some hi) (hb : hexVal b = some lo) :
    tokenizePath ('%' :: a :: b :: r) = .esc (16 * hi + lo) :: tokenizePath r := by
  show (match hexVal a, hexVal b with
    | some hi, some lo => PTok.esc (16 * hi + lo) :: tokenizePath r
    | _, _ => PTok.lit '%' :: tokenizePath (a :: b :: r)) = _
  rw [ha, hb]

theorem tokenizePath_badesc (a b : Char) (r : List Char)
    (hab : hexVal a = none ∨ hexVal b = none) :
    tokenizePath ('%' :: a :: b :: r) = .lit '%' :: tokenizePath (a :: b :: r) := by
  show (match hexVal a, hexVal b with
    | some hi, some lo => PTok.esc (16 * hi + lo) :: tokenizePath r
    | _, _ => PTok.lit '%' :: tokenizePath (a :: b :: r)) = _
  rcases hab with h | h
  · rw [h]
  · rw [h]
    cases hexVal a <;> rfl

theorem tokenizePath_pct_one (a : Char) :
    tokenizePath ['%', a] = .lit '%' :: tokenizePath [a] := rfl

theorem tokenizePath_pct_nil : tokenizePath ['%'] = [.lit '%'] := rfl

theorem escapesUpperOK_nil : escapesUpperOK [] = true := rfl

theorem escapesUpperOK_cons_ne (c : Char) (r : List Char) (h : c ≠ '%') :
    escapesUpperOK (c :: r) = escapesUpperOK r := by
  rw [escapesUpperOK.eq_def]
  split <;> simp_all

theorem escapesUpperOK_pct (a b : Char) (r : List Char) :
    escapesUpperOK ('%' :: a :: b :: r) =
      ((hexVal a).isSome && (hexVal b).isSome && !(97 ≤ a.toNat && a.toNat ≤ 102) &&
        !(97 ≤ b.toNat && b.toNat ≤ 102) && escapesUpperOK r) := rfl


/-! ### Canonical path characters -/

theorem length_induction (P : List Char → Prop)
    (h : ∀ l, (∀ m : List Char, m.length < l.length → P m) → P l) : ∀ l, P l
  | l => h l (fun m hm => length_induction P h m)
termination_by l => l.length
decreasing_by exact hm

theorem pathCanon_nil : pathCanon [] = true := rfl

theorem pathCanon_cons_ne (c : Char) (r : List Char) (h : c ≠ '%') :
    pathCanon (c :: r) = ((c == '/' || pathSafeChar c) && pathCanon r) := by
  rw [pathCanon.eq_def]
  split <;> simp_all

theorem pathCanon_pct (a b : Char) (r : List Char) :
    pathCanon ('%' :: a :: b :: r) =
      (match hexVal a, hexVal b with
       | some hi, some lo =>
         !(97 ≤ a.toNat && a.toNat ≤ 102) && !(97 ≤ b.toNat && b.toNat ≤ 102) &&
           !(pathSafeByte (16 * hi + lo) && !reservedByte (16 * hi + lo)) && pathCanon r
       | _, _ => false) := rfl

theorem pathCanon_pct_nil : pathCanon ['%'] = false := rfl

theorem pathCanon_pct_one (a : Char) : pathCanon ['%', a] = false := rfl

theorem hexVal_lt (c : Char) (k : Nat) (h : hexVal c = some k) : k < 16 := by
  simp only [hexVal] at h
  split_ifs at h with h1 h2 h3
  · rw [Option.some.injEq] at h
    simp only [Bool.and_eq_true, decide_eq_true_eq] at h1
    omega
  · rw [Option.some.injEq] at h
    simp only [Bool.and_eq_true, decide_eq_true_eq] at h2
    omega
  · rw [Option.some.injEq] at h
    simp only [Bool.and_eq_true, decide_eq_true_eq] at h3
    omega

theorem hexDigitUpper_inv (a : Char) (k : Nat) (h : hexVal a = some k)
    (hl : ¬(97 ≤ a.toNat ∧ a.toNat ≤ 102)) : hexDigitUpper k = a := by
  simp only [hexVal] at h
  split_ifs at h with h1 h2 h3
  · rw [Option.some.injEq] at h
    subst h
    simp only [Bool.and_eq_true, decide_eq_true_eq] at h1
    rw [hexDigitUpper, if_pos (by omega)]
    rw [show 48 + (a.toNat - 48) = a.toNat by omega]
    exact Char.ofNat_toNat a
  · rw [Option.some.injEq] at h
    subst h
    simp only [Bool.and_eq_true, decide_eq_true_eq] at h2
    rw [hexDigitUpper, if_neg (by omega)]
    rw [show 55 + (a.toNat - 55) = a.toNat by omega]
    exact Char.ofNat_toNat a
  · simp only [Bool.and_eq_true, decide_eq_true_eq] at h3
    exact absurd h3 hl

theorem hexDigitUpper_not_lower :
    ∀ n, n < 16 → ¬(97 ≤ (hexDigitUpper n).toNat ∧ (hexDigitUpper n).toNat ≤ 102) := by
  decide

theorem pathCanon_append (v : List Char) (hv : pathCanon v = true) :
    ∀ u, pathCanon u = true → pathCanon (u ++ v) = true := by
  refine length_induction _ ?_
  intro u ih hu
  cases u with
  | nil => exact hv
  | cons c r =>
    by_cases hc : c = '%'
    · subst hc
      cases r with
      | nil => rw [pathCanon_pct_nil] at hu; cases hu
      | cons a r1 =>
        cases r1 with
        | nil => rw [pathCanon_pct_one] at hu; cases hu
        | cons b r2 =>
          cases hva : hexVal a with
          | none =>
            rw [pathCanon_pct, hva] at hu
            cases hvb : hexVal b <;> rw [hvb] at hu <;> exact Bool.noConfusion hu
          | some hi =>
            cases hvb : hexVal b with
            | none =>
              rw [pathCanon_pct, hva, hvb] at hu
              exact Bool.noConfusion hu
            | some lo =>
              rw [pathCanon_pct, hva, hvb] at hu
              show pathCanon ('%' :: a :: b :: (r2 ++ v)) = true
              rw [pathCanon_pct, hva, hvb]
              simp only [Bool.and_eq_true] at hu ⊢
              exact ⟨hu.1, ih r2 (by simp only [List.length_cons]; omega) hu.2⟩
    · rw [pathCanon_cons_ne c r hc] at hu
      rw [List.cons_append, pathCanon_cons_ne c _ hc]
      simp only [Bool.and_eq_true] at hu ⊢
      exact ⟨hu.1, ih r (by simp only [List.length_cons]; omega) hu.2⟩

theorem pathCanon_mem :
    ∀ l, pathCanon l = true → ∀ c ∈ l,
      c = '/' ∨ pathSafeChar c = true ∨ c = '%' ∨ (hexVal c).isSome = true := by
  refine length_induction _ ?_
  intro u ih hu c hcmem
  cases u with
  | nil => exact absurd hcmem (List.not_mem_nil c)
  | cons d r =>
    by_cases hd : d = '%'
    · subst hd
      cases r with
      | nil => rw [pathCanon_pct_nil] at hu; cases hu
      | cons a r1 =>
        cases r1 with
        | nil => rw [pathCanon_pct_one] at hu; cases hu
        | cons b r2 =>
          cases hva : hexVal a with
          | none =>
            rw [pathCanon_pct, hva] at hu
            cases hvb : hexVal b <;> rw [hvb] at hu <;> exact Bool.noConfusion hu
          | some hi =>
            cases hvb : hexVal b with
            | none =>
              rw [pathCanon_pct, hva, hvb] at hu
              exact Bool.noConfusion hu
            | some lo =>
              rw [pathCanon_pct, hva, hvb] at hu
              simp only [Bool.and_eq_true] at hu
              rcases List.mem_cons.mp hcmem with h | h
              · exact Or.inr <| Or.inr <| Or.inl h
              rcases List.mem_cons.mp h with h | h
              · subst h
                exact Or.inr (Or.inr (Or.inr (by rw [hva]; rfl)))
              rcases List.mem_cons.mp h with h | h
              · subst h
                exact Or.inr (Or.inr (Or.inr (by rw [hvb]; rfl)))
              · exact ih r2 (by simp only [List.length_cons]; omega) hu.2 c h
    · rw [pathCanon_cons_ne d r hd] at hu
      simp only [Bool.and_eq_true, Bool.or_eq_true, beq_iff_eq] at hu
      rcases List.mem_cons.mp hcmem with h | h
      · subst h
        rcases hu.1 with h | h
        · exact Or.inl h
        · exact Or.inr (Or.inl h)
      · exact ih r (by simp only [List.length_cons]; omega) hu.2 c h

theorem pathCanon_escapesUpper :
    ∀ l, pathCanon l = true → escapesUpperOK l = true := by
  refine length_induction _ ?_
  intro u ih hu
  cases u with
  | nil => rfl
  | cons c r =>
    by_cases hc : c = '%'
    · subst hc
      cases r with
      | nil => rw [pathCanon_pct_nil] at hu; cases hu
      | cons a r1 =>
        cases r1 with
        | nil => rw [pathCanon_pct_one] at hu; cases hu
        | cons b r2 =>
          cases hva : hexVal a with
          | none =>
            rw [pathCanon_pct, hva] at hu
            cases hvb : hexVal b <;> rw [hvb] at hu <;> exact Bool.noConfusion hu
          | some hi =>
            cases hvb : hexVal b with
            | none =>
              rw [pathCanon_pct, hva, hvb] at hu
              exact Bool.noConfusion hu
            | some lo =>
              rw [pathCanon_pct, hva, hvb] at hu
              simp only [Bool.and_eq_true] at hu
              rw [escapesUpperOK_pct, hva, hvb]
              simp only [Option.isSome_some, Bool.true_and, Bool.and_eq_true]
              exact ⟨⟨hu.1.1.1, hu.1.1.2⟩,
                ih r2 (by simp only [List.length_cons]; omega) hu.2⟩
    · rw [pathCanon_cons_ne c r hc] at hu
      simp only [Bool.and_eq_true] at hu
      rw [escapesUpperOK_cons_ne c r hc]
      exact ih r (by simp only [List.length_cons]; omega) hu.2

/-! ### Recoding produces and fixes canonical paths -/

theorem char_toNat_lt (c : Char) : c.toNat < 1114112 := by
  have h : c.val.toNat.isValidChar := c.valid
  rcases h with h | h
  · exact Nat.lt_trans h (by norm_num)
  · exact h.2

theorem utf8EncodeChar_bytes (c : Char) :
    ∀ b ∈ utf8EncodeChar c, b < 256 ∧ ((b = c.toNat ∧ c.toNat < 128) ∨ 128 ≤ b) := by
  intro b hb
  have hval := char_toNat_lt c
  rw [utf8EncodeChar] at hb
  split_ifs at hb with h1 h2 h3
  · simp only [List.mem_singleton] at hb
    subst hb
    exact ⟨by omega, Or.inl ⟨rfl, h1⟩⟩
  · simp only [List.mem_cons, List.not_mem_nil, or_false] at hb
    rcases hb with hb | hb <;> subst hb <;> exact ⟨by omega, Or.inr (by omega)⟩
  · simp only [List.mem_cons, List.not_mem_nil, or_false] at hb
    rcases hb with hb | hb | hb <;> subst hb <;> exact ⟨by omega, Or.inr (by omega)⟩
  · simp only [List.mem_cons, List.not_mem_nil, or_false] at hb
    rcases hb with hb | hb | hb | hb <;> subst hb <;>
      exact ⟨by omega, Or.inr (by omega)⟩

theorem renderToks_canon :
    ∀ ts : List PTok, (∀ t ∈ ts, tokCanon t) → pathCanon (renderToks ts) = true := by
  intro ts
  induction ts with
  | nil => intro _; rfl
  | cons t rest ih =>
    intro hts
    have ht := hts t (List.mem_cons_self t rest)
    have hrest := ih (fun u hu => hts u (List.mem_cons_of_mem t hu))
    cases t with
    | esc b =>
      rcases ht with ⟨hb, hcond⟩
      show pathCanon ('%' :: hexDigitUpper (b / 16) :: hexDigitUpper (b % 16) ::
        renderToks rest) = true
      rw [pathCanon_pct, hexVal_hexDigitUpper (b / 16) (by omega),
        hexVal_hexDigitUpper (b % 16) (by omega)]
      dsimp only
      rw [show 16 * (b / 16) + b % 16 = b by omega]
      have h1 : (!(decide (97 ≤ (hexDigitUpper (b / 16)).toNat) &&
          decide ((hexDigitUpper (b / 16)).toNat ≤ 102))) = true := by
        rw [Bool.not_eq_true']
        simp only [Bool.and_eq_false_iff, decide_eq_false_iff_not]
        have := hexDigitUpper_not_lower (b / 16) (by omega)
        omega
      have h2 : (!(decide (97 ≤ (hexDigitUpper (b % 16)).toNat) &&
          decide ((hexDigitUpper (b % 16)).toNat ≤ 102))) = true := by
        rw [Bool.not_eq_true']
        simp only [Bool.and_eq_false_iff, decide_eq_false_iff_not]
        have := hexDigitUpper_not_lower (b % 16) (by omega)
        omega
      have h3 : (!(pathSafeByte b && !reservedByte b)) = true := by
        rw [Bool.not_eq_true']
        exact hcond
      rw [h1, h2, h3, hrest]
      rfl
    | lit c =>
      rcases ht with ⟨hc, hcond⟩
      show pathCanon (c :: renderToks rest) = true
      rw [pathCanon_cons_ne c _ hc]
      rw [hcond, hrest]
      rfl

theorem tokenizePath_esc_bound :
    ∀ l, ∀ t ∈ tokenizePath l, ∀ b, t = .esc b → b < 256 := by
  refine length_induction _ ?_
  intro l ih t ht b hb
  cases l with
  | nil => exact absurd ht (List.not_mem_nil t)
  | cons c r =>
    by_cases hc : c = '%'
    · subst hc
      cases r with
      | nil =>
        rw [tokenizePath_pct_nil] at ht
        simp only [List.mem_singleton] at ht
        subst ht
        cases hb
      | cons a r1 =>
        cases r1 with
        | nil =>
          rw [tokenizePath_pct_one] at ht
          rcases List.mem_cons.mp ht with h | h
          · subst h; cases hb
          · exact ih [a] (by simp) t h b hb
        | cons d r2 =>
          cases hva : hexVal a with
          | none =>
            rw [tokenizePath_badesc a d r2 (Or.inl hva)] at ht
            rcases List.mem_cons.mp ht with h | h
            · subst h; cases hb
            · exact ih (a :: d :: r2) (by simp) t h b hb
          | some hi =>
            cases hvd : hexVal d with
            | none =>
              rw [tokenizePath_badesc a d r2 (Or.inr hvd)] at ht
              rcases List.mem_cons.mp ht with h | h
              · subst h; cases hb
              · exact ih (a :: d :: r2) (by simp) t h b hb
            | some lo =>
              rw [tokenizePath_esc a d r2 hi lo hva hvd] at ht
              rcases List.mem_cons.mp ht with h | h
              · subst h
                rw [PTok.esc.injEq] at hb
                have h1 := hexVal_lt a hi hva
                have h2 := hexVal_lt d lo hvd
                omega
              · exact ih r2 (by simp only [List.length_cons]; omega) t h b hb
    · rw [tokenizePath_cons_ne c r hc] at ht
      rcases List.mem_cons.mp ht with h | h
      · subst h; cases hb
      · exact ih r (by simp only [List.length_cons]; omega) t h b hb

theorem normTok_canon (t : PTok) (hb : ∀ b, t = .esc b → b < 256) :
    ∀ u ∈ normTok t, tokCanon u := by
  intro u hu
  cases t with
  | esc b =>
    have h256 := hb b rfl
    rw [normTok] at hu
    by_cases hcond : (pathSafeByte b && !reservedByte b) = true
    · rw [if_pos hcond] at hu
      simp only [List.mem_singleton] at hu
      subst hu
      have hsafe : pathSafeChar (Char.ofNat b) = true := by
        simp only [Bool.and_eq_true, pathSafeByte] at hcond
        exact hcond.1.2
      refine ⟨?_, by rw [hsafe]; simp⟩
      intro hpc
      rw [hpc] at hsafe
      exact absurd hsafe (by decide)
    · rw [if_neg hcond] at hu
      simp only [List.mem_singleton] at hu
      subst hu
      exact ⟨h256, Bool.not_eq_true _ ▸ (Bool.eq_false_iff.mpr hcond)⟩
  | lit c =>
    rw [normTok] at hu
    by_cases hsl : c = '/'
    · rw [if_pos hsl] at hu
      simp only [List.mem_singleton] at hu
      subst hu
      subst hsl
      exact ⟨by decide, by decide⟩
    · rw [if_neg hsl] at hu
      by_cases hsafe : pathSafeChar c = true
      · rw [if_pos hsafe] at hu
        simp only [List.mem_singleton] at hu
        subst hu
        refine ⟨?_, by rw [hsafe]; simp⟩
        intro hpc
        rw [hpc] at hsafe
        exact absurd hsafe (by decide)
      · rw [if_neg hsafe] at hu
        rw [List.mem_map] at hu
        rcases hu with ⟨b, hbmem, hbu⟩
        subst hbu
        rcases utf8EncodeChar_bytes c b hbmem with ⟨h256, hform⟩
        refine ⟨h256, ?_⟩
        rcases hform with ⟨hbeq, hlt⟩ | hge
        · subst hbeq
          have hs : pathSafeChar c = false := Bool.eq_false_iff.mpr hsafe
          rw [pathSafeByte, Char.ofNat_toNat c, hs]
          simp
        · have hd : decide (b < 128) = false := decide_eq_false (by omega)
          rw [pathSafeByte, hd]
          simp

theorem recodePath_canon (p : List Char) : pathCanon (recodePath p) = true := by
  rw [recodePath]
  refine renderToks_canon _ ?_
  intro u hu
  rw [List.mem_flatMap] at hu
  rcases hu with ⟨t, htmem, humem⟩
  exact normTok_canon t (tokenizePath_esc_bound p t htmem) u humem

theorem recodePath_fix : ∀ l, pathCanon l = true → recodePath l = l := by
  refine length_induction _ ?_
  intro l ih hl
  cases l with
  | nil => rfl
  | cons c r =>
    by_cases hc : c = '%'
    · subst hc
      cases r with
      | nil => rw [pathCanon_pct_nil] at hl; cases hl
      | cons a r1 =>
        cases r1 with
        | nil => rw [pathCanon_pct_one] at hl; cases hl
        | cons b r2 =>
          cases hva : hexVal a with
          | none =>
            rw [pathCanon_pct, hva] at hl
            cases hvb : hexVal b <;> rw [hvb] at hl <;> exact Bool.noConfusion hl
          | some hi =>
            cases hvb : hexVal b with
            | none =>
              rw [pathCanon_pct, hva, hvb] at hl
              exact Bool.noConfusion hl
            | some lo =>
              rw [pathCanon_pct, hva, hvb] at hl
              simp only [Bool.and_eq_true] at hl
              have hia := hexVal_lt a hi hva
              have hib := hexVal_lt b lo hvb
              have hcond : (pathSafeByte (16 * hi + lo) &&
                  !reservedByte (16 * hi + lo)) = false := by
                have h := hl.1.2
                rwa [Bool.not_eq_true'] at h
              have hna : ¬(97 ≤ a.toNat ∧ a.toNat ≤ 102) := by
                have h := hl.1.1.1
                rw [Bool.not_eq_true'] at h
                simp only [Bool.and_eq_false_iff, decide_eq_false_iff_not] at h
                omega
              have hnb : ¬(97 ≤ b.toNat ∧ b.toNat ≤ 102) := by
                have h := hl.1.1.2
                rw [Bool.not_eq_true'] at h
                simp only [Bool.and_eq_false_iff, decide_eq_false_iff_not] at h
                omega
              rw [recodePath, tokenizePath_esc a b r2 hi lo hva hvb,
                List.flatMap_cons]
              rw [show normTok (.esc (16 * hi + lo)) = [.esc (16 * hi + lo)] by
                rw [normTok, if_neg (by rw [hcond]; exact Bool.false_ne_true)]]
              rw [List.singleton_append]
              show pctUpper (16 * hi + lo) ++
                renderToks ((tokenizePath r2).flatMap normTok) = _
              rw [show renderToks ((tokenizePath r2).flatMap normTok) = recodePath r2
                  from rfl,
                ih r2 (by simp only [List.length_cons]; omega) hl.2]
              rw [pctUpper, show (16 * hi + lo) / 16 = hi by omega,
                show (16 * hi + lo) % 16 = lo by omega]
              rw [hexDigitUpper_inv a hi hva hna, hexDigitUpper_inv b lo hvb hnb]
              rfl
    · rw [pathCanon_cons_ne c r hc] at hl
      simp only [Bool.and_eq_true] at hl
      rw [recodePath, tokenizePath_cons_ne c r hc, List.flatMap_cons]
      have hnt : normTok (.lit c) = [.lit c] := by
        rcases Bool.or_eq_true _ _ |>.mp hl.1 with h | h
        · rw [normTok, if_pos (beq_iff_eq.mp h)]
        · rw [normTok]
          by_cases hsl : c = '/'
          · rw [if_pos hsl]
          · rw [if_neg hsl, if_pos h]
      rw [hnt, List.singleton_append]
      show c :: renderToks ((tokenizePath r).flatMap normTok) = _
      rw [show renderToks ((tokenizePath r).flatMap normTok) = recodePath r from rfl,
        ih r (by simp only [List.length_cons]; omega) hl.2]

/-! ### Slash collapsing over assembled segment lists -/

theorem collapse_nil : collapseSlashes [] = [] := rfl

theorem collapse_single (c : Char) : collapseSlashes [c] = [c] := rfl

theorem collapse_cons₂_ne (a b : Char) (r : List Char) (h : ¬(a = '/' ∧ b = '/')) :
    collapseSlashes (a :: b :: r) = a :: collapseSlashes (b :: r) := by
  rw [collapseSlashes]
  rw [if_neg (by
    intro hc
    rw [Bool.and_eq_true, decide_eq_true_eq, decide_eq_true_eq] at hc
    exact h hc)]

theorem collapse_cons₂_dbl (r : List Char) :
    collapseSlashes ('/' :: '/' :: r) = collapseSlashes ('/' :: r) := by
  rw [collapseSlashes]
  rw [if_pos (by decide)]

theorem collapse_cons_ne (a : Char) (r : List Char) (h : a ≠ '/') :
    collapseSlashes (a :: r) = a :: collapseSlashes r := by
  cases r with
  | nil => rfl
  | cons b r2 => exact collapse_cons₂_ne a b r2 (fun hc => h hc.1)

theorem collapse_append_nosl (s t : List Char) (h : '/' ∉ s) :
    collapseSlashes (s ++ t) = s ++ collapseSlashes t := by
  induction s with
  | nil => rfl
  | cons c s2 ih =>
    rw [List.mem_cons, not_or] at h
    rw [List.cons_append, collapse_cons_ne c _ (fun hc => h.1 hc.symm),
      ih h.2, List.cons_append]

theorem collapse_piece (s t : List Char) (hne : s ≠ []) (hs : '/' ∉ s) :
    collapseSlashes (('/' :: s) ++ t) = ('/' :: s) ++ collapseSlashes t := by
  cases s with
  | nil => exact absurd rfl hne
  | cons c s2 =>
    rw [List.mem_cons, not_or] at hs
    have h1 : collapseSlashes ('/' :: c :: (s2 ++ t)) =
        '/' :: collapseSlashes (c :: (s2 ++ t)) :=
      collapse_cons₂_ne '/' c _ (fun hc => hs.1 hc.2.symm)
    have h2 : collapseSlashes ((c :: s2) ++ t) = (c :: s2) ++ collapseSlashes t :=
      collapse_append_nosl (c :: s2) t (by
        rw [List.mem_cons, not_or]
        exact hs)
    show collapseSlashes ('/' :: c :: (s2 ++ t)) = '/' :: c :: (s2 ++ collapseSlashes t)
    rw [h1]
    rw [show collapseSlashes (c :: (s2 ++ t)) = (c :: s2) ++ collapseSlashes t from h2]
    rfl

theorem filter_nil_getLast (segs : List (List Char)) (hne : segs ≠ [])
    (hf : segs.filter (fun s => !s.isEmpty) = []) : segs.getLast? = some [] := by
  have hall : ∀ x ∈ segs, (!x.isEmpty) ≠ true := List.filter_eq_nil_iff.mp hf
  have hlast := List.getLast_mem hne
  have hempty : segs.getLast hne = [] := by
    have h := hall _ hlast
    have h2 : (segs.getLast hne).isEmpty = true := by
      cases hcase : (segs.getLast hne).isEmpty with
      | true => rfl
      | false => exact absurd (by rw [hcase]; rfl) h
    exact List.isEmpty_iff.mp h2
  rw [List.getLast?_eq_getLast segs hne, hempty]

theorem intercalate_append_empty (F : List (List Char)) (hne : F ≠ []) :
    List.intercalate ['/'] (F ++ [[]]) = List.intercalate ['/'] F ++ ['/'] := by
  induction F with
  | nil => exact absurd rfl hne
  | cons x F2 ih =>
    cases F2 with
    | nil =>
      show List.intercalate ['/'] [x, []] = List.intercalate ['/'] [x] ++ ['/']
      rw [intercalate_cons₂, intercalate_single, intercalate_single]
    | cons y F3 =>
      have ih2 : List.intercalate ['/'] (y :: (F3 ++ [[]])) =
          List.intercalate ['/'] (y :: F3) ++ ['/'] := ih (by simp)
      show List.intercalate ['/'] (x :: y :: (F3 ++ [[]])) =
        List.intercalate ['/'] (x :: y :: F3) ++ ['/']
      rw [intercalate_cons₂, ih2, intercalate_cons₂, List.append_assoc]
      rfl

/-- The collapsed form of an assembled absolute path: nonempty segments
survive, inner empty segments vanish, and a trailing empty segment leaves
one trailing slash. -/
theorem collapse_slash_intercalate (segs : List (List Char))
    (hs : ∀ s ∈ segs, '/' ∉ s) :
    collapseSlashes ('/' :: List.intercalate ['/'] segs) =
      '/' :: List.intercalate ['/'] (segs.filter (fun s => !s.isEmpty) ++
        (if segs.getLast? = some [] then [[]] else [])) := by
  induction segs with
  | nil => rfl
  | cons s rest ih =>
    have hsr : ∀ x ∈ rest, '/' ∉ x := fun x hx => hs x (List.mem_cons_of_mem s hx)
    cases rest with
    | nil =>
      by_cases he : s = []
      · subst he
        rfl
      · have hne : s.isEmpty = false := by
          cases s with
          | nil => exact absurd rfl he
          | cons a r => rfl
        have hR : List.filter (fun x => !x.isEmpty) [s] ++
            (if ([s] : List (List Char)).getLast? = some [] then [[]] else []) =
            [s] := by
          rw [if_neg (show ¬(([s] : List (List Char)).getLast? = some []) from
            fun h => he (Option.some.inj h))]
          simp [List.filter_cons, hne]
        rw [hR, intercalate_single,
          show collapseSlashes ('/' :: s) = collapseSlashes (('/' :: s) ++ []) by
            rw [List.append_nil],
          collapse_piece s [] he (hs s (List.mem_cons_self s [])), collapse_nil,
          List.append_nil]
    | cons s2 r2 =>
      by_cases he : s = []
      · subst he
        have hf2 : List.filter (fun x => !x.isEmpty) ([] :: s2 :: r2) =
            List.filter (fun x => !x.isEmpty) (s2 :: r2) := by
          simp [List.filter_cons]
        rw [intercalate_cons₂, List.nil_append, collapse_cons₂_dbl, ih hsr,
          List.getLast?_cons_cons, hf2]
      · have hne : s.isEmpty = false := by
          cases s with
          | nil => exact absurd rfl he
          | cons a r => rfl
        have hLne : s2 :: r2 ≠ ([] : List (List Char)) := by simp
        have hf2 : List.filter (fun x => !x.isEmpty) (s :: s2 :: r2) =
            s :: List.filter (fun x => !x.isEmpty) (s2 :: r2) := by
          simp [List.filter_cons, hne]
        rcases hL : ((s2 :: r2).filter (fun x => !x.isEmpty) ++
            (if (s2 :: r2).getLast? = some [] then [[]] else [])) with _ | ⟨y, zs⟩
        · exfalso
          rcases List.append_eq_nil.mp hL with ⟨hf, ht⟩
          have := filter_nil_getLast (s2 :: r2) hLne hf
          rw [if_pos this] at ht
          cases ht
        · have hRHS : List.filter (fun x => !x.isEmpty) (s :: s2 :: r2) ++
              (if (s :: s2 :: r2).getLast? = some [] then [[]] else []) =
              s :: y :: zs := by
            rw [List.getLast?_cons_cons, hf2, List.cons_append, hL]
          rw [intercalate_cons₂,
            show ('/' :: (s ++ '/' :: List.intercalate ['/'] (s2 :: r2))) =
              ('/' :: s) ++ '/' :: List.intercalate ['/'] (s2 :: r2) from rfl,
            collapse_piece s _ he (hs s (List.mem_cons_self s _)), ih hsr, hL,
            hRHS, intercalate_cons₂]
          rfl

/-! ### The assembled path: trailing slash, chain, and segment facts -/

theorem intercalate_no_trailing :
    ∀ F : List (List Char), (∀ s ∈ F, s ≠ [] ∧ '/' ∉ s) → F ≠ [] →
      ('/' :: List.intercalate ['/'] F).getLast? ≠ some '/' := by
  intro F
  induction F with
  | nil => intro _ h; exact absurd rfl h
  | cons g F2 ih =>
    intro hok _
    have hg := hok g (List.mem_cons_self g F2)
    cases F2 with
    | nil =>
      rw [intercalate_single]
      cases hd : g.getLast? with
      | none =>
        exfalso
        exact hg.1 (by rwa [List.getLast?_eq_none_iff] at hd)
      | some d =>
        rw [show ('/' :: g) = ['/'] ++ g from rfl, List.getLast?_append, hd]
        intro hc
        rw [show (some d).or (['/'] : List Char).getLast? = some d from rfl] at hc
        exact hg.2 ((Option.some.inj hc) ▸ mem_of_getLast?_eq g d hd)
    | cons g2 F3 =>
      rw [intercalate_cons₂]
      have ihh := ih (fun x hx => hok x (List.mem_cons_of_mem g hx)) (by simp)
      rw [show ('/' :: (g ++ '/' :: List.intercalate ['/'] (g2 :: F3))) =
        ('/' :: g) ++ ('/' :: List.intercalate ['/'] (g2 :: F3)) from rfl,
        List.getLast?_append]
      cases hd : ('/' :: List.intercalate ['/'] (g2 :: F3)).getLast? with
      | none =>
        exfalso
        rw [List.getLast?_eq_none_iff] at hd
        exact List.noConfusion hd
      | some d =>
        rw [hd] at ihh
        intro hc
        rw [show (some d).or (('/' :: g) : List Char).getLast? = some d from rfl] at hc
        exact ihh (hd ▸ hc ▸ hd)

theorem strip_collapse_intercalate (segs : List (List Char))
    (hs : ∀ s ∈ segs, '/' ∉ s) :
    stripTrailingSlash (collapseSlashes ('/' :: List.intercalate ['/'] segs)) =
      (if segs.filter (fun s => !s.isEmpty) = [] then ['/']
       else '/' :: List.intercalate ['/'] (segs.filter (fun s => !s.isEmpty))) := by
  have hfsl : ∀ s ∈ segs.filter (fun x => !x.isEmpty), '/' ∉ s :=
    fun s hsf => hs s (List.mem_filter.mp hsf).1
  have hfne : ∀ s ∈ segs.filter (fun x => !x.isEmpty), s ≠ [] := by
    intro s hsf
    have h := (List.mem_filter.mp hsf).2
    intro hc
    subst hc
    cases h
  rw [collapse_slash_intercalate segs hs]
  by_cases hF : segs.filter (fun s => !s.isEmpty) = []
  · rw [if_pos hF, hF, List.nil_append]
    by_cases hg : segs.getLast? = some []
    · rw [if_pos hg]
      rfl
    · rw [if_neg hg]
      rfl
  · rw [if_neg hF]
    by_cases hg : segs.getLast? = some []
    · rw [if_pos hg, intercalate_append_empty _ hF]
      rw [show ('/' :: (List.intercalate ['/']
            (segs.filter fun s => !s.isEmpty) ++ ['/'])) =
          ('/' :: List.intercalate ['/'] (segs.filter fun s => !s.isEmpty)) ++ ['/']
          from rfl]
      rw [stripTrailingSlash]
      rw [if_neg (by
        intro hc
        have := congrArg List.length hc
        simp at this)]
      rw [if_pos (by
        rw [List.getLast?_append]
        rfl)]
      rw [List.dropLast_concat]
    · rw [if_neg hg, List.append_nil]
      rw [stripTrailingSlash]
      have hIne : List.intercalate ['/'] (segs.filter fun s => !s.isEmpty) ≠ [] := by
        rcases hFc : segs.filter (fun s => !s.isEmpty) with _ | ⟨f, F2⟩
        · exact absurd hFc hF
        · have hf : f ≠ [] := hfne f (by rw [hFc]; exact List.mem_cons_self f F2)
          rw [hFc]
          cases F2 with
          | nil =>
            rw [intercalate_single]
            exact hf
          | cons g2 F3 =>
            rw [intercalate_cons₂]
            intro hc
            rcases List.append_eq_nil.mp hc with ⟨_, hc2⟩
            exact List.noConfusion hc2
      rw [if_neg (by
        intro hc
        exact hIne (List.cons.inj hc).2)]
      rw [if_neg (intercalate_no_trailing _
        (fun s hsf => ⟨hfne s hsf, hfsl s hsf⟩) hF)]

theorem chainAux (Q : Char → Char → Prop) (hQ : ∀ a b, a ≠ '/' → Q a b) :
    ∀ s t, '/' ∉ s → t.Chain' Q → (t = [] ∨ ∃ t2, t = '/' :: t2) →
      (s ++ t).Chain' Q := by
  intro s
  induction s with
  | nil => intro t _ h _; exact h
  | cons c s2 ih =>
    intro t hs ht hshape
    rw [List.mem_cons, not_or] at hs
    have hc : c ≠ '/' := fun hcc => hs.1 hcc.symm
    cases s2 with
    | nil =>
      rcases hshape with h | ⟨t2, h⟩
      · subst h
        simp
      · subst h
        exact List.Chain'.cons (hQ c '/' hc) ht
    | cons d s3 =>
      have ih2 := ih t hs.2 ht hshape
      exact List.Chain'.cons (hQ c d hc) ih2

theorem chain_no_double_assemble (F : List (List Char))
    (hok : ∀ s ∈ F, s ≠ [] ∧ '/' ∉ s) :
    ('/' :: List.intercalate ['/'] F).Chain'
      (fun a b => ¬(a = '/' ∧ b = '/')) := by
  induction F with
  | nil => exact List.chain'_singleton '/'
  | cons g F2 ih =>
    have hg := hok g (List.mem_cons_self g F2)
    have ih2 := ih (fun x hx => hok x (List.mem_cons_of_mem g hx))
    cases F2 with
    | nil =>
      rw [intercalate_single]
      cases hgc : g with
      | nil => exact absurd hgc hg.1
      | cons c g2 =>
        subst hgc
        have hhead : c ≠ '/' := fun hcc => hg.2 (hcc ▸ List.mem_cons_self c g2)
        refine List.Chain'.cons (fun hc => hhead hc.2) ?_
        have := chainAux (fun a b => ¬(a = '/' ∧ b = '/'))
          (fun a b ha hc => ha hc.1) (c :: g2) [] hg.2 List.chain'_nil (Or.inl rfl)
        simpa using this
    | cons g2 F3 =>
      rw [intercalate_cons₂]
      cases hgc : g with
      | nil => exact absurd hgc hg.1
      | cons c gt =>
        subst hgc
        have hhead : c ≠ '/' := fun hcc => hg.2 (hcc ▸ List.mem_cons_self c gt)
        show List.Chain' _ ('/' :: (c :: gt ++ '/' :: List.intercalate ['/'] (g2 :: F3)))
        refine List.Chain'.cons (fun hc => hhead hc.2) ?_
        exact chainAux (fun a b => ¬(a = '/' ∧ b = '/'))
          (fun a b ha hc => ha hc.1) (c :: gt) _ hg.2 ih2 (Or.inr ⟨_, rfl⟩)

theorem dotSegProcess_mem :
    ∀ (segs acc : List (List Char)) (x : List Char),
      x ∈ segs.foldl (fun st seg =>
        if seg = ['.'] then st
        else if seg = ['.', '.'] then st.dropLast
        else st ++ [seg]) acc →
      x ∈ acc ∨ (x ∈ segs ∧ x ≠ ['.'] ∧ x ≠ ['.', '.']) := by
  intro segs
  induction segs with
  | nil => intro acc x h; exact Or.inl h
  | cons seg rest ih =>
    intro acc x h
    rw [List.foldl_cons] at h
    rcases ih _ x h with hacc | ⟨hmem, hd1, hd2⟩
    · by_cases h1 : seg = ['.']
      · rw [if_pos h1] at hacc
        exact Or.inl hacc
      · rw [if_neg h1] at hacc
        by_cases h2 : seg = ['.', '.']
        · rw [if_pos h2] at hacc
          exact Or.inl (List.dropLast_sublist acc |>.subset hacc)
        · rw [if_neg h2] at hacc
          rcases List.mem_append.mp hacc with h3 | h3
          · exact Or.inl h3
          · rw [List.mem_singleton] at h3
            subst h3
            exact Or.inr ⟨List.mem_cons_self _ _, h1, h2⟩
    · exact Or.inr ⟨List.mem_cons_of_mem seg hmem, hd1, hd2⟩

theorem dotSegProcess_sub (segs : List (List Char)) (x : List Char)
    (h : x ∈ dotSegProcess segs) :
    x ∈ segs ∧ x ≠ ['.'] ∧ x ≠ ['.', '.'] := by
  rcases dotSegProcess_mem segs [] x h with hc | hg
  · exact absurd hc (List.not_mem_nil x)
  · exact hg

theorem dotSegProcess_id (segs : List (List Char))
    (hok : ∀ s ∈ segs, s ≠ ['.'] ∧ s ≠ ['.', '.']) :
    dotSegProcess segs = segs := by
  have haux : ∀ (ss acc : List (List Char)),
      (∀ s ∈ ss, s ≠ ['.'] ∧ s ≠ ['.', '.']) →
      ss.foldl (fun st seg =>
        if seg = ['.'] then st
        else if seg = ['.', '.'] then st.dropLast
        else st ++ [seg]) acc = acc ++ ss := by
    intro ss
    induction ss with
    | nil => intro acc _; rw [List.foldl_nil, List.append_nil]
    | cons seg rest ih =>
      intro acc hall
      have hseg := hall seg (List.mem_cons_self seg rest)
      rw [List.foldl_cons, if_neg hseg.1, if_neg hseg.2,
        ih _ (fun s hss => hall s (List.mem_cons_of_mem seg hss))]
      simp
  have h := haux segs [] hok
  rw [List.nil_append] at h
  exact h

theorem mem_splitOnChar_not_sep (sep : Char) :
    ∀ l, ∀ x ∈ splitOnChar sep l, sep ∉ x := by
  intro l
  induction l with
  | nil =>
    intro x hx
    rw [splitOnChar_nil, List.mem_singleton] at hx
    subst hx
    exact List.not_mem_nil sep
  | cons c cs ih =>
    intro x hx
    by_cases hc : c = sep
    · subst hc
      rw [splitOnChar_cons_eq] at hx
      rcases List.mem_cons.mp hx with h | h
      · subst h
        exact List.not_mem_nil c
      · exact ih x h
    · rw [splitOnChar_cons_ne sep c cs hc] at hx
      rcases hhead : splitOnChar sep cs with _ | ⟨h0, t0⟩
      · exact absurd hhead (splitOnChar_ne_nil sep cs)
      · rw [hhead] at hx
        rcases List.mem_cons.mp hx with h | h
        · subst h
          intro hmem
          rcases List.mem_cons.mp hmem with h2 | h2
          · exact hc h2.symm
          · exact ih h0 (by rw [hhead]; exact List.mem_cons_self h0 t0)
              (by simpa using h2)
        · exact ih x (by rw [hhead]; exact List.mem_cons_of_mem h0 h)

/-! ### The path normalizer produces and fixes well-formed paths -/

theorem pathCanon_splitOn :
    ∀ l, pathCanon l = true → ∀ x ∈ splitOnChar '/' l, pathCanon x = true := by
  refine length_induction _ ?_
  intro l ih hl x hx
  cases l with
  | nil =>
    rw [splitOnChar_nil, List.mem_singleton] at hx
    subst hx
    rfl
  | cons c r =>
    by_cases hc : c = '%'
    · subst hc
      cases r with
      | nil => rw [pathCanon_pct_nil] at hl; cases hl
      | cons a r1 =>
        cases r1 with
        | nil => rw [pathCanon_pct_one] at hl; cases hl
        | cons b r2 =>
          cases hva : hexVal a with
          | none =>
            rw [pathCanon_pct, hva] at hl
            cases hvb : hexVal b <;> rw [hvb] at hl <;> exact Bool.noConfusion hl
          | some hi =>
            cases hvb : hexVal b with
            | none =>
              rw [pathCanon_pct, hva, hvb] at hl
              exact Bool.noConfusion hl
            | some lo =>
              rw [pathCanon_pct, hva, hvb] at hl
              simp only [Bool.and_eq_true] at hl
              have ha : a ≠ '/' := by
                intro hh
                rw [hh] at hva
                exact Option.noConfusion hva
              have hb : b ≠ '/' := by
                intro hh
                rw [hh] at hvb
                exact Option.noConfusion hvb
              rcases hsp : splitOnChar '/' r2 with _ | ⟨h0, t0⟩
              · exact absurd hsp (splitOnChar_ne_nil '/' r2)
              have e1 : splitOnChar '/' (b :: r2) = (b :: h0) :: t0 := by
                rw [splitOnChar_cons_ne '/' b r2 hb, hsp]
                rfl
              have e2 : splitOnChar '/' (a :: b :: r2) = (a :: b :: h0) :: t0 := by
                rw [splitOnChar_cons_ne '/' a _ ha, e1]
                rfl
              have e3 : splitOnChar '/' ('%' :: a :: b :: r2) =
                  ('%' :: a :: b :: h0) :: t0 := by
                rw [splitOnChar_cons_ne '/' '%' _ (by decide), e2]
                rfl
              rw [e3] at hx
              rcases List.mem_cons.mp hx with h | h
              · subst h
                rw [pathCanon_pct, hva, hvb]
                simp only [Bool.and_eq_true]
                refine ⟨hl.1, ?_⟩
                exact ih r2 (by simp only [List.length_cons]; omega) hl.2 h0
                  (by rw [hsp]; exact List.mem_cons_self h0 t0)
              · exact ih r2 (by simp only [List.length_cons]; omega) hl.2 x
                  (by rw [hsp]; exact List.mem_cons_of_mem h0 h)
    · by_cases hsl : c = '/'
      · subst hsl
        rw [pathCanon_cons_ne '/' r (by decide)] at hl
        simp only [Bool.and_eq_true] at hl
        rw [splitOnChar_cons_eq] at hx
        rcases List.mem_cons.mp hx with h | h
        · subst h
          rfl
        · exact ih r (by simp only [List.length_cons]; omega) hl.2 x h
      · rw [pathCanon_cons_ne c r hc] at hl
        simp only [Bool.and_eq_true] at hl
        rcases hsp : splitOnChar '/' r with _ | ⟨h0, t0⟩
        · exact absurd hsp (splitOnChar_ne_nil '/' r)
        have e1 : splitOnChar '/' (c :: r) = (c :: h0) :: t0 := by
          rw [splitOnChar_cons_ne '/' c r hsl, hsp]
          rfl
        rw [e1] at hx
        rcases List.mem_cons.mp hx with h | h
        · subst h
          rw [pathCanon_cons_ne c h0 hc]
          simp only [Bool.and_eq_true]
          refine ⟨hl.1, ?_⟩
          exact ih r (by simp only [List.length_cons]; omega) hl.2 h0
            (by rw [hsp]; exact List.mem_cons_self h0 t0)
        · exact ih r (by simp only [List.length_cons]; omega) hl.2 x
            (by rw [hsp]; exact List.mem_cons_of_mem h0 h)

theorem pathCanon_intercalate (F : List (List Char))
    (h : ∀ x ∈ F, pathCanon x = true) :
    pathCanon (List.intercalate ['/'] F) = true := by
  induction F with
  | nil => rfl
  | cons x F2 ih =>
    have hx := h x (List.mem_cons_self x F2)
    cases F2 with
    | nil =>
      rw [intercalate_single]
      exact hx
    | cons y F3 =>
      have hI := ih (fun z hz => h z (List.mem_cons_of_mem x hz))
      rw [intercalate_cons₂]
      refine pathCanon_append _ ?_ x hx
      rw [pathCanon_cons_ne '/' _ (by decide), hI]
      rfl

theorem collapse_of_chain :
    ∀ l : List Char, l.Chain' (fun a b => ¬(a = '/' ∧ b = '/')) →
      collapseSlashes l = l := by
  intro l
  induction l with
  | nil => intro _; rfl
  | cons a r ih =>
    intro h
    cases r with
    | nil => rfl
    | cons b r2 =>
      rw [List.chain'_cons] at h
      rw [collapse_cons₂_ne a b r2 h.1, ih h.2]

theorem dotRemove_slash (t : List Char) :
    dotRemove ('/' :: t) =
      '/' :: List.intercalate ['/'] (dotSegProcess (splitOnChar '/' t)) := rfl

theorem dotRemove_shape (R : List Char) (hR : pathCanon R = true) :
    ∃ body, pathCanon body = true ∧
      dotRemove R = '/' :: List.intercalate ['/']
        (dotSegProcess (splitOnChar '/' body)) := by
  cases R with
  | nil => exact ⟨[], rfl, rfl⟩
  | cons c r =>
    by_cases hc : c = '/'
    · subst hc
      refine ⟨r, ?_, dotRemove_slash r⟩
      rw [pathCanon_cons_ne '/' r (by decide)] at hR
      simp only [Bool.and_eq_true] at hR
      exact hR.2
    · refine ⟨c :: r, hR, ?_⟩
      unfold dotRemove
      split
      · rename_i t heq
        exact absurd (List.cons.inj heq).1 hc
      · rfl

theorem pathNormalize_wf (p : List Char) : PathWF (pathNormalize p) := by
  show PathWF (stripTrailingSlash (collapseSlashes (dotRemove
    (recodePath (if p = [] then ['/'] else p)))))
  have hRC : pathCanon (recodePath (if p = [] then ['/'] else p)) = true :=
    recodePath_canon _
  rcases dotRemove_shape _ hRC with ⟨body, hbc, hshape⟩
  rw [hshape]
  have hdsp : ∀ x ∈ dotSegProcess (splitOnChar '/' body),
      pathCanon x = true ∧ '/' ∉ x ∧ x ≠ ['.'] ∧ x ≠ ['.', '.'] := by
    intro x hx
    rcases dotSegProcess_sub _ x hx with ⟨hmem, h1, h2⟩
    exact ⟨pathCanon_splitOn body hbc x hmem, mem_splitOnChar_not_sep '/' body x hmem,
      h1, h2⟩
  rw [strip_collapse_intercalate _ (fun s hsx => (hdsp s hsx).2.1)]
  by_cases hF : (dotSegProcess (splitOnChar '/' body)).filter (fun s => !s.isEmpty) = []
  · rw [if_pos hF]
    exact ⟨by decide, ⟨[], rfl⟩, List.chain'_singleton '/', Or.inl rfl, Or.inl rfl⟩
  · rw [if_neg hF]
    have hfmem : ∀ x ∈ (dotSegProcess (splitOnChar '/' body)).filter
        (fun s => !s.isEmpty),
        pathCanon x = true ∧ x ≠ [] ∧ '/' ∉ x ∧ x ≠ ['.'] ∧ x ≠ ['.', '.'] := by
      intro x hx
      have hm := List.mem_filter.mp hx
      have hne : x ≠ [] := by
        intro hcx
        subst hcx
        cases hm.2
      have := hdsp x hm.1
      exact ⟨this.1, hne, this.2.1, this.2.2.1, this.2.2.2⟩
    refine ⟨?_, ⟨_, rfl⟩, ?_, ?_, ?_⟩
    · rw [pathCanon_cons_ne '/' _ (by decide),
        pathCanon_intercalate _ (fun x hx => (hfmem x hx).1)]
      rfl
    · exact chain_no_double_assemble _ (fun s hsx => ⟨(hfmem s hsx).2.1,
        (hfmem s hsx).2.2.1⟩)
    · exact Or.inr (intercalate_no_trailing _ (fun s hsx => ⟨(hfmem s hsx).2.1,
        (hfmem s hsx).2.2.1⟩) hF)
    · right
      intro x hx
      rw [List.tail_cons, splitOnChar_intercalate '/' _
        (fun s hsx => (hfmem s hsx).2.2.1) hF] at hx
      exact ⟨(hfmem x hx).2.1, (hfmem x hx).2.2.2.1, (hfmem x hx).2.2.2.2⟩

theorem pathNormalize_fix (p : List Char) (h : PathWF p) : pathNormalize p = p := by
  rcases h with ⟨hcanon, ⟨t, hpt⟩, hchain, hroot, hsegs⟩
  by_cases hroot1 : p = ['/']
  · subst hroot1
    decide
  · subst hpt
    show stripTrailingSlash (collapseSlashes (dotRemove
      (recodePath (if ('/' :: t : List Char) = [] then ['/'] else '/' :: t)))) = '/' :: t
    rw [if_neg (by simp : ¬('/' :: t : List Char) = [])]
    rw [recodePath_fix _ hcanon, dotRemove_slash]
    have hsegs2 : ∀ x ∈ splitOnChar '/' t, x ≠ [] ∧ x ≠ ['.'] ∧ x ≠ ['.', '.'] := by
      rcases hsegs with hcase | hcase
      · exact absurd hcase hroot1
      · exact fun x hx => hcase x hx
    rw [dotSegProcess_id _ (fun s hsx => ⟨(hsegs2 s hsx).2.1, (hsegs2 s hsx).2.2⟩),
      intercalate_splitOnChar '/' t]
    rw [collapse_of_chain _ hchain]
    rw [stripTrailingSlash, if_neg hroot1, if_neg (hroot.resolve_left hroot1)]

/-! ### Case folding and host characters -/

theorem toNat_ofNat_lt (n : Nat) (h : n < 55296) : (Char.ofNat n).toNat = n := by
  have hv : n.isValidChar := Or.inl h
  rw [Char.ofNat, dif_pos hv]
  rfl

theorem toLower_spec (c : Char) :
    (65 ≤ c.toNat ∧ c.toNat ≤ 90 ∧ (toLowerBasic c).toNat = c.toNat + 32) ∨
    (1040 ≤ c.toNat ∧ c.toNat ≤ 1071 ∧ (toLowerBasic c).toNat = c.toNat + 32) ∨
    (¬(65 ≤ c.toNat ∧ c.toNat ≤ 90) ∧ ¬(1040 ≤ c.toNat ∧ c.toNat ≤ 1071) ∧
      toLowerBasic c = c) := by
  rw [toLowerBasic]
  by_cases h1 : (65 ≤ c.toNat && c.toNat ≤ 90) = true
  · simp only [Bool.and_eq_true, decide_eq_true_eq] at h1
    rw [if_pos (by simp only [Bool.and_eq_true, decide_eq_true_eq]; exact h1)]
    exact Or.inl ⟨h1.1, h1.2, toNat_ofNat_lt _ (by omega)⟩
  · simp only [Bool.and_eq_true, decide_eq_true_eq, not_and] at h1
    rw [if_neg (by
      simp only [Bool.and_eq_true, decide_eq_true_eq, not_and]
      exact h1)]
    by_cases h2 : (1040 ≤ c.toNat && c.toNat ≤ 1071) = true
    · simp only [Bool.and_eq_true, decide_eq_true_eq] at h2
      rw [if_pos (by simp only [Bool.and_eq_true, decide_eq_true_eq]; exact h2)]
      exact Or.inr (Or.inl ⟨h2.1, h2.2, toNat_ofNat_lt _ (by omega)⟩)
    · simp only [Bool.and_eq_true, decide_eq_true_eq, not_and] at h2
      rw [if_neg (by
        simp only [Bool.and_eq_true, decide_eq_true_eq, not_and]
        exact h2)]
      exact Or.inr (Or.inr ⟨by omega, by omega, rfl⟩)

theorem char_eq_of_toNat (c : Char) (n : Nat) (hn : n < 55296) (h : c.toNat = n) :
    c = Char.ofNat n := by
  rw [← h, Char.ofNat_toNat]

theorem toLower_fix_of_range (c : Char)
    (h : ¬(65 ≤ c.toNat ∧ c.toNat ≤ 90) ∧ ¬(1040 ≤ c.toNat ∧ c.toNat ≤ 1071)) :
    toLowerBasic c = c := by
  rcases toLower_spec c with ⟨h1, h2, _⟩ | ⟨h1, h2, _⟩ | ⟨_, _, h3⟩
  · exact absurd ⟨h1, h2⟩ h.1
  · exact absurd ⟨h1, h2⟩ h.2
  · exact h3

theorem toLower_idem (c : Char) : toLowerBasic (toLowerBasic c) = toLowerBasic c := by
  rcases toLower_spec c with ⟨_, h2, h3⟩ | ⟨_, h2, h3⟩ | ⟨_, _, h3⟩
  · exact toLower_fix_of_range _ (by omega)
  · exact toLower_fix_of_range _ (by omega)
  · rw [h3, h3]

theorem toLower_eq_dot_iff (c : Char) : toLowerBasic c = '.' ↔ c = '.' := by
  constructor
  · intro h
    rcases toLower_spec c with ⟨h1, h2, h3⟩ | ⟨h1, h2, h3⟩ | ⟨_, _, h3⟩
    · rw [h, show ('.' : Char).toNat = 46 from rfl] at h3
      omega
    · rw [h, show ('.' : Char).toNat = 46 from rfl] at h3
      omega
    · rw [← h3, h]
  · intro h
    subst h
    rfl

theorem hostCharOK_toNat (c : Char) (h : hostCharOK c = true) :
    (48 ≤ c.toNat ∧ c.toNat ≤ 57) ∨ (65 ≤ c.toNat ∧ c.toNat ≤ 90) ∨
      (97 ≤ c.toNat ∧ c.toNat ≤ 122) ∨ c.toNat = 45 ∨ c.toNat = 95 ∨
      128 ≤ c.toNat := by
  simp only [hostCharOK, isAlnumB, isAlphaB, isDigitB, Bool.or_eq_true,
    Bool.and_eq_true, decide_eq_true_eq, beq_iff_eq] at h
  rcases h with ((((h | h) | h) | h) | h) | h
  · exact Or.inr (Or.inl h)
  · exact Or.inr <| Or.inr <| Or.inl h
  · exact Or.inl h
  · subst h
    exact Or.inr (Or.inr (Or.inr (Or.inl rfl)))
  · subst h
    exact Or.inr (Or.inr (Or.inr (Or.inr (Or.inl rfl))))
  · exact Or.inr <| Or.inr <| Or.inr <| Or.inr <| Or.inr h

theorem hostCharOK_of_toNat (c : Char)
    (h : (48 ≤ c.toNat ∧ c.toNat ≤ 57) ∨ (65 ≤ c.toNat ∧ c.toNat ≤ 90) ∨
      (97 ≤ c.toNat ∧ c.toNat ≤ 122) ∨ c.toNat = 45 ∨ c.toNat = 95 ∨
      128 ≤ c.toNat) : hostCharOK c = true := by
  simp only [hostCharOK, isAlnumB, isAlphaB, isDigitB, Bool.or_eq_true,
    Bool.and_eq_true, decide_eq_true_eq, beq_iff_eq]
  rcases h with h | h | h | h | h | h
  · exact Or.inl (Or.inl (Or.inl (Or.inr h)))
  · exact Or.inl (Or.inl (Or.inl (Or.inl (Or.inl h))))
  · exact Or.inl (Or.inl (Or.inl (Or.inl (Or.inr h))))
  · exact Or.inl (Or.inl (Or.inr (char_eq_of_toNat c 45 (by omega) h)))
  · exact Or.inl (Or.inr (char_eq_of_toNat c 95 (by omega) h))
  · exact Or.inr h

theorem hostCharOK_toLower (c : Char) (h : hostCharOK c = true) :
    hostCharOK (toLowerBasic c) = true := by
  rcases toLower_spec c with ⟨h1, h2, h3⟩ | ⟨h1, h2, h3⟩ | ⟨_, _, h3⟩
  · exact hostCharOK_of_toNat _ (by omega)
  · exact hostCharOK_of_toNat _ (by omega)
  · rw [h3]
    exact h

theorem splitOnChar_map (f : Char → Char) (sep : Char)
    (hf : ∀ c, f c = sep ↔ c = sep) :
    ∀ l, splitOnChar sep (l.map f) = (splitOnChar sep l).map (List.map f) := by
  intro l
  induction l with
  | nil => rfl
  | cons c cs ih =>
    by_cases hc : c = sep
    · rw [List.map_cons, hc, show f sep = sep from (hf sep).mpr rfl,
        splitOnChar_cons_eq, splitOnChar_cons_eq, ih, List.map_cons, List.map_nil]
    · have hfc : f c ≠ sep := fun hcc => hc ((hf c).mp hcc)
      rcases hsp : splitOnChar sep cs with _ | ⟨h0, t0⟩
      · exact absurd hsp (splitOnChar_ne_nil sep cs)
      rw [List.map_cons, splitOnChar_cons_ne sep (f c) _ hfc,
        splitOnChar_cons_ne sep c cs hc, ih, hsp, List.map_cons]
      rfl

theorem mem_intercalate (sep : Char) :
    ∀ ls : List (List Char), ∀ c ∈ List.intercalate [sep] ls,
      c = sep ∨ ∃ x ∈ ls, c ∈ x := by
  intro ls
  induction ls with
  | nil => intro c hc; exact absurd hc (List.not_mem_nil c)
  | cons x ls2 ih =>
    intro c hc
    cases ls2 with
    | nil =>
      rw [intercalate_single] at hc
      exact Or.inr ⟨x, List.mem_cons_self x [], hc⟩
    | cons y ls3 =>
      rw [intercalate_cons₂] at hc
      rcases List.mem_append.mp hc with h | h
      · exact Or.inr ⟨x, List.mem_cons_self x _, h⟩
      · rcases List.mem_cons.mp h with h | h
        · exact Or.inl h
        · rcases ih c h with h2 | ⟨z, hz, hcz⟩
          · exact Or.inl h2
          · exact Or.inr ⟨z, List.mem_cons_of_mem x hz, hcz⟩

theorem intercalate_ne_nil (sep : Char) (F : List (List Char)) (hF : F ≠ [])
    (hne : ∀ s ∈ F, s ≠ []) : List.intercalate [sep] F ≠ [] := by
  cases F with
  | nil => exact absurd rfl hF
  | cons f F2 =>
    have hf := hne f (List.mem_cons_self f F2)
    cases F2 with
    | nil =>
      rw [intercalate_single]
      exact hf
    | cons g F3 =>
      rw [intercalate_cons₂]
      intro hc
      rcases List.append_eq_nil.mp hc with ⟨_, hc2⟩
      exact List.noConfusion hc2

theorem intercalate_getLast_ne (sep : Char) :
    ∀ F : List (List Char), (∀ s ∈ F, s ≠ [] ∧ sep ∉ s) → F ≠ [] →
      (List.intercalate [sep] F).getLast? ≠ some sep := by
  intro F
  induction F with
  | nil => intro _ h; exact absurd rfl h
  | cons g F2 ih =>
    intro hok _
    have hg := hok g (List.mem_cons_self g F2)
    cases F2 with
    | nil =>
      rw [intercalate_single]
      cases hd : g.getLast? with
      | none =>
        exfalso
        exact hg.1 (by rwa [List.getLast?_eq_none_iff] at hd)
      | some d =>
        intro hc
        exact hg.2 ((Option.some.inj hc) ▸ mem_of_getLast?_eq g d hd)
    | cons g2 F3 =>
      rw [intercalate_cons₂]
      have ihh := ih (fun x hx => hok x (List.mem_cons_of_mem g hx)) (by simp)
      have hIne : List.intercalate [sep] (g2 :: F3) ≠ [] :=
        intercalate_ne_nil sep _ (by simp)
          (fun s hsx => (hok s (List.mem_cons_of_mem g hsx)).1)
      rw [List.getLast?_append]
      cases hd : (sep :: List.intercalate [sep] (g2 :: F3)).getLast? with
      | none =>
        exfalso
        rw [List.getLast?_eq_none_iff] at hd
        exact List.noConfusion hd
      | some d =>
        intro hc
        have hc2 : d = sep := Option.some.inj hc
        have hd2 : (List.intercalate [sep] (g2 :: F3)).getLast? = some d := by
          rw [show (sep :: List.intercalate [sep] (g2 :: F3) : List Char) =
            [sep] ++ List.intercalate [sep] (g2 :: F3) from rfl,
            List.getLast?_append] at hd
          cases hd3 : (List.intercalate [sep] (g2 :: F3)).getLast? with
          | none =>
            exfalso
            rw [List.getLast?_eq_none_iff] at hd3
            exact hIne hd3
          | some e =>
            rw [hd3] at hd
            exact hd
        exact ihh (by rw [hd2, hc2])

/-! ### Characters emitted by the punycode encoder -/

theorem punyDigit_range :
    ∀ d, d < 36 → (97 ≤ (punyDigit d).toNat ∧ (punyDigit d).toNat ≤ 122) ∨
      (48 ≤ (punyDigit d).toNat ∧ (punyDigit d).toNat ≤ 57) := by
  decide

theorem mem_punyEncInt :
    ∀ fuel q k bias c, c ∈ punyEncInt fuel q k bias →
      ∃ d, d < 36 ∧ c = punyDigit d := by
  intro fuel
  induction fuel with
  | zero =>
    intro q k bias c hc
    exact absurd hc (List.not_mem_nil c)
  | succ f ih =>
    intro q k bias c hc
    rw [show punyEncInt (f + 1) q k bias =
        (let t := if k ≤ bias + 1 then 1 else if bias + 26 ≤ k then 26 else k - bias
         if q < t then [punyDigit q]
         else punyDigit (t + (q - t) % (36 - t)) ::
           punyEncInt f ((q - t) / (36 - t)) (k + 36) bias) from rfl] at hc
    dsimp only at hc
    rcases hT : (if k ≤ bias + 1 then 1 else if bias + 26 ≤ k then 26 else k - bias)
      with _ | t0
    all_goals rw [hT] at hc
    · rw [if_neg (by omega)] at hc
      rcases List.mem_cons.mp hc with h | h
      · exact ⟨0 + (q - 0) % (36 - 0), by
          constructor
          · have := Nat.mod_lt (q - 0) (show 0 < 36 - 0 by omega)
            omega
          · exact h⟩
      · exact ih _ _ _ c h
    · have ht : t0 + 1 ≤ 26 := by
        rw [← hT]
        split_ifs <;> omega
      by_cases hq : q < t0 + 1
      · rw [if_pos hq] at hc
        rw [List.mem_singleton] at hc
        exact ⟨q, by omega, hc⟩
      · rw [if_neg hq] at hc
        rcases List.mem_cons.mp hc with h | h
        · refine ⟨t0 + 1 + (q - (t0 + 1)) % (36 - (t0 + 1)), ?_, h⟩
          have := Nat.mod_lt (q - (t0 + 1)) (show 0 < 36 - (t0 + 1) by omega)
          omega
        · exact ih _ _ _ c h

theorem mem_punyInner :
    ∀ (cps : List Nat) (n b delta bias h : Nat) (out : List Char) (c : Char),
      c ∈ (punyInner n b cps (delta, bias, h, out)).2.2.2 →
      c ∈ out ∨ ∃ d, d < 36 ∧ c = punyDigit d := by
  intro cps
  induction cps with
  | nil =>
    intro n b delta bias h out c hc
    exact Or.inl hc
  | cons x cs ih =>
    intro n b delta bias h out c hc
    rw [show punyInner n b (x :: cs) (delta, bias, h, out) =
        (if x < n then punyInner n b cs (delta + 1, bias, h, out)
         else if x = n then
           punyInner n b cs
             (0, punyAdapt delta (h + 1) (h == b), h + 1,
               out ++ punyEncInt (delta + 1) delta 36 bias)
         else punyInner n b cs (delta, bias, h, out)) from rfl] at hc
    split_ifs at hc
    · exact ih _ _ _ _ _ _ c hc
    · rcases ih _ _ _ _ _ _ c hc with hmem | hd
      · rcases List.mem_append.mp hmem with h2 | h2
        · exact Or.inl h2
        · exact Or.inr (mem_punyEncInt _ _ _ _ c h2)
      · exact Or.inr hd
    · exact ih _ _ _ _ _ _ c hc

theorem mem_punyOuter :
    ∀ (fuel : Nat) (cps : List Nat) (b n delta bias h : Nat) (out : List Char)
      (c : Char), c ∈ punyOuter fuel cps b n delta bias h out →
      c ∈ out ∨ ∃ d, d < 36 ∧ c = punyDigit d := by
  intro fuel
  induction fuel with
  | zero =>
    intro cps b n delta bias h out c hc
    exact Or.inl hc
  | succ f ih =>
    intro cps b n delta bias h out c hc
    rw [show punyOuter (f + 1) cps b n delta bias h out =
        (if h < cps.length then
          match cps.filter (fun c => n ≤ c) with
          | [] => out
          | c0 :: rest =>
            let m := rest.foldl Nat.min c0
            let st := punyInner m b cps (delta + (m - n) * (h + 1), bias, h, out)
            punyOuter f cps b (m + 1) (st.1 + 1) st.2.1 st.2.2.1 st.2.2.2
         else out) from rfl] at hc
    split_ifs at hc
    · rcases hfil : cps.filter (fun c => n ≤ c) with _ | ⟨c0, rest⟩
      · rw [hfil] at hc
        exact Or.inl hc
      · rw [hfil] at hc
        dsimp only at hc
        rcases ih _ _ _ _ _ _ _ c hc with hmem | hd
        · rcases mem_punyInner cps _ b _ bias h out c hmem with h2 | h2
          · exact Or.inl h2
          · exact Or.inr h2
        · exact Or.inr hd
    · exact Or.inl hc

theorem mem_punycodeEncode (l : List Char) (c : Char) (hc : c ∈ punycodeEncode l) :
    (c ∈ l ∧ c.toNat < 128) ∨ c = '-' ∨ ∃ d, d < 36 ∧ c = punyDigit d := by
  rw [show punycodeEncode l =
      punyOuter ((l.map Char.toNat).length + 1) (l.map Char.toNat)
        (l.filter (fun c => c.toNat < 128)).length 128 0 72
        (l.filter (fun c => c.toNat < 128)).length
        (l.filter (fun c => c.toNat < 128) ++
          (if 0 < (l.filter (fun c => c.toNat < 128)).length then ['-'] else []))
      from rfl] at hc
  rcases mem_punyOuter _ _ _ _ _ _ _ _ c hc with hmem | hd
  · rcases List.mem_append.mp hmem with h2 | h2
    · have hm := List.mem_filter.mp h2
      refine Or.inl ⟨hm.1, ?_⟩
      have := hm.2
      simpa using this
    · split_ifs at h2
      · rw [List.mem_singleton] at h2
        exact Or.inr (Or.inl h2)
      · exact absurd h2 (List.not_mem_nil c)
  · exact Or.inr (Or.inr hd)

/-! ### Host normalization produces and fixes well-formed hosts -/

theorem map_ext {α β : Type} (f g : α → β) :
    ∀ l : List α, (∀ x ∈ l, f x = g x) → l.map f = l.map g := by
  intro l
  induction l with
  | nil => intro _; rfl
  | cons x r ih =>
    intro h
    rw [List.map_cons, List.map_cons, h x (List.mem_cons_self x r),
      ih (fun y hy => h y (List.mem_cons_of_mem x hy))]

theorem map_fix {α : Type} (f : α → α) :
    ∀ l : List α, (∀ x ∈ l, f x = x) → l.map f = l := by
  intro l
  induction l with
  | nil => intro _; rfl
  | cons x r ih =>
    intro h
    rw [List.map_cons, h x (List.mem_cons_self x r),
      ih (fun y hy => h y (List.mem_cons_of_mem x hy))]

theorem bracketInnerOK_toNat (c : Char) (h : bracketInnerOK c = true) :
    (48 ≤ c.toNat ∧ c.toNat ≤ 57) ∨ (97 ≤ c.toNat ∧ c.toNat ≤ 102) ∨
      (65 ≤ c.toNat ∧ c.toNat ≤ 70) ∨ c.toNat = 58 ∨ c.toNat = 46 := by
  simp only [bracketInnerOK, isDigitB, Bool.or_eq_true, Bool.and_eq_true,
    decide_eq_true_eq, beq_iff_eq] at h
  rcases h with (((h | h) | h) | h) | h
  · exact Or.inl h
  · exact Or.inr (Or.inl h)
  · exact Or.inr <| Or.inr <| Or.inl h
  · subst h
    exact Or.inr (Or.inr (Or.inr (Or.inl rfl)))
  · subst h
    exact Or.inr (Or.inr (Or.inr (Or.inr rfl)))

theorem bracketInnerOK_of_toNat (c : Char)
    (h : (48 ≤ c.toNat ∧ c.toNat ≤ 57) ∨ (97 ≤ c.toNat ∧ c.toNat ≤ 102) ∨
      (65 ≤ c.toNat ∧ c.toNat ≤ 70) ∨ c.toNat = 58 ∨ c.toNat = 46) :
    bracketInnerOK c = true := by
  simp only [bracketInnerOK, isDigitB, Bool.or_eq_true, Bool.and_eq_true,
    decide_eq_true_eq, beq_iff_eq]
  rcases h with h | h | h | h | h
  · exact Or.inl (Or.inl (Or.inl (Or.inl h)))
  · exact Or.inl (Or.inl (Or.inl (Or.inr h)))
  · exact Or.inl (Or.inl (Or.inr h))
  · exact Or.inl (Or.inr (char_eq_of_toNat c 58 (by omega) h))
  · exact Or.inr (char_eq_of_toNat c 46 (by omega) h)

theorem bracketInnerOK_toLower (c : Char) (h : bracketInnerOK c = true) :
    bracketInnerOK (toLowerBasic c) = true := by
  have ht := bracketInnerOK_toNat c h
  rcases toLower_spec c with ⟨h1, h2, h3⟩ | ⟨h1, h2, h3⟩ | ⟨_, _, h3⟩
  · exact bracketInnerOK_of_toNat _ (by omega)
  · exact bracketInnerOK_of_toNat _ (by omega)
  · rw [h3]
    exact h

theorem toLower_fix_of_bracket (c : Char) (h : bracketInnerOK c = true) :
    toLowerBasic (toLowerBasic c) = toLowerBasic c := toLower_idem c

theorem idnaLabel_eq (l : List Char) :
    idnaLabel l = if l.all (fun c => c.toNat < 128) then l
      else 'x' :: 'n' :: '-' :: '-' :: punycodeEncode l := rfl

theorem idnaHost_eq (h : List Char) :
    idnaHost h = List.intercalate ['.'] ((splitOnChar '.' h).map idnaLabel) := rfl

theorem validDomainHost_eq (h : List Char) :
    validDomainHost h = (2 ≤ (splitOnChar '.' h).length &&
      (splitOnChar '.' h).all (fun l => !l.isEmpty && l.all hostCharOK)) := rfl

theorem normalizeHost_eq (host : List Char) :
    normalizeHost host =
      (if host.take 1 = ['['] then
        (if !(host.drop 1).dropLast.isEmpty &&
            (host.drop 1).dropLast.all bracketInnerOK then
          some ('[' :: ((host.drop 1).dropLast.map toLowerBasic) ++ [']'])
        else none)
      else
        (if validDomainHost (if host.getLast? = some '.' then host.dropLast
            else host) then
          some (idnaHost ((if host.getLast? = some '.' then host.dropLast
            else host).map toLowerBasic))
        else none)) := rfl

theorem idnaLabel_ne_nil (lab : List Char) (h : lab ≠ []) : idnaLabel lab ≠ [] := by
  rw [idnaLabel_eq]
  split_ifs with hcase
  · exact h
  · intro hc
    exact List.noConfusion hc

theorem punyDigit_props (d : Nat) (hd : d < 36) :
    hostCharOK (punyDigit d) = true ∧ toLowerBasic (punyDigit d) = punyDigit d ∧
      punyDigit d ≠ '.' ∧ (punyDigit d).toNat < 128 := by
  rcases punyDigit_range d hd with ⟨h1, h2⟩ | ⟨h1, h2⟩
  · refine ⟨hostCharOK_of_toNat _ (by omega), toLower_fix_of_range _ (by omega),
      ?_, by omega⟩
    exact char_ne_of_toNat_ne _ _ (by rw [show ('.' : Char).toNat = 46 from rfl]; omega)
  · refine ⟨hostCharOK_of_toNat _ (by omega), toLower_fix_of_range _ (by omega),
      ?_, by omega⟩
    exact char_ne_of_toNat_ne _ _ (by rw [show ('.' : Char).toNat = 46 from rfl]; omega)

theorem idnaLabel_chars (lab : List Char)
    (hok : ∀ c ∈ lab, hostCharOK c = true ∧ toLowerBasic c = c ∧ c ≠ '.') :
    ∀ c ∈ idnaLabel lab,
      hostCharOK c = true ∧ toLowerBasic c = c ∧ c ≠ '.' ∧ c.toNat < 128 := by
  intro c hc
  rw [idnaLabel_eq] at hc
  split_ifs at hc with hcase
  · have h128 : c.toNat < 128 := by
      have := List.all_eq_true.mp hcase c hc
      simpa using this
    exact ⟨(hok c hc).1, (hok c hc).2.1, (hok c hc).2.2, h128⟩
  · rcases List.mem_cons.mp hc with h | h
    · subst h
      exact ⟨by decide, by decide, by decide, by decide⟩
    rcases List.mem_cons.mp h with h | h
    · subst h
      exact ⟨by decide, by decide, by decide, by decide⟩
    rcases List.mem_cons.mp h with h | h
    · subst h
      exact ⟨by decide, by decide, by decide, by decide⟩
    rcases List.mem_cons.mp h with h | h
    · subst h
      exact ⟨by decide, by decide, by decide, by decide⟩
    rcases mem_punycodeEncode lab c h with ⟨hmem, h128⟩ | hdash | ⟨d, hd, hcd⟩
    · exact ⟨(hok c hmem).1, (hok c hmem).2.1, (hok c hmem).2.2, h128⟩
    · subst hdash
      exact ⟨by decide, by decide, by decide, by decide⟩
    · subst hcd
      exact punyDigit_props d hd

/-- The IDNA pass over a lowercased valid host yields a valid, lowercase,
all-ASCII host that the pass fixes and that has no trailing dot. -/
theorem idnaHost_wf (h1 : List Char) (hval : validDomainHost h1 = true) :
    validDomainHost (idnaHost (h1.map toLowerBasic)) = true ∧
    (idnaHost (h1.map toLowerBasic)).map toLowerBasic =
      idnaHost (h1.map toLowerBasic) ∧
    (∀ c ∈ idnaHost (h1.map toLowerBasic), c.toNat < 128) ∧
    idnaHost (idnaHost (h1.map toLowerBasic)) = idnaHost (h1.map toLowerBasic) ∧
    (idnaHost (h1.map toLowerBasic)).getLast? ≠ some '.' := by
  rw [validDomainHost_eq] at hval
  simp only [Bool.and_eq_true, decide_eq_true_eq, List.all_eq_true] at hval
  have hsplit : splitOnChar '.' (h1.map toLowerBasic) =
      (splitOnChar '.' h1).map (List.map toLowerBasic) :=
    splitOnChar_map toLowerBasic '.' toLower_eq_dot_iff h1
  have hlab : ∀ lab ∈ (splitOnChar '.' h1).map (List.map toLowerBasic),
      lab ≠ [] ∧ ∀ c ∈ lab, hostCharOK c = true ∧ toLowerBasic c = c ∧ c ≠ '.' := by
    intro lab hlabm
    rcases List.mem_map.mp hlabm with ⟨l1, hl1, hl1e⟩
    have hprops := hval.2 l1 hl1
    simp only [Bool.and_eq_true, Bool.not_eq_eq_eq_not, Bool.not_true,
      List.all_eq_true] at hprops
    have hl1ne : l1 ≠ [] := by
      intro hc
      subst hc
      rcases hprops with ⟨h1x, _⟩
      cases h1x
    constructor
    · rw [← hl1e]
      intro hc
      exact hl1ne (List.map_eq_nil_iff.mp hc)
    · intro c hcm
      rw [← hl1e] at hcm
      rcases List.mem_map.mp hcm with ⟨d, hd, hde⟩
      have hdok : hostCharOK d = true := hprops.2 d hd
      have hddot : d ≠ '.' := fun hc => mem_splitOnChar_not_sep '.' h1 l1 hl1 (hc ▸ hd)
      subst hde
      refine ⟨hostCharOK_toLower d hdok, toLower_idem d, ?_⟩
      intro hc
      exact hddot ((toLower_eq_dot_iff d).mp hc)
  have houtmem : ∀ L ∈ ((splitOnChar '.' h1).map (List.map toLowerBasic)).map idnaLabel,
      L ≠ [] ∧ ∀ c ∈ L,
        hostCharOK c = true ∧ toLowerBasic c = c ∧ c ≠ '.' ∧ c.toNat < 128 := by
    intro L hLm
    rcases List.mem_map.mp hLm with ⟨lab, hlabm, hlabe⟩
    have hl := hlab lab hlabm
    subst hlabe
    exact ⟨idnaLabel_ne_nil lab hl.1, idnaLabel_chars lab hl.2⟩
  have houtne : ((splitOnChar '.' h1).map (List.map toLowerBasic)).map idnaLabel ≠ [] := by
    intro hc
    rcases List.map_eq_nil_iff.mp hc with hc2
    rcases List.map_eq_nil_iff.mp hc2 with hc3
    exact splitOnChar_ne_nil '.' h1 hc3
  have hIH : idnaHost (h1.map toLowerBasic) = List.intercalate ['.']
      (((splitOnChar '.' h1).map (List.map toLowerBasic)).map idnaLabel) := by
    rw [idnaHost_eq, hsplit]
  have hsplit2 : splitOnChar '.' (idnaHost (h1.map toLowerBasic)) =
      ((splitOnChar '.' h1).map (List.map toLowerBasic)).map idnaLabel := by
    rw [hIH]
    exact splitOnChar_intercalate '.' _
      (fun L hL hdot => ((houtmem L hL).2 '.' hdot).2.2.1 rfl) houtne
  have hmemchar : ∀ c ∈ idnaHost (h1.map toLowerBasic),
      c = '.' ∨ (hostCharOK c = true ∧ toLowerBasic c = c ∧ c ≠ '.' ∧
        c.toNat < 128) := by
    intro c hcm
    rw [hIH] at hcm
    rcases mem_intercalate '.' _ c hcm with h | ⟨L, hL, hcL⟩
    · exact Or.inl h
    · exact Or.inr ((houtmem L hL).2 c hcL)
  refine ⟨?_, ?_, ?_, ?_, ?_⟩
  · rw [validDomainHost_eq, hsplit2]
    simp only [Bool.and_eq_true, decide_eq_true_eq, List.all_eq_true]
    constructor
    · rw [List.length_map, List.length_map]
      exact hval.1
    · intro L hL
      simp only [Bool.and_eq_true, Bool.not_eq_eq_eq_not, Bool.not_true,
        List.all_eq_true]
      constructor
      · rcases hLc : L with _ | ⟨c, r⟩
        · exact absurd hLc (houtmem L hL).1
        · rfl
      · exact fun c hcL => ((houtmem L hL).2 c hcL).1
  · refine map_fix toLowerBasic _ ?_
    intro c hcm
    rcases hmemchar c hcm with h | h
    · subst h
      rfl
    · exact h.2.1
  · intro c hcm
    rcases hmemchar c hcm with h | h
    · subst h
      decide
    · exact h.2.2.2
  · rw [show idnaHost (idnaHost (h1.map toLowerBasic)) = List.intercalate ['.']
        ((splitOnChar '.' (idnaHost (h1.map toLowerBasic))).map idnaLabel)
        from idnaHost_eq _]
    rw [hsplit2]
    rw [map_fix idnaLabel _ (fun L hL => by
      rw [idnaLabel_eq, if_pos (List.all_eq_true.mpr (fun c hcL => by
        simp only [decide_eq_true_eq]
        exact ((houtmem L hL).2 c hcL).2.2.2))])]
    rw [← hIH]
  · rw [hIH]
    exact intercalate_getLast_ne '.' _
      (fun L hL => ⟨(houtmem L hL).1,
        fun hcm => ((houtmem L hL).2 '.' hcm).2.2.1 rfl⟩) houtne

theorem validDomainHost_chars (h : List Char) (hval : validDomainHost h = true) :
    ∀ c ∈ h, hostCharOK c = true ∨ c = '.' := by
  rw [validDomainHost_eq] at hval
  simp only [Bool.and_eq_true, decide_eq_true_eq, List.all_eq_true] at hval
  intro c hcm
  rw [← intercalate_splitOnChar '.' h] at hcm
  rcases mem_intercalate '.' _ c hcm with hc | ⟨x, hx, hcx⟩
  · exact Or.inr hc
  · have := hval.2 x hx
    simp only [Bool.and_eq_true, List.all_eq_true] at this
    exact Or.inl (this.2 c hcx)

theorem validDomainHost_ne_nil (h : List Char) (hval : validDomainHost h = true) :
    h ≠ [] := by
  intro hc
  subst hc
  exact Bool.noConfusion hval

theorem normalizeHost_wf (host0 h : List Char) (hn : normalizeHost host0 = some h) :
    HostWF h := by
  rw [normalizeHost_eq] at hn
  by_cases hbr : host0.take 1 = ['[']
  · rw [if_pos hbr] at hn
    by_cases hinner : (!(host0.drop 1).dropLast.isEmpty &&
        (host0.drop 1).dropLast.all bracketInnerOK) = true
    · rw [if_pos hinner] at hn
      have heq := Option.some.inj hn
      simp only [Bool.and_eq_true, Bool.not_eq_eq_eq_not, Bool.not_true,
        List.all_eq_true] at hinner
      left
      refine ⟨(host0.drop 1).dropLast.map toLowerBasic, heq.symm, ?_, ?_, ?_⟩
      · intro hc
        rcases List.map_eq_nil_iff.mp hc with hc2
        rw [hc2] at hinner
        rcases hinner with ⟨h1x, _⟩
        cases h1x
      · intro c hcm
        rcases List.mem_map.mp hcm with ⟨d, hd, hde⟩
        subst hde
        exact bracketInnerOK_toLower d (hinner.2 d hd)
      · rw [List.map_map]
        refine map_ext _ _ _ ?_
        intro x _
        exact toLower_idem x
    · rw [if_neg hinner] at hn
      cases hn
  · rw [if_neg hbr] at hn
    by_cases hval : validDomainHost (if host0.getLast? = some '.' then host0.dropLast
        else host0) = true
    · rw [if_pos hval] at hn
      have heq := Option.some.inj hn
      right
      have hw := idnaHost_wf _ hval
      rw [heq] at hw
      exact ⟨hw.1, hw.2.1, hw.2.2.1, hw.2.2.2.1, hw.2.2.2.2⟩
    · rw [if_neg hval] at hn
      cases hn

theorem normalizeHost_fix (h : List Char) (hw : HostWF h) : normalizeHost h = some h := by
  rw [normalizeHost_eq]
  rcases hw with ⟨inner, heq, hne, hokk, hfix⟩ | ⟨hval, hmap, hascii, hidna, hdot⟩
  · subst heq
    rw [if_pos (show (('[' :: inner ++ [']'] : List Char)).take 1 = ['['] from rfl)]
    have hdrop : ((('[' :: inner ++ [']'] : List Char)).drop 1).dropLast = inner := by
      rw [show (('[' :: inner ++ [']'] : List Char)).drop 1 = inner ++ [']'] from rfl,
        List.dropLast_concat]
    rw [hdrop]
    rw [if_pos (by
      simp only [Bool.and_eq_true, Bool.not_eq_eq_eq_not, Bool.not_true,
        List.all_eq_true]
      constructor
      · rcases hic : inner with _ | ⟨c, r⟩
        · exact absurd hic hne
        · rfl
      · exact hokk)]
    rw [hfix]
  · have hchars := validDomainHost_chars h hval
    have hne := validDomainHost_ne_nil h hval
    have hbr : h.take 1 ≠ ['['] := by
      intro hc
      have hmem : '[' ∈ h := by
        have hsub := List.take_subset 1 h
        rw [hc] at hsub
        exact hsub (List.mem_singleton_self '[')
      rcases hchars '[' hmem with h2 | h2
      · exact Bool.noConfusion h2
      · exact absurd h2 (by decide)
    rw [if_neg hbr, if_neg hdot, if_pos hval, hmap, hidna]

/-! ### The pipeline core produces well-formed components -/

theorem parseSchemeSplit_eq (cs : List Char) :
    parseSchemeSplit cs =
      (if !(cs.takeWhile isAlphaB).isEmpty &&
          (cs.dropWhile isAlphaB).take 3 = [':', '/', '/'] then
        (cs.takeWhile isAlphaB, (cs.dropWhile isAlphaB).drop 3)
      else if cs.take 2 = ['/', '/'] then (['h', 't', 't', 'p'], cs.drop 2)
      else (['h', 't', 't', 'p'], cs)) := rfl

theorem parseSchemeSplit_props (cs : List Char) :
    (parseSchemeSplit cs).1 ≠ [] ∧ ∀ c ∈ (parseSchemeSplit cs).1, isAlphaB c = true := by
  rw [parseSchemeSplit_eq]
  split_ifs with h1 h2 <;> dsimp only
  · simp only [Bool.and_eq_true, Bool.not_eq_eq_eq_not, Bool.not_true] at h1
    constructor
    · intro hc
      rw [hc] at h1
      exact Bool.noConfusion h1.1
    · intro c hc
      exact List.mem_takeWhile_imp hc
  · exact ⟨by decide, by decide⟩
  · exact ⟨by decide, by decide⟩

theorem toLower_alpha (c : Char) (h : isAlphaB c = true) :
    97 ≤ (toLowerBasic c).toNat ∧ (toLowerBasic c).toNat ≤ 122 := by
  simp only [isAlphaB, Bool.or_eq_true, Bool.and_eq_true, decide_eq_true_eq] at h
  rcases toLower_spec c with ⟨h1, h2, h3⟩ | ⟨h1, h2, h3⟩ | ⟨h1, h2, h3⟩
  · omega
  · omega
  · rw [h3]
    omega

theorem normalizePort_wf (scheme : List Char) (p0 port : Option (List Char))
    (h : normalizePort scheme p0 = some port) :
    ∀ p, port = some p → p ≠ [] ∧ (∀ c ∈ p, isDigitB c = true) ∧
      defaultPort scheme ≠ some p := by
  intro p hp
  subst hp
  cases p0 with
  | none =>
    rw [normalizePort] at h
    cases Option.some.inj h
  | some q =>
    rw [normalizePort] at h
    split_ifs at h with h1 h2 h3
    · cases Option.some.inj h
    · cases Option.some.inj h
    · have hq := Option.some.inj (Option.some.inj h)
      subst hq
      refine ⟨?_, fun c hc => List.all_eq_true.mp h2 c hc, h3⟩
      intro hc
      subst hc
      exact h1 rfl

theorem utf8EncodeChar_ne_nil (c : Char) : utf8EncodeChar c ≠ [] := by
  rw [utf8EncodeChar]
  split_ifs <;> simp

theorem utf8Bytes_lt (cs : List Char) : ∀ b ∈ utf8Bytes cs, b < 256 := by
  intro b hb
  rw [utf8Bytes, List.mem_flatMap] at hb
  rcases hb with ⟨c, _, hbc⟩
  exact (utf8EncodeChar_bytes c b hbc).1

theorem unquotePiece_eq (p : List Char) :
    unquotePiece p =
      (match p with
       | a :: b :: rest =>
         (match hexVal a, hexVal b with
          | some hi, some lo => (16 * hi + lo) :: utf8Bytes rest
          | _, _ => 37 :: utf8Bytes p)
       | _ => 37 :: utf8Bytes p) := rfl

theorem unquotePiece_lt (p : List Char) : ∀ b ∈ unquotePiece p, b < 256 := by
  intro b hb
  rw [unquotePiece_eq] at hb
  rcases p with _ | ⟨a, t⟩
  · simp only [List.mem_cons] at hb
    rcases hb with hb | hb
    · omega
    · exact utf8Bytes_lt _ b hb
  · rcases t with _ | ⟨a2, rest⟩
    · simp only [List.mem_cons] at hb
      rcases hb with hb | hb
      · omega
      · exact utf8Bytes_lt _ b hb
    · dsimp only at hb
      cases hva : hexVal a with
      | none =>
        rw [hva] at hb
        have hb2 : b ∈ 37 :: utf8Bytes (a :: a2 :: rest) := by
          rcases hvb : hexVal a2 <;> rw [hvb] at hb <;> exact hb
        rcases List.mem_cons.mp hb2 with h | h
        · omega
        · exact utf8Bytes_lt _ b h
      | some hi =>
        cases hvb : hexVal a2 with
        | none =>
          rw [hva, hvb] at hb
          rcases List.mem_cons.mp hb with h | h
          · omega
          · exact utf8Bytes_lt _ b h
        | some lo =>
          rw [hva, hvb] at hb
          rcases List.mem_cons.mp hb with h | h
          · have := hexVal_lt a hi hva
            have := hexVal_lt a2 lo hvb
            omega
          · exact utf8Bytes_lt _ b h

theorem unquotePiece_ne_nil (p : List Char) : unquotePiece p ≠ [] := by
  rw [unquotePiece_eq]
  rcases p with _ | ⟨a, t⟩
  · simp
  · rcases t with _ | ⟨a2, rest⟩
    · simp
    · dsimp only
      cases hva : hexVal a with
      | none =>
        cases hvb : hexVal a2 <;> simp [hva, hvb]
      | some hi =>
        cases hvb : hexVal a2 <;> simp [hva, hvb]

theorem unquoteToBytes_eq (cs : List Char) :
    unquoteToBytes cs =
      (match splitOnChar '%' cs with
       | [] => []
       | first :: rest => utf8Bytes first ++ rest.flatMap unquotePiece) := rfl

theorem unquoteToBytes_lt (cs : List Char) : ∀ b ∈ unquoteToBytes cs, b < 256 := by
  intro b hb
  rw [unquoteToBytes_eq] at hb
  rcases hsp : splitOnChar '%' cs with _ | ⟨first, rest⟩
  · rw [hsp] at hb
    exact absurd hb (List.not_mem_nil b)
  · rw [hsp] at hb
    rcases List.mem_append.mp hb with h | h
    · exact utf8Bytes_lt first b h
    · rw [List.mem_flatMap] at h
      rcases h with ⟨piece, _, hbp⟩
      exact unquotePiece_lt piece b hbp

theorem unquoteToBytes_ne_nil (cs : List Char) (h : cs ≠ []) :
    unquoteToBytes cs ≠ [] := by
  rcases cs with _ | ⟨c, cs2⟩
  · exact absurd rfl h
  · by_cases hc : c = '%'
    · subst hc
      rw [unquoteToBytes_eq, splitOnChar_cons_eq]
      rcases hsp : splitOnChar '%' cs2 with _ | ⟨f2, r2⟩
      · exact absurd hsp (splitOnChar_ne_nil '%' cs2)
      · dsimp only
        rw [List.flatMap_cons]
        intro hcon
        rcases List.append_eq_nil.mp hcon with ⟨_, hcon2⟩
        rcases List.append_eq_nil.mp hcon2 with ⟨hcon3, _⟩
        exact unquotePiece_ne_nil f2 hcon3
    · rw [unquoteToBytes_cons_lit c cs2 hc]
      intro hcon
      rcases List.append_eq_nil.mp hcon with ⟨hcon2, _⟩
      exact utf8EncodeChar_ne_nil c hcon2

theorem plusToSpace_ne_nil (cs : List Char) (h : cs ≠ []) : plusToSpace cs ≠ [] := by
  intro hc
  exact h (List.map_eq_nil_iff.mp hc)

theorem parseQslLoop_facts :
    ∀ L : List (List Char), ∀ p ∈ parseQslLoop L,
      (∀ b ∈ p.1, b < 256) ∧ (∀ b ∈ p.2, b < 256) ∧ p.2 ≠ [] := by
  intro L
  induction L with
  | nil =>
    intro p hp
    exact absurd hp (List.not_mem_nil p)
  | cons nv rest ih =>
    intro p hp
    by_cases hnv : nv = []
    · rw [show parseQslLoop (nv :: rest) = parseQslLoop rest by
        rw [parseQslLoop, if_pos hnv]] at hp
      exact ih p hp
    · rw [show parseQslLoop (nv :: rest) =
          (match splitFirst '=' nv with
           | (_, none) => parseQslLoop rest
           | (n, some v) =>
             if v = [] then parseQslLoop rest
             else (unquoteToBytes (plusToSpace n), unquoteToBytes (plusToSpace v)) ::
               parseQslLoop rest) by rw [parseQslLoop, if_neg hnv]] at hp
      rcases hsp : splitFirst '=' nv with ⟨n, vo⟩
      cases vo with
      | none =>
        rw [hsp] at hp
        exact ih p hp
      | some v =>
        rw [hsp] at hp
        dsimp only at hp
        by_cases hv : v = []
        · rw [if_pos hv] at hp
          exact ih p hp
        · rw [if_neg hv] at hp
          rcases List.mem_cons.mp hp with h | h
          · subst h
            exact ⟨unquoteToBytes_lt _, unquoteToBytes_lt _,
              unquoteToBytes_ne_nil _ (plusToSpace_ne_nil v hv)⟩
          · exact ih p h

theorem parse_qsl_facts (qs : List Char) :
    ∀ p ∈ parse_qsl qs,
      (∀ b ∈ p.1, b < 256) ∧ (∀ b ∈ p.2, b < 256) ∧ p.2 ≠ [] :=
  fun p hp => parseQslLoop_facts _ p hp

theorem splitFirst_parts (sep : Char) :
    ∀ l a b, splitFirst sep l = (a, some b) → l = a ++ sep :: b := by
  intro l
  induction l with
  | nil =>
    intro a b h
    rw [splitFirst] at h
    cases (Prod.mk.injEq _ _ _ _ ▸ h).2
  | cons c cs ih =>
    intro a b h
    rw [splitFirst] at h
    split_ifs at h with hc
    · subst hc
      have h1 := (Prod.mk.injEq _ _ _ _ ▸ h).1
      have h2 := Option.some.inj (Prod.mk.injEq _ _ _ _ ▸ h).2
      rw [← h1, ← h2]
      rfl
    · have h1 := (Prod.mk.injEq _ _ _ _ ▸ h).1
      have h2 := (Prod.mk.injEq _ _ _ _ ▸ h).2
      rcases a with _ | ⟨a0, arest⟩
      · cases h1
      · have hca : c = a0 := (List.cons_eq_cons.mp h1).1
        have hrest := ih arest b (by
          rw [Prod.mk.injEq]
          exact ⟨(List.cons_eq_cons.mp h1).2, h2⟩)
        rw [List.cons_append, ← hca, ← hrest]

theorem splitLast_parts (sep : Char) (l u v : List Char)
    (h : splitLast sep l = (some u, v)) : l = u ++ sep :: v := by
  rw [splitLast] at h
  rcases hsp : splitFirst sep l.reverse with ⟨suf, preo⟩
  cases preo with
  | none =>
    rw [hsp] at h
    cases (Prod.mk.injEq _ _ _ _ ▸ h).1
  | some pre =>
    rw [hsp] at h
    have h1 := Option.some.inj (Prod.mk.injEq _ _ _ _ ▸ h).1
    have h2 := (Prod.mk.injEq _ _ _ _ ▸ h).2
    have hrev := splitFirst_parts sep l.reverse suf pre hsp
    have : l = (suf ++ sep :: pre).reverse := by
      rw [← hrev, List.reverse_reverse]
    rw [this, List.reverse_append, List.reverse_cons, List.append_assoc]
    rw [← h1, ← h2]
    rfl

theorem splitLast_mem (sep : Char) (l u : List Char)
    (h : (splitLast sep l).1 = some u) : ∀ c ∈ u, c ∈ l := by
  rcases hsp : splitLast sep l with ⟨uo, v⟩
  rw [hsp] at h
  have huo : uo = some u := h
  subst huo
  have := splitLast_parts sep l u v hsp
  intro c hc
  rw [this]
  exact List.mem_append.mpr (Or.inl hc)

theorem normCore_eq (raw : List Char) (extra : List (List Nat × List Nat)) :
    normCore raw extra =
      (if (stripWS raw).isEmpty then none
       else
        match splitHostPort (splitLast '@'
            (splitAuthorityRest (parseSchemeSplit (stripWS raw)).2).1).2 with
        | none => none
        | some (host0, port0) =>
          match normalizeHost host0 with
          | none => none
          | some host =>
            match normalizePort ((parseSchemeSplit (stripWS raw)).1.map toLowerBasic)
                port0 with
            | none => none
            | some port =>
              some { scheme := (parseSchemeSplit (stripWS raw)).1.map toLowerBasic,
                     userinfo := (splitLast '@'
                       (splitAuthorityRest (parseSchemeSplit (stripWS raw)).2).1).1,
                     host := host, port := port,
                     path := pathNormalize
                       (splitTail (splitAuthorityRest
                         (parseSchemeSplit (stripWS raw)).2).2).1,
                     query := sortPairs (parse_qsl
                       ((splitTail (splitAuthorityRest
                         (parseSchemeSplit (stripWS raw)).2).2).2.1.getD []) ++ extra),
                     fragment := (splitTail (splitAuthorityRest
                       (parseSchemeSplit (stripWS raw)).2).2).2.2 }) := rfl

/-- Every successful run of the pipeline core yields well-formed canonical
components; with no caller-supplied pairs every query value is nonempty. -/
theorem normCore_wf (raw : List Char) (extra : List (List Nat × List Nat))
    (hextra : ∀ p ∈ extra, (∀ b ∈ p.1, b < 256) ∧ (∀ b ∈ p.2, b < 256))
    (K : CanonParts) (h : normCore raw extra = some K) :
    CanonWF K ∧ (extra = [] → ∀ p ∈ K.query, p.2 ≠ []) := by
  rw [normCore_eq] at h
  by_cases hempty : (stripWS raw).isEmpty = true
  · rw [if_pos hempty] at h
    cases h
  · rw [if_neg hempty] at h
    rcases hsp : splitHostPort (splitLast '@'
        (splitAuthorityRest (parseSchemeSplit (stripWS raw)).2).1).2 with _ | ⟨host0, port0⟩
    · rw [hsp] at h
      cases h
    · rw [hsp] at h
      dsimp only at h
      rcases hnh : normalizeHost host0 with _ | host
      · rw [hnh] at h
        cases h
      · rw [hnh] at h
        dsimp only at h
        rcases hnp : normalizePort
            ((parseSchemeSplit (stripWS raw)).1.map toLowerBasic) port0 with _ | port
        · rw [hnp] at h
          cases h
        · rw [hnp] at h
          dsimp only at h
          have hK := Option.some.inj h
          have hsch := parseSchemeSplit_props (stripWS raw)
          have hKs : K.scheme = (parseSchemeSplit (stripWS raw)).1.map toLowerBasic := by
            rw [← hK]
          have hKu : K.userinfo = (splitLast '@'
              (splitAuthorityRest (parseSchemeSplit (stripWS raw)).2).1).1 := by
            rw [← hK]
          have hKh : K.host = host := by
            rw [← hK]
          have hKp : K.port = port := by
            rw [← hK]
          have hKpath : K.path = pathNormalize
              (splitTail (splitAuthorityRest (parseSchemeSplit (stripWS raw)).2).2).1 := by
            rw [← hK]
          have hKq : K.query = sortPairs (parse_qsl
              ((splitTail (splitAuthorityRest
                (parseSchemeSplit (stripWS raw)).2).2).2.1.getD []) ++ extra) := by
            rw [← hK]
          constructor
          · refine ⟨?_, ?_, ?_, ?_, ?_, ?_, ?_, ?_⟩
            · rw [hKs]
              intro hc
              exact hsch.1 (List.map_eq_nil_iff.mp hc)
            · rw [hKs]
              intro c hc
              rcases List.mem_map.mp hc with ⟨d, hd, hde⟩
              subst hde
              exact toLower_alpha d (hsch.2 d hd)
            · intro u hu c hc
              rw [hKu] at hu
              have hmem := splitLast_mem '@' _ u hu c hc
              have := List.mem_takeWhile_imp hmem
              rwa [Bool.not_eq_true'] at this
            · rw [hKh]
              exact normalizeHost_wf host0 host hnh
            · intro p hp
              rw [hKp] at hp
              have := normalizePort_wf _ port0 port hnp p hp
              rwa [hKs]
            · rw [hKpath]
              exact pathNormalize_wf _
            · intro q hq
              rw [hKq] at hq
              have hq2 := (sortPairs_perm _).subset hq
              rcases List.mem_append.mp hq2 with h2 | h2
              · have := parse_qsl_facts _ q h2
                exact ⟨this.1, this.2.1⟩
              · exact hextra q h2
            · rw [hKq]
              exact sortPairs_sorted _
          · intro hex p hp
            subst hex
            rw [hKq] at hp
            have hp2 := (sortPairs_perm _).subset hp
            rw [List.append_nil] at hp2
            exact (parse_qsl_facts _ p hp2).2.2

/-! ### Characters of the serialized output -/

theorem pathCanon_not_mem (l : List Char) (hl : pathCanon l = true) (c : Char)
    (h1 : c ≠ '/') (h2 : pathSafeChar c = false) (h3 : c ≠ '%')
    (h4 : hexVal c = none) : c ∉ l := by
  intro hmem
  rcases pathCanon_mem l hl c hmem with h | h | h | h
  · exact h1 h
  · rw [h2] at h
    cases h
  · exact h3 h
  · rw [h4] at h
    cases h

theorem mem_queryEncByte (b : Nat) (hb : b < 256) (c : Char) (hc : c ∈ queryEncByte b) :
    c = '+' ∨ querySafeChar c = true ∨ c = '%' ∨ isAlnumB c = true := by
  rw [queryEncByte] at hc
  split_ifs at hc with h1 h2
  · rw [List.mem_singleton] at hc
    exact Or.inl hc
  · rw [List.mem_singleton] at hc
    subst hc
    simp only [Bool.and_eq_true] at h2
    exact Or.inr (Or.inl h2.2)
  · simp only [pctUpper, List.mem_cons, List.not_mem_nil, or_false] at hc
    rcases hc with h | h | h
    · exact Or.inr <| Or.inr <| Or.inl h
    · subst h
      exact Or.inr (Or.inr (Or.inr (isAlnumB_hexDigitUpper _ (by omega))))
    · subst h
      exact Or.inr (Or.inr (Or.inr (isAlnumB_hexDigitUpper _ (by omega))))

theorem mem_renderQuery (q : List (List Nat × List Nat))
    (hq : ∀ p ∈ q, (∀ b ∈ p.1, b < 256) ∧ (∀ b ∈ p.2, b < 256)) (c : Char)
    (hc : c ∈ renderQuery q) :
    c = '&' ∨ c = '=' ∨ c = '+' ∨ querySafeChar c = true ∨ c = '%' ∨
      isAlnumB c = true := by
  rw [renderQuery] at hc
  rcases mem_intercalate '&' _ c hc with h | ⟨x, hx, hcx⟩
  · exact Or.inl h
  · rcases List.mem_map.mp hx with ⟨p, hp, hpe⟩
    subst hpe
    have hpb := hq p hp
    rcases List.mem_append.mp hcx with h | h
    · rw [queryEncBytes, List.mem_flatMap] at h
      rcases h with ⟨b, hb, hcb⟩
      rcases mem_queryEncByte b (hpb.1 b hb) c hcb with h | h | h | h
      · exact Or.inr <| Or.inr <| Or.inl h
      · exact Or.inr <| Or.inr <| Or.inr <| Or.inl h
      · exact Or.inr <| Or.inr <| Or.inr <| Or.inr <| Or.inl h
      · exact Or.inr <| Or.inr <| Or.inr <| Or.inr <| Or.inr h
    · rcases List.mem_cons.mp h with h | h
      · exact Or.inr (Or.inl h)
      · rw [queryEncBytes, List.mem_flatMap] at h
        rcases h with ⟨b, hb, hcb⟩
        rcases mem_queryEncByte b (hpb.2 b hb) c hcb with h | h | h | h
        · exact Or.inr <| Or.inr <| Or.inl h
        · exact Or.inr <| Or.inr <| Or.inr <| Or.inl h
        · exact Or.inr <| Or.inr <| Or.inr <| Or.inr <| Or.inl h
        · exact Or.inr <| Or.inr <| Or.inr <| Or.inr <| Or.inr h

theorem HostWF_chars (h : List Char) (hw : HostWF h) :
    ∀ c ∈ h, c = '[' ∨ c = ']' ∨ bracketInnerOK c = true ∨ hostCharOK c = true ∨
      c = '.' := by
  intro c hcm
  rcases hw with ⟨inner, heq, _, hokk, _⟩ | ⟨hval, _, _, _, _⟩
  · subst heq
    rcases List.mem_cons.mp hcm with h2 | h2
    · exact Or.inl h2
    · rcases List.mem_append.mp h2 with h3 | h3
      · exact Or.inr (Or.inr (Or.inl (hokk c h3)))
      · rw [List.mem_singleton] at h3
        exact Or.inr (Or.inl h3)
  · rcases validDomainHost_chars h hval c hcm with h2 | h2
    · exact Or.inr (Or.inr (Or.inr (Or.inl h2)))
    · exact Or.inr (Or.inr (Or.inr (Or.inr h2)))

/-- Neither the hash sign nor the question mark can occur in a well-formed
host. -/
theorem HostWF_no_hash_question (h : List Char) (hw : HostWF h) :
    '#' ∉ h ∧ '?' ∉ h ∧ '%' ∉ h ∧ '@' ∉ h := by
  refine ⟨?_, ?_, ?_, ?_⟩ <;> intro hmem <;>
    rcases HostWF_chars h hw _ hmem with h2 | h2 | h2 | h2 | h2
  · exact absurd h2 (by decide)
  · exact absurd h2 (by decide)
  · have := bracketInnerOK_toNat _ h2
    rw [show ('#' : Char).toNat = 35 from rfl] at this
    omega
  · have := hostCharOK_toNat _ h2
    rw [show ('#' : Char).toNat = 35 from rfl] at this
    omega
  · exact absurd h2 (by decide)
  · exact absurd h2 (by decide)
  · exact absurd h2 (by decide)
  · have := bracketInnerOK_toNat _ h2
    rw [show ('?' : Char).toNat = 63 from rfl] at this
    omega
  · have := hostCharOK_toNat _ h2
    rw [show ('?' : Char).toNat = 63 from rfl] at this
    omega
  · exact absurd h2 (by decide)
  · exact absurd h2 (by decide)
  · exact absurd h2 (by decide)
  · have := bracketInnerOK_toNat _ h2
    rw [show ('%' : Char).toNat = 37 from rfl] at this
    omega
  · have := hostCharOK_toNat _ h2
    rw [show ('%' : Char).toNat = 37 from rfl] at this
    omega
  · exact absurd h2 (by decide)
  · exact absurd h2 (by decide)
  · exact absurd h2 (by decide)
  · have := bracketInnerOK_toNat _ h2
    rw [show ('@' : Char).toNat = 64 from rfl] at this
    omega
  · have := hostCharOK_toNat _ h2
    rw [show ('@' : Char).toNat = 64 from rfl] at this
    omega
  · exact absurd h2 (by decide)

theorem renderParts_eq (k : CanonParts) (dropFragments : Bool) :
    renderParts k dropFragments =
      k.scheme ++ ':' :: '/' :: '/' ::
        ((match k.userinfo with | some u => u ++ ['@'] | none => []) ++
          k.host ++ (match k.port with | some p => ':' :: p | none => []) ++
          k.path ++ (if k.query.isEmpty then [] else '?' :: renderQuery k.query) ++
          (if dropFragments then []
           else match k.fragment with | some f => '#' :: f | none => [])) := rfl


/-- A character excluded from every well-formed component does not occur in
the fragmentless rendering. -/
theorem renderParts_not_mem (K : CanonParts) (hw : CanonWF K) (c : Char)
    (hsch : ¬(97 ≤ c.toNat ∧ c.toNat ≤ 122))
    (hcolon : c ≠ ':') (hslash : c ≠ '/') (hat : c ≠ '@')
    (hauth : isAuthEnd c = true)
    (hhost : c ∉ K.host)
    (hdig : isDigitB c = false)
    (hsafe : pathSafeChar c = false) (hpct : c ≠ '%') (hhex : hexVal c = none)
    (hquery : K.query = [] ∨ (c ≠ '?' ∧ c ≠ '&' ∧ c ≠ '=' ∧ c ≠ '+' ∧
      querySafeChar c = false ∧ isAlnumB c = false)) :
    c ∉ renderParts K true := by
  intro hc
  rw [renderParts_eq] at hc
  rcases List.mem_append.mp hc with h | h
  · rcases hw.scheme_lower c h with ⟨h1, h2⟩
    exact hsch ⟨h1, h2⟩
  rcases List.mem_cons.mp h with h | h
  · exact hcolon h
  rcases List.mem_cons.mp h with h | h
  · exact hslash h
  rcases List.mem_cons.mp h with h | h
  · exact hslash h
  rcases List.mem_append.mp h with h | h
  · rcases List.mem_append.mp h with h | h
    · rcases List.mem_append.mp h with h | h
      · rcases List.mem_append.mp h with h | h
        · rcases List.mem_append.mp h with h | h
          · rcases hui : K.userinfo with _ | u
            · rw [hui] at h
              exact List.not_mem_nil c h
            · rw [hui] at h
              rcases List.mem_append.mp h with h2 | h2
              · have := hw.ui_ok u hui c h2
                rw [hauth] at this
                cases this
              · rw [List.mem_singleton] at h2
                exact hat h2
          · exact hhost h
        · rcases hpt : K.port with _ | p
          · rw [hpt] at h
            exact List.not_mem_nil c h
          · rw [hpt] at h
            rcases List.mem_cons.mp h with h2 | h2
            · exact hcolon h2
            · have := (hw.port_ok p hpt).2.1 c h2
              rw [hdig] at this
              cases this
      · exact absurd (hw.path_wf.1) (fun hpc =>
          pathCanon_not_mem K.path hpc c hslash hsafe hpct hhex h)
    · by_cases hqe : K.query.isEmpty = true
      · rw [if_pos hqe] at h
        exact List.not_mem_nil c h
      · rw [if_neg hqe] at h
        rcases hquery with hq | hq
        · rw [List.isEmpty_iff] at hqe
          exact hqe hq
        · rcases List.mem_cons.mp h with h2 | h2
          · exact hq.1 h2
          · rcases mem_renderQuery K.query hw.query_bytes c h2 with
              h3 | h3 | h3 | h3 | h3 | h3
            · exact hq.2.1 h3
            · exact hq.2.2.1 h3
            · exact hq.2.2.2.1 h3
            · rw [hq.2.2.2.2.1] at h3
              cases h3
            · exact hpct h3
            · rw [hq.2.2.2.2.2] at h3
              cases h3
  · rw [if_pos rfl] at h
    exact List.not_mem_nil c h

/-! ### Uppercase escapes in the rendered query -/

theorem escapesUpperOK_append_pct (b : Nat) (hb : b < 256) (t : List Char)
    (ht : escapesUpperOK t = true) : escapesUpperOK (pctUpper b ++ t) = true := by
  show escapesUpperOK ('%' :: hexDigitUpper (b / 16) :: hexDigitUpper (b % 16) :: t) =
    true
  rw [escapesUpperOK_pct, hexVal_hexDigitUpper (b / 16) (by omega),
    hexVal_hexDigitUpper (b % 16) (by omega)]
  have h1 : (!(decide (97 ≤ (hexDigitUpper (b / 16)).toNat) &&
      decide ((hexDigitUpper (b / 16)).toNat ≤ 102))) = true := by
    rw [Bool.not_eq_true']
    simp only [Bool.and_eq_false_iff, decide_eq_false_iff_not]
    have := hexDigitUpper_not_lower (b / 16) (by omega)
    omega
  have h2 : (!(decide (97 ≤ (hexDigitUpper (b % 16)).toNat) &&
      decide ((hexDigitUpper (b % 16)).toNat ≤ 102))) = true := by
    rw [Bool.not_eq_true']
    simp only [Bool.and_eq_false_iff, decide_eq_false_iff_not]
    have := hexDigitUpper_not_lower (b % 16) (by omega)
    omega
  rw [h1, h2, ht]
  rfl

theorem escapesUpperOK_qenc (bs : List Nat) (hbs : ∀ b ∈ bs, b < 256)
    (t : List Char) (ht : escapesUpperOK t = true) :
    escapesUpperOK (queryEncBytes bs ++ t) = true := by
  induction bs with
  | nil => exact ht
  | cons b rest ih =>
    have hb : b < 256 := hbs b (List.mem_cons_self b rest)
    have hrest := ih (fun x hx => hbs x (List.mem_cons_of_mem b hx))
    rw [queryEncBytes, List.flatMap_cons, List.append_assoc]
    rw [queryEncByte]
    split_ifs with h1 h2
    · rw [List.singleton_append, escapesUpperOK_cons_ne '+' _ (by decide)]
      exact hrest
    · have hne : Char.ofNat b ≠ '%' := by
        intro hcc
        simp only [Bool.and_eq_true] at h2
        rw [hcc] at h2
        exact absurd h2.2 (by decide)
      rw [List.singleton_append, escapesUpperOK_cons_ne _ _ hne]
      exact hrest
    · exact escapesUpperOK_append_pct b hb _ hrest

theorem escapesUpperOK_pair (p : List Nat × List Nat)
    (hb : (∀ b ∈ p.1, b < 256) ∧ (∀ b ∈ p.2, b < 256)) (t : List Char)
    (ht : escapesUpperOK t = true) :
    escapesUpperOK ((queryEncBytes p.1 ++ '=' :: queryEncBytes p.2) ++ t) = true := by
  rw [List.append_assoc]
  refine escapesUpperOK_qenc p.1 hb.1 _ ?_
  rw [show ('=' :: queryEncBytes p.2) ++ t = '=' :: (queryEncBytes p.2 ++ t) from rfl]
  rw [escapesUpperOK_cons_ne '=' _ (by decide)]
  exact escapesUpperOK_qenc p.2 hb.2 t ht

theorem escapesUpperOK_renderQuery (q : List (List Nat × List Nat))
    (hq : ∀ p ∈ q, (∀ b ∈ p.1, b < 256) ∧ (∀ b ∈ p.2, b < 256)) :
    escapesUpperOK (renderQuery q) = true := by
  rw [renderQuery]
  induction q with
  | nil => rfl
  | cons p rest ih =>
    have hp := hq p (List.mem_cons_self p rest)
    cases rest with
    | nil =>
      rw [List.map_cons, List.map_nil, intercalate_single]
      have := escapesUpperOK_pair p hp [] rfl
      rwa [List.append_nil] at this
    | cons p2 r2 =>
      have ih2 := ih (fun x hx => hq x (List.mem_cons_of_mem p hx))
      rw [List.map_cons, List.map_cons, intercalate_cons₂]
      refine escapesUpperOK_pair p hp _ ?_
      rw [escapesUpperOK_cons_ne '&' _ (by decide)]
      rw [List.map_cons] at ih2
      exact ih2

/-! ### Claim C9 -/

theorem normalize_url_str_eq (s : String) (extra : List (String × String))
    (drop : Bool) :
    normalize_url (.str s) extra drop =
      (match normCore s.toList (extra.map fun p =>
          (utf8Bytes p.1.toList, utf8Bytes p.2.toList)) with
       | some k => some (String.mk (renderParts k drop))
       | none => none) := rfl

theorem HostWF_ne_nil (h : List Char) (hw : HostWF h) : h ≠ [] := by
  rcases hw with ⟨inner, heq, _, _, _⟩ | ⟨hval, _, _, _, _⟩
  · subst heq
    simp
  · exact validDomainHost_ne_nil h hval

/-- C9 as stated is false on the code: the userinfo component is kept
verbatim, so a lowercase percent-escape in it survives into the output
text, which therefore does not have every percent-encoded triplet in
uppercase hexadecimal. -/
theorem claim_C9_counterexample :
    normalize_url (.str "http://u%7b@example.com/") [] true =
      some "http://u%7b@example.com/" ∧
    escapesUpperOK "http://u%7b@example.com/".toList = false := by
  constructor
  · decide
  · decide

/-- C9 amended: every text returned by a successful normalization is the
rendering of canonical components with a nonempty scheme, a nonempty host
and an absolute path; no default or empty port survives; the path and the
rendered query carry only uppercase-hex percent triplets (the userinfo,
kept verbatim, is the one component exempt from that invariant); with
fragments dropped the output has no hash sign, and with an empty query it
has no question mark. -/
theorem claim_C9_canonical_output (s : String) (extra : List (String × String))
    (drop : Bool) (c : String)
    (h : normalize_url (.str s) extra drop = some c) :
    ∃ K, normCore s.toList (extra.map fun p =>
        (utf8Bytes p.1.toList, utf8Bytes p.2.toList)) = some K ∧
      c = String.mk (renderParts K drop) ∧
      K.scheme ≠ [] ∧ K.host ≠ [] ∧ (∃ t, K.path = '/' :: t) ∧
      (∀ p, K.port = some p → p ≠ [] ∧ defaultPort K.scheme ≠ some p) ∧
      escapesUpperOK K.path = true ∧
      escapesUpperOK (renderQuery K.query) = true ∧
      (drop = true → '#' ∉ c.toList) ∧
      (drop = true → K.query = [] → '?' ∉ c.toList) := by
  rw [normalize_url_str_eq] at h
  rcases hn : normCore s.toList (extra.map fun p =>
      (utf8Bytes p.1.toList, utf8Bytes p.2.toList)) with _ | K
  · rw [hn] at h
    cases h
  · rw [hn] at h
    dsimp only at h
    have hc := (Option.some.inj h).symm
    have hextra : ∀ p ∈ extra.map fun p =>
        ((utf8Bytes p.1.toList : List Nat), (utf8Bytes p.2.toList : List Nat)),
        (∀ b ∈ p.1, b < 256) ∧ (∀ b ∈ p.2, b < 256) := by
      intro p hp
      rcases List.mem_map.mp hp with ⟨q, _, hqe⟩
      subst hqe
      exact ⟨utf8Bytes_lt _, utf8Bytes_lt _⟩
    have hwf := (normCore_wf _ _ hextra K hn).1
    have hclist : drop = true → c.toList = renderParts K true := by
      intro hd
      subst hd
      rw [hc]
      rfl
    refine ⟨K, hn, hc, hwf.scheme_ne, HostWF_ne_nil _ hwf.host_wf,
      hwf.path_wf.2.1, ?_, pathCanon_escapesUpper _ hwf.path_wf.1,
      escapesUpperOK_renderQuery _ hwf.query_bytes, ?_, ?_⟩
    · intro p hp
      exact ⟨(hwf.port_ok p hp).1, (hwf.port_ok p hp).2.2⟩
    · intro hd
      rw [hclist hd]
      exact renderParts_not_mem K hwf '#' (by decide) (by decide) (by decide)
        (by decide) (by decide) (HostWF_no_hash_question _ hwf.host_wf).1
        (by decide) (by decide) (by decide) (by decide)
        (Or.inr ⟨by decide, by decide, by decide, by decide, by decide, by decide⟩)
    · intro hd hq
      rw [hclist hd]
      exact renderParts_not_mem K hwf '?' (by decide) (by decide) (by decide)
        (by decide) (by decide) (HostWF_no_hash_question _ hwf.host_wf).2.1
        (by decide) (by decide) (by decide) (by decide) (Or.inl hq)

theorem claim_C9_witness :
    ∃ K, normCore "http://example.com/a%7bb?x=%7d".toList
        (([] : List (String × String)).map fun p =>
          (utf8Bytes p.1.toList, utf8Bytes p.2.toList)) = some K ∧
      "http://example.com/a%7Bb?x=%7D" = String.mk (renderParts K true) ∧
      K.scheme ≠ [] ∧ K.host ≠ [] ∧ (∃ t, K.path = '/' :: t) ∧
      (∀ p, K.port = some p → p ≠ [] ∧ defaultPort K.scheme ≠ some p) ∧
      escapesUpperOK K.path = true ∧
      escapesUpperOK (renderQuery K.query) = true ∧
      (true = true → '#' ∉ "http://example.com/a%7Bb?x=%7D".toList) ∧
      (true = true → K.query = [] → '?' ∉ "http://example.com/a%7Bb?x=%7D".toList) :=
  claim_C9_canonical_output "http://example.com/a%7bb?x=%7d" [] true
    "http://example.com/a%7Bb?x=%7D" (by decide)

/-! ### The rendered query parses back to its pairs -/

theorem hexDigitUpper_toNat :
    ∀ n, n < 16 → (48 ≤ (hexDigitUpper n).toNat ∧ (hexDigitUpper n).toNat ≤ 57) ∨
      (65 ≤ (hexDigitUpper n).toNat ∧ (hexDigitUpper n).toNat ≤ 70) := by
  decide

theorem not_mem_pctUpper_single (b : Nat) (hb : b < 256) (c : Char)
    (hpct : c ≠ '%') (hc : c.toNat < 48 ∨ (57 < c.toNat ∧ c.toNat < 65) ∨
      70 < c.toNat) : c ∉ pctUpper b := by
  intro hmem
  simp only [pctUpper, List.mem_cons, List.not_mem_nil, or_false] at hmem
  rcases hmem with h | h | h
  · exact hpct h
  · rcases hexDigitUpper_toNat (b / 16) (by omega) with ⟨h1, h2⟩ | ⟨h1, h2⟩ <;>
      rw [h] at hc <;> omega
  · rcases hexDigitUpper_toNat (b % 16) (by omega) with ⟨h1, h2⟩ | ⟨h1, h2⟩ <;>
      rw [h] at hc <;> omega

theorem queryEncByte_ne_nil (b : Nat) : queryEncByte b ≠ [] := by
  rw [queryEncByte]
  split_ifs <;> simp [pctUpper]

theorem queryEncBytes_ne_nil (bs : List Nat) (h : bs ≠ []) :
    queryEncBytes bs ≠ [] := by
  cases bs with
  | nil => exact absurd rfl h
  | cons b rest =>
    rw [queryEncBytes, List.flatMap_cons]
    intro hc
    rcases List.append_eq_nil.mp hc with ⟨hc2, _⟩
    exact queryEncByte_ne_nil b hc2

theorem not_mem_qenc (bs : List Nat) (hbs : ∀ b ∈ bs, b < 256) (c : Char)
    (hplus : c ≠ '+') (hpct : c ≠ '%') (halnum : isAlnumB c = false)
    (hlit : querySafeChar c = false ∨ c.toNat ∉ bs) : c ∉ queryEncBytes bs := by
  intro hmem
  rw [queryEncBytes, List.mem_flatMap] at hmem
  rcases hmem with ⟨b, hb, hcb⟩
  have hb256 := hbs b hb
  rw [queryEncByte] at hcb
  split_ifs at hcb with h1 h2
  · rw [List.mem_singleton] at hcb
    exact hplus hcb
  · rw [List.mem_singleton] at hcb
    subst hcb
    simp only [Bool.and_eq_true, decide_eq_true_eq] at h2
    rcases hlit with h3 | h3
    · rw [h3] at h2
      exact Bool.noConfusion h2.2
    · exact h3 (by rw [toNat_ofNat_lt b (by omega)]; exact hb)
  · simp only [pctUpper, List.mem_cons, List.not_mem_nil, or_false] at hcb
    rcases hcb with h | h | h
    · exact hpct h
    · rw [h] at halnum
      rw [isAlnumB_hexDigitUpper (b / 16) (by omega)] at halnum
      exact Bool.noConfusion halnum
    · rw [h] at halnum
      rw [isAlnumB_hexDigitUpper (b % 16) (by omega)] at halnum
      exact Bool.noConfusion halnum

theorem unquote_plus_qenc (bs : List Nat) (hbs : ∀ b ∈ bs, b < 256) :
    unquoteToBytes (plusToSpace (queryEncBytes bs)) = bs := by
  induction bs with
  | nil => rfl
  | cons b rest ih =>
    have hb : b < 256 := hbs b (List.mem_cons_self b rest)
    have hrest := ih (fun x hx => hbs x (List.mem_cons_of_mem b hx))
    rw [queryEncBytes, List.flatMap_cons,
      show rest.flatMap queryEncByte = queryEncBytes rest from rfl,
      show plusToSpace (queryEncByte b ++ queryEncBytes rest) =
        plusToSpace (queryEncByte b) ++ plusToSpace (queryEncBytes rest) from
        List.map_append _ _ _]
    rw [queryEncByte]
    split_ifs with h1 h2
    · rw [show plusToSpace ['+'] = [' '] from rfl, List.singleton_append,
        unquoteToBytes_cons_lit ' ' _ (by decide)]
      rw [show utf8EncodeChar ' ' = [32] from rfl, hrest]
      have hb32 : b = 32 := by
        have := beq_iff_eq.mp h1
        omega
      rw [hb32]
      rfl
    · simp only [Bool.and_eq_true, decide_eq_true_eq] at h2
      have htn : (Char.ofNat b).toNat = b := toNat_ofNat_lt b (by omega)
      have hplus : Char.ofNat b ≠ '+' := by
        intro hc
        have h43 : querySafeChar '+' = true := hc ▸ h2.2
        exact absurd h43 (by decide)
      have hpctne : Char.ofNat b ≠ '%' := by
        intro hc
        have h37 : querySafeChar '%' = true := hc ▸ h2.2
        exact absurd h37 (by decide)
      rw [show plusToSpace [Char.ofNat b] = [Char.ofNat b] from
          plusToSpace_eq_self _ (by
            intro hc
            rw [List.mem_singleton] at hc
            exact hplus hc.symm),
        List.singleton_append,
        unquoteToBytes_cons_lit _ _ hpctne]
      rw [show utf8EncodeChar (Char.ofNat b) = [b] by
        rw [utf8EncodeChar]
        rw [htn]
        rw [if_pos h2.1]]
      rw [hrest]
      rfl
    · have hplusnm : '+' ∉ pctUpper b :=
        not_mem_pctUpper_single b hb '+' (by decide) (by decide)
      rw [show plusToSpace (pctUpper b) = pctUpper b from
        plusToSpace_eq_self _ hplusnm]
      show unquoteToBytes ('%' :: hexDigitUpper (b / 16) :: hexDigitUpper (b % 16) ::
        plusToSpace (queryEncBytes rest)) = b :: rest
      rw [unquoteToBytes_pct _ _ _ _ _ (hexVal_hexDigitUpper _ (by omega))
        (hexVal_hexDigitUpper _ (by omega)), hrest]
      congr 1
      omega

theorem parseQslLoop_cons_enc (n v : List Nat) (L : List (List Char))
    (hn : ∀ b ∈ n, b < 256) (hv : ∀ b ∈ v, b < 256)
    (h61 : 61 ∉ n) (hvne : v ≠ []) :
    parseQslLoop ((queryEncBytes n ++ '=' :: queryEncBytes v) :: L) =
      (n, v) :: parseQslLoop L := by
  have hne : queryEncBytes n ++ '=' :: queryEncBytes v ≠ [] := by simp
  have hEq : '=' ∉ queryEncBytes n := by
    refine not_mem_qenc n hn '=' (by decide) (by decide) (by decide) (Or.inr ?_)
    rw [show ('=' : Char).toNat = 61 from rfl]
    exact h61
  rw [show parseQslLoop ((queryEncBytes n ++ '=' :: queryEncBytes v) :: L) =
      (match splitFirst '=' (queryEncBytes n ++ '=' :: queryEncBytes v) with
       | (_, none) => parseQslLoop L
       | (n2, some v2) =>
         if v2 = [] then parseQslLoop L
         else (unquoteToBytes (plusToSpace n2), unquoteToBytes (plusToSpace v2)) ::
           parseQslLoop L) by rw [parseQslLoop, if_neg hne]]
  rw [splitFirst_append '=' _ _ hEq]
  dsimp only
  rw [if_neg (queryEncBytes_ne_nil v hvne)]
  rw [unquote_plus_qenc n hn, unquote_plus_qenc v hv]

theorem parse_qsl_renderQuery (q : List (List Nat × List Nat))
    (hb : ∀ p ∈ q, (∀ x ∈ p.1, x < 256) ∧ (∀ x ∈ p.2, x < 256))
    (hben : ∀ p ∈ q, BenignPair p) (hvne : ∀ p ∈ q, p.2 ≠ []) :
    parse_qsl (renderQuery q) = q := by
  rw [renderQuery]
  induction q with
  | nil => rfl
  | cons p rest ih =>
    have hpb := hb p (List.mem_cons_self p rest)
    have hpben := hben p (List.mem_cons_self p rest)
    have hpv := hvne p (List.mem_cons_self p rest)
    have hAmp : '&' ∉ queryEncBytes p.1 ++ '=' :: queryEncBytes p.2 := by
      intro hc
      rcases List.mem_append.mp hc with h | h
      · exact not_mem_qenc p.1 hpb.1 '&' (by decide) (by decide) (by decide)
          (Or.inl (by decide)) h
      · rcases List.mem_cons.mp h with h | h
        · exact absurd h (by decide)
        · exact not_mem_qenc p.2 hpb.2 '&' (by decide) (by decide) (by decide)
            (Or.inl (by decide)) h
    have hSemi : ';' ∉ queryEncBytes p.1 ++ '=' :: queryEncBytes p.2 := by
      intro hc
      rcases List.mem_append.mp hc with h | h
      · refine not_mem_qenc p.1 hpb.1 ';' (by decide) (by decide) (by decide)
          (Or.inr ?_) h
        rw [show (';' : Char).toNat = 59 from rfl]
        exact hpben.1
      · rcases List.mem_cons.mp h with h | h
        · exact absurd h (by decide)
        · refine not_mem_qenc p.2 hpb.2 ';' (by decide) (by decide) (by decide)
            (Or.inr ?_) h
          rw [show (';' : Char).toNat = 59 from rfl]
          exact hpben.2.1
    cases rest with
    | nil =>
      rw [List.map_cons, List.map_nil, intercalate_single]
      rw [parse_qsl, splitOnChar_eq_single '&' _ hAmp, List.flatMap_cons,
        List.flatMap_nil, List.append_nil, splitOnChar_eq_single ';' _ hSemi]
      rw [parseQslLoop_cons_enc p.1 p.2 [] hpb.1 hpb.2 hpben.2.2 hpv]
      rfl
    | cons p2 r2 =>
      have ih2 := ih (fun x hx => hb x (List.mem_cons_of_mem p hx))
        (fun x hx => hben x (List.mem_cons_of_mem p hx))
        (fun x hx => hvne x (List.mem_cons_of_mem p hx))
      rw [parse_qsl] at ih2
      rw [List.map_cons] at ih2
      rw [List.map_cons, List.map_cons, intercalate_cons₂]
      rw [parse_qsl, splitOnChar_append_cons '&' _ _ hAmp]
      rw [List.flatMap_cons, splitOnChar_eq_single ';' _ hSemi,
        List.singleton_append]
      rw [parseQslLoop_cons_enc p.1 p.2 _ hpb.1 hpb.2 hpben.2.2 hpv]
      rw [ih2]

theorem sortPairs_fix (l : List (List Nat × List Nat))
    (h : List.Sorted pairLe l) : sortPairs l = l :=
  List.Sorted.insertionSort_eq h

/-! ### Character bounds used by the reparse argument -/

theorem not_ws_of_ge (c : Char) (h : 33 ≤ c.toNat) : isWSB c = false := by
  simp only [isWSB, Bool.or_eq_false_iff, beq_eq_false_iff_ne]
  refine ⟨⟨⟨⟨⟨?_, ?_⟩, ?_⟩, ?_⟩, ?_⟩, ?_⟩
  · exact char_ne_of_toNat_ne c ' ' (by rw [show (' ' : Char).toNat = 32 from rfl]; omega)
  · omega
  · omega
  · omega
  · omega
  · omega

theorem pathSafeExtra_toNat (c : Char) (hcm : c ∈ pathSafeExtra) : 33 ≤ c.toNat := by
  simp only [pathSafeExtra, List.mem_cons, List.not_mem_nil, or_false] at hcm
  rcases hcm with hm|hm|hm|hm|hm|hm|hm|hm|hm|hm|hm|hm|hm|hm|hm|hm|hm <;>
    subst hm <;> decide

theorem querySafeExtra_toNat (c : Char) (hcm : c ∈ querySafeExtra) : 33 ≤ c.toNat := by
  simp only [querySafeExtra, List.mem_cons, List.not_mem_nil, or_false] at hcm
  rcases hcm with hm|hm|hm|hm|hm|hm|hm|hm|hm|hm|hm|hm|hm|hm|hm|hm <;>
    subst hm <;> decide

theorem isAlnumB_toNat (c : Char) (h : isAlnumB c = true) : 48 ≤ c.toNat := by
  simp only [isAlnumB, isAlphaB, isDigitB, Bool.or_eq_true, Bool.and_eq_true,
    decide_eq_true_eq] at h
  omega

theorem pathSafeChar_ge (c : Char) (h : pathSafeChar c = true) : 33 ≤ c.toNat := by
  rw [pathSafeChar, Bool.or_eq_true] at h
  rcases h with h | h
  · have := isAlnumB_toNat c h
    omega
  · exact pathSafeExtra_toNat c (List.elem_iff.mp h)

theorem querySafeChar_ge (c : Char) (h : querySafeChar c = true) : 33 ≤ c.toNat := by
  rw [querySafeChar, Bool.or_eq_true] at h
  rcases h with h | h
  · have := isAlnumB_toNat c h
    omega
  · exact querySafeExtra_toNat c (List.elem_iff.mp h)

theorem hexVal_isSome_toNat (c : Char) (h : (hexVal c).isSome = true) :
    48 ≤ c.toNat ∧ c.toNat ≤ 102 := by
  rw [hexVal] at h
  split_ifs at h with h1 h2 h3
  · simp only [Bool.and_eq_true, decide_eq_true_eq] at h1
    omega
  · simp only [Bool.and_eq_true, decide_eq_true_eq] at h2
    omega
  · simp only [Bool.and_eq_true, decide_eq_true_eq] at h3
    omega
  · cases h

theorem pathCanon_chars_not_ws (l : List Char) (hl : pathCanon l = true) :
    ∀ c ∈ l, isWSB c = false := by
  intro c hcm
  rcases pathCanon_mem l hl c hcm with h | h | h | h
  · subst h
    decide
  · exact not_ws_of_ge c (pathSafeChar_ge c h)
  · subst h
    decide
  · exact not_ws_of_ge c (by have := hexVal_isSome_toNat c h; omega)

theorem renderQuery_chars_not_ws (q : List (List Nat × List Nat))
    (hq : ∀ p ∈ q, (∀ b ∈ p.1, b < 256) ∧ (∀ b ∈ p.2, b < 256)) :
    ∀ c ∈ renderQuery q, isWSB c = false := by
  intro c hcm
  rcases mem_renderQuery q hq c hcm with h | h | h | h | h | h
  · subst h
    decide
  · subst h
    decide
  · subst h
    decide
  · exact not_ws_of_ge c (querySafeChar_ge c h)
  · subst h
    decide
  · exact not_ws_of_ge c (by have := isAlnumB_toNat c h; omega)

theorem not_authEnd_of_toNat (c : Char)
    (h : c.toNat ≠ 47 ∧ c.toNat ≠ 63 ∧ c.toNat ≠ 35) : isAuthEnd c = false := by
  simp only [isAuthEnd, Bool.or_eq_false_iff, beq_eq_false_iff_ne]
  refine ⟨⟨?_, ?_⟩, ?_⟩
  · exact char_ne_of_toNat_ne c '/' (by rw [show ('/' : Char).toNat = 47 from rfl]; exact h.1)
  · exact char_ne_of_toNat_ne c '?' (by rw [show ('?' : Char).toNat = 63 from rfl]; exact h.2.1)
  · exact char_ne_of_toNat_ne c '#' (by rw [show ('#' : Char).toNat = 35 from rfl]; exact h.2.2)

theorem HostWF_not_authEnd (h : List Char) (hw : HostWF h) :
    ∀ c ∈ h, isAuthEnd c = false := by
  intro c hcm
  rcases HostWF_chars h hw c hcm with h2 | h2 | h2 | h2 | h2
  · subst h2
    decide
  · subst h2
    decide
  · have := bracketInnerOK_toNat c h2
    exact not_authEnd_of_toNat c (by omega)
  · have := hostCharOK_toNat c h2
    exact not_authEnd_of_toNat c (by omega)
  · subst h2
    decide

theorem HostWF_no_at (h : List Char) (hw : HostWF h) : '@' ∉ h :=
  (HostWF_no_hash_question h hw).2.2.2

theorem alpha_of_lower (c : Char) (h : 97 ≤ c.toNat ∧ c.toNat ≤ 122) :
    isAlphaB c = true := by
  simp only [isAlphaB, Bool.or_eq_true, Bool.and_eq_true, decide_eq_true_eq]
  omega

theorem getLast?_append_right {α : Type} (l l2 : List α) (h : l2 ≠ []) :
    (l ++ l2).getLast? = l2.getLast? := by
  rw [List.getLast?_append]
  cases hd : l2.getLast? with
  | none =>
    exfalso
    rw [List.getLast?_eq_none_iff] at hd
    exact h hd
  | some d => rfl

theorem mem_of_getLast_some {α : Type} : ∀ (l : List α) (a : α), l.getLast? = some a → a ∈ l
  | [], _, h => Option.noConfusion h
  | [x], a, h => by
    rw [List.getLast?_singleton] at h
    injection h with h2
    exact h2 ▸ List.mem_singleton_self x
  | x :: y :: t, a, h => by
    rw [List.getLast?_cons_cons] at h
    exact List.mem_cons_of_mem x (mem_of_getLast_some (y :: t) a h)

theorem domainHost_no_colon (h : List Char) (hval : validDomainHost h = true) :
    ':' ∉ h := by
  intro hc
  rcases validDomainHost_chars h hval ':' hc with h2 | h2
  · have := hostCharOK_toNat ':' h2
    rw [show (':' : Char).toNat = 58 from rfl] at this
    omega
  · exact absurd h2 (by decide)

theorem domainHost_head (c : Char) (t : List Char)
    (hval : validDomainHost (c :: t) = true) : c ≠ '[' := by
  intro hc
  subst hc
  rcases validDomainHost_chars _ hval '[' (List.mem_cons_self _ _) with h2 | h2
  · have := hostCharOK_toNat '[' h2
    rw [show ('[' : Char).toNat = 91 from rfl] at this
    omega
  · exact absurd h2 (by decide)

theorem bracketInner_no_rbracket (inner : List Char)
    (hin : ∀ c ∈ inner, bracketInnerOK c = true) : ']' ∉ inner := by
  intro hc
  have := bracketInnerOK_toNat ']' (hin ']' hc)
  rw [show (']' : Char).toNat = 93 from rfl] at this
  omega

theorem splitHostPort_bracket_none (inner : List Char) (hin : ']' ∉ inner) :
    splitHostPort ('[' :: inner ++ [']']) = some ('[' :: inner ++ [']'], none) := by
  rw [splitHostPort]
  rw [if_pos (show ('[' :: inner ++ [']']).take 1 = ['['] from rfl)]
  have hsf : splitFirst ']' (('[' :: inner ++ [']']).drop 1) = (inner, some []) := by
    show splitFirst ']' (inner ++ ']' :: []) = (inner, some [])
    exact splitFirst_append ']' inner [] hin
  rw [hsf]

theorem splitHostPort_bracket_port (inner p : List Char) (hin : ']' ∉ inner) :
    splitHostPort (('[' :: inner ++ [']']) ++ ':' :: p) =
      some ('[' :: inner ++ [']'], some p) := by
  rw [splitHostPort]
  rw [if_pos (show ((('[' :: inner ++ [']']) ++ ':' :: p)).take 1 = ['['] from rfl)]
  have hsf : splitFirst ']' ((('[' :: inner ++ [']']) ++ ':' :: p).drop 1) =
      (inner, some (':' :: p)) := by
    show splitFirst ']' ((inner ++ [']']) ++ ':' :: p) = (inner, some (':' :: p))
    rw [List.append_assoc]
    exact splitFirst_append ']' inner (':' :: p) hin
  rw [hsf]
  rfl

theorem hostport_no_at (K : CanonParts) (hw : CanonWF K) :
    '@' ∉ K.host ++ (match K.port with | some p => ':' :: p | none => []) := by
  intro hc
  rcases List.mem_append.mp hc with h | h
  · exact HostWF_no_at K.host hw.host_wf h
  · cases hp : K.port with
    | none =>
      rw [hp] at h
      dsimp only at h
      exact List.not_mem_nil '@' h
    | some p =>
      rw [hp] at h
      dsimp only at h
      rcases List.mem_cons.mp h with h3 | h3
      · exact absurd h3 (by decide)
      · have := (hw.port_ok p hp).2.1 '@' h3
        exact absurd this (by decide)

theorem authority_split (K : CanonParts) (hw : CanonWF K) :
    splitLast '@' (((match K.userinfo with | some u => u ++ ['@'] | none => []) ++
        K.host) ++ (match K.port with | some p => ':' :: p | none => [])) =
      (K.userinfo, K.host ++ (match K.port with | some p => ':' :: p | none => [])) := by
  cases hu : K.userinfo with
  | none =>
    dsimp only
    rw [List.nil_append]
    exact splitLast_not_mem '@' _ (hostport_no_at K hw)
  | some u =>
    dsimp only
    rw [List.append_assoc, List.append_assoc]
    exact splitLast_append '@' u _ (hostport_no_at K hw)

theorem hostport_split (K : CanonParts) (hw : CanonWF K) :
    splitHostPort (K.host ++ (match K.port with | some p => ':' :: p | none => [])) =
      some (K.host, K.port) := by
  cases hp : K.port with
  | none =>
    dsimp only
    rw [List.append_nil]
    rcases hw.host_wf with ⟨inner, hhe, _, hinok, _⟩ | ⟨hval, _, _, _, _⟩
    · rw [hhe]
      exact splitHostPort_bracket_none inner (bracketInner_no_rbracket inner hinok)
    · cases hhc : K.host with
      | nil => exact absurd hhc (validDomainHost_ne_nil K.host hval)
      | cons c t =>
        rw [hhc] at hval
        exact splitHostPort_no_colon c t (domainHost_head c t hval)
          (domainHost_no_colon _ hval)
  | some p =>
    dsimp only
    have hpo := hw.port_ok p hp
    have hpc : ':' ∉ p := by
      intro hcm
      have := hpo.2.1 ':' hcm
      exact absurd this (by decide)
    rcases hw.host_wf with ⟨inner, hhe, _, hinok, _⟩ | ⟨hval, _, _, _, _⟩
    · rw [hhe]
      exact splitHostPort_bracket_port inner p (bracketInner_no_rbracket inner hinok)
    · cases hhc : K.host with
      | nil => exact absurd hhc (validDomainHost_ne_nil K.host hval)
      | cons c t =>
        rw [hhc] at hval
        exact splitHostPort_colon (c :: t) p c t rfl (domainHost_head c t hval) hpc

theorem splitTail_eval (t : List Char) :
    splitTail t = ((splitFirst '?' (splitFirst '#' t).1).1,
      (splitFirst '?' (splitFirst '#' t).1).2, (splitFirst '#' t).2) := rfl

theorem renderQuery_no_hash_question (q : List (List Nat × List Nat))
    (hq : ∀ p ∈ q, (∀ b ∈ p.1, b < 256) ∧ (∀ b ∈ p.2, b < 256)) :
    '#' ∉ renderQuery q ∧ '?' ∉ renderQuery q := by
  constructor
  · intro hc
    rcases mem_renderQuery q hq '#' hc with h | h | h | h | h | h <;>
      exact absurd h (by decide)
  · intro hc
    rcases mem_renderQuery q hq '?' hc with h | h | h | h | h | h <;>
      exact absurd h (by decide)

theorem tail_split (K : CanonParts) (hw : CanonWF K) :
    splitTail (K.path ++ (if K.query.isEmpty then [] else '?' :: renderQuery K.query)) =
      (K.path, (if K.query.isEmpty then (none : Option (List Char))
        else some (renderQuery K.query)), none) := by
  have hpc : pathCanon K.path = true := hw.path_wf.1
  have hHashPath : '#' ∉ K.path :=
    pathCanon_not_mem _ hpc '#' (by decide) (by decide) (by decide) (by decide)
  have hQPath : '?' ∉ K.path :=
    pathCanon_not_mem _ hpc '?' (by decide) (by decide) (by decide) (by decide)
  cases hqe : K.query with
  | nil =>
    rw [if_pos (show List.isEmpty ([] : List (List Nat × List Nat)) = true from rfl)]
    rw [if_pos (show List.isEmpty ([] : List (List Nat × List Nat)) = true from rfl)]
    rw [List.append_nil, splitTail_eval, splitFirst_not_mem '#' K.path hHashPath]
    dsimp only
    rw [splitFirst_not_mem '?' K.path hQPath]
  | cons p1 pr =>
    have hqb : ∀ p ∈ p1 :: pr, (∀ b ∈ p.1, b < 256) ∧ (∀ b ∈ p.2, b < 256) := by
      rw [← hqe]
      exact hw.query_bytes
    have hne2 : ¬(List.isEmpty (p1 :: pr) = true) := fun hh => Bool.noConfusion hh
    rw [if_neg hne2, if_neg hne2]
    have hHash : '#' ∉ K.path ++ '?' :: renderQuery (p1 :: pr) := by
      intro hc
      rcases List.mem_append.mp hc with h | h
      · exact hHashPath h
      · rcases List.mem_cons.mp h with h3 | h3
        · exact absurd h3 (by decide)
        · exact (renderQuery_no_hash_question (p1 :: pr) hqb).1 h3
    rw [splitTail_eval, splitFirst_not_mem '#' _ hHash]
    dsimp only
    rw [splitFirst_append '?' K.path (renderQuery (p1 :: pr)) hQPath]

theorem renderParts_true_form (K : CanonParts) :
    renderParts K true =
      K.scheme ++ ':' :: '/' :: '/' ::
        ((((match K.userinfo with | some u => u ++ ['@'] | none => []) ++ K.host) ++
          (match K.port with | some p => ':' :: p | none => [])) ++
          (K.path ++ (if K.query.isEmpty then [] else '?' :: renderQuery K.query))) := by
  rw [renderParts_eq]
  rw [if_pos (show (true = true) from rfl)]
  rw [List.append_nil, List.append_assoc]

theorem renderParts_true_ne_nil (K : CanonParts) (hw : CanonWF K) :
    renderParts K true ≠ [] := by
  rw [renderParts_true_form]
  cases hs0 : K.scheme with
  | nil => exact absurd hs0 hw.scheme_ne
  | cons c0 st =>
    intro h0
    exact List.noConfusion h0

theorem renderParts_true_head (K : CanonParts) (hw : CanonWF K) :
    ∀ c, (renderParts K true).head? = some c → isWSB c = false := by
  intro c hc
  cases hs0 : K.scheme with
  | nil => exact absurd hs0 hw.scheme_ne
  | cons c0 st =>
    have hh0 : (renderParts K true).head? = some c0 := by
      rw [renderParts_true_form, hs0]
      rfl
    rw [hh0] at hc
    injection hc with hc2
    subst hc2
    refine not_ws_of_ge c0 ?_
    have := hw.scheme_lower c0 (by rw [hs0]; exact List.mem_cons_self c0 st)
    omega

theorem renderParts_true_last (K : CanonParts) (hw : CanonWF K) :
    ∀ c, (renderParts K true).getLast? = some c → isWSB c = false := by
  intro c hc
  rw [renderParts_true_form] at hc
  have hc2 : (':' :: '/' :: '/' ::
      ((((match K.userinfo with | some u => u ++ ['@'] | none => []) ++ K.host) ++
        (match K.port with | some p => ':' :: p | none => [])) ++
        (K.path ++ (if K.query.isEmpty then []
          else '?' :: renderQuery K.query)))).getLast? = some c := by
    rw [← getLast?_append_right K.scheme _ (List.cons_ne_nil _ _)]
    exact hc
  rcases hw.path_wf.2.1 with ⟨pt, hpt⟩
  have hqne : K.path ++ (if K.query.isEmpty then []
      else '?' :: renderQuery K.query) ≠ [] := by
    rw [hpt]
    intro h0
    exact List.noConfusion h0
  have hAqne : ((((match K.userinfo with | some u => u ++ ['@'] | none => []) ++
      K.host) ++ (match K.port with | some p => ':' :: p | none => [])) ++
      (K.path ++ (if K.query.isEmpty then []
        else '?' :: renderQuery K.query))) ≠ [] := by
    intro h0
    exact hqne (List.append_eq_nil.mp h0).2
  have hc3 : (((((match K.userinfo with | some u => u ++ ['@'] | none => []) ++
      K.host) ++ (match K.port with | some p => ':' :: p | none => [])) ++
      (K.path ++ (if K.query.isEmpty then []
        else '?' :: renderQuery K.query)))).getLast? = some c := by
    rw [← getLast?_append_right [':', '/', '/'] _ hAqne]
    exact hc2
  rw [getLast?_append_right _ _ hqne] at hc3
  rcases hq0 : K.query with _ | ⟨p1, pr⟩
  · rw [hq0] at hc3
    rw [if_pos (show List.isEmpty ([] : List (List Nat × List Nat)) = true from rfl),
      List.append_nil] at hc3
    exact pathCanon_chars_not_ws K.path hw.path_wf.1 c
      (mem_of_getLast_some K.path c hc3)
  · rw [hq0] at hc3
    rw [if_neg (show ¬(List.isEmpty (p1 :: pr) = true) from
      fun hh => Bool.noConfusion hh)] at hc3
    rw [getLast?_append_right K.path _ (List.cons_ne_nil _ _)] at hc3
    have hcm := mem_of_getLast_some _ c hc3
    have hqb : ∀ p ∈ p1 :: pr, (∀ b ∈ p.1, b < 256) ∧ (∀ b ∈ p.2, b < 256) := by
      rw [← hq0]
      exact hw.query_bytes
    rcases List.mem_cons.mp hcm with h3 | h3
    · subst h3
      decide
    · exact renderQuery_chars_not_ws (p1 :: pr) hqb c h3

theorem normalizePort_fix (K : CanonParts) (hw : CanonWF K) :
    normalizePort K.scheme K.port = some K.port := by
  cases hp : K.port with
  | none => rfl
  | some p =>
    have hpo := hw.port_ok p hp
    show (if p.isEmpty = true then (some none : Option (Option (List Char)))
      else if p.all isDigitB = true then
        (if defaultPort K.scheme = some p then some none else some (some p))
      else none) = some (some p)
    have hpe : p.isEmpty = false := by
      cases p with
      | nil => exact absurd rfl hpo.1
      | cons a t => rfl
    have hne1 : ¬(p.isEmpty = true) := by
      rw [hpe]
      exact fun hh => Bool.noConfusion hh
    have hall : p.all isDigitB = true :=
      List.all_eq_true.mpr (fun x hx => hpo.2.1 x hx)
    rw [if_neg hne1, if_pos hall, if_neg hpo.2.2]

/-- The pipeline core maps the fragmentless rendering of well-formed
canonical components (benign sorted query pairs with nonempty values) back
to the same components with no fragment. -/
theorem normCore_reparse (K : CanonParts) (hw : CanonWF K)
    (hben : ∀ p ∈ K.query, BenignPair p) (hvne : ∀ p ∈ K.query, p.2 ≠ []) :
    normCore (renderParts K true) [] = some { K with fragment := none } := by
  have hsa : ∀ c ∈ K.scheme, isAlphaB c = true :=
    fun c hc => alpha_of_lower c (hw.scheme_lower c hc)
  have hschm : K.scheme.map toLowerBasic = K.scheme :=
    map_fix toLowerBasic K.scheme (fun c hc => toLower_fix_of_range c
      (by have := hw.scheme_lower c hc; omega))
  have hA : ∀ c ∈ (((match K.userinfo with | some u => u ++ ['@'] | none => []) ++
      K.host) ++ (match K.port with | some p => ':' :: p | none => [])),
      isAuthEnd c = false := by
    intro c hc
    rcases List.mem_append.mp hc with h | h
    · rcases List.mem_append.mp h with h2 | h2
      · cases hu : K.userinfo with
        | none =>
          rw [hu] at h2
          dsimp only at h2
          exact absurd h2 (List.not_mem_nil c)
        | some u =>
          rw [hu] at h2
          dsimp only at h2
          rcases List.mem_append.mp h2 with h3 | h3
          · exact hw.ui_ok u hu c h3
          · rw [List.mem_singleton] at h3
            subst h3
            decide
      · exact HostWF_not_authEnd K.host hw.host_wf c h2
    · cases hp : K.port with
      | none =>
        rw [hp] at h
        dsimp only at h
        exact absurd h (List.not_mem_nil c)
      | some p =>
        rw [hp] at h
        dsimp only at h
        rcases List.mem_cons.mp h with h3 | h3
        · subst h3
          decide
        · exact digit_not_authEnd c ((hw.port_ok p hp).2.1 c h3)
  have hqsh : (K.path ++ (if K.query.isEmpty then []
      else '?' :: renderQuery K.query)) = [] ∨
      ∃ c t, (K.path ++ (if K.query.isEmpty then []
        else '?' :: renderQuery K.query)) = c :: t ∧ isAuthEnd c = true := by
    rcases hw.path_wf.2.1 with ⟨pt, hpt⟩
    refine Or.inr ⟨'/', pt ++ (if K.query.isEmpty then []
      else '?' :: renderQuery K.query), ?_, by decide⟩
    rw [hpt]
    rfl
  have hstrip : stripWS (renderParts K true) =
      K.scheme ++ ':' :: '/' :: '/' ::
        ((((match K.userinfo with | some u => u ++ ['@'] | none => []) ++ K.host) ++
          (match K.port with | some p => ':' :: p | none => [])) ++
          (K.path ++ (if K.query.isEmpty then []
            else '?' :: renderQuery K.query))) := by
    rw [stripWS_eq_self (renderParts K true) (renderParts_true_ne_nil K hw)
      (renderParts_true_head K hw) (renderParts_true_last K hw)]
    exact renderParts_true_form K
  have hqq : parse_qsl ((if K.query.isEmpty then (none : Option (List Char))
      else some (renderQuery K.query)).getD []) = K.query := by
    rcases hq0 : K.query with _ | ⟨p1, pr⟩
    · rfl
    · rw [if_neg (show ¬(List.isEmpty (p1 :: pr) = true) from
        fun hh => Bool.noConfusion hh)]
      rw [Option.getD_some, ← hq0]
      exact parse_qsl_renderQuery K.query hw.query_bytes hben hvne
  rw [normCore_eval (renderParts K true) K.scheme
    (((match K.userinfo with | some u => u ++ ['@'] | none => []) ++ K.host) ++
      (match K.port with | some p => ':' :: p | none => []))
    (K.path ++ (if K.query.isEmpty then [] else '?' :: renderQuery K.query))
    [] hstrip hw.scheme_ne hsa hA hqsh]
  rw [authority_split K hw]
  dsimp only
  rw [hostport_split K hw]
  dsimp only
  rw [normalizeHost_fix K.host hw.host_wf]
  dsimp only
  rw [hschm, normalizePort_fix K hw]
  dsimp only
  rw [tail_split K hw]
  dsimp only
  rw [pathNormalize_fix K.path hw.path_wf, List.append_nil, hqq,
    sortPairs_fix K.query hw.query_sorted]

/-- C1 as stated is false on the code: normalization is not idempotent in
general, because a semicolon is query-safe and is emitted literally, but
the query parser also splits pairs on semicolons, so reparsing the output
changes the query.  Normalizing a=b%3Bc yields a=b;c, and normalizing that
output yields a=b, a different text. -/
theorem claim_C1_counterexample :
    normalize_url (.str "http://example.com/?a=b%3Bc") [] true =
      some "http://example.com/?a=b;c" ∧
    normalize_url (.str "http://example.com/?a=b;c") [] true =
      some "http://example.com/?a=b" ∧
    ("http://example.com/?a=b" : String) ≠ "http://example.com/?a=b;c" := by
  refine ⟨by decide, by decide, by decide⟩

/-- C1, amended: idempotence of the public entry point holds whenever the
canonical query pairs of the input are benign, that is, their decoded names
and values contain no semicolon byte and their names no equals byte; then a
successful normalization of s to c implies that normalizing c succeeds and
returns c itself.  (The restriction is necessary: a semicolon byte is
re-emitted literally and re-splits on reparsing, as the counterexample
shows.) -/
theorem claim_C1_idempotence (s c : String)
    (hn : normalize_url (.str s) [] true = some c)
    (hben : ∀ p ∈ canonQueryPairs s, BenignPair p) :
    normalize_url (.str c) [] true = some c := by
  rw [normalize_url_str_eq, List.map_nil] at hn
  rcases hK : normCore s.toList [] with _ | K
  · rw [hK] at hn
    dsimp only at hn
    exact Option.noConfusion hn
  · rw [hK] at hn
    dsimp only at hn
    have hc := Option.some.inj hn
    have hwf := normCore_wf s.toList []
      (fun p hp => absurd hp (List.not_mem_nil p)) K hK
    have hw : CanonWF K := hwf.1
    have hvne : ∀ p ∈ K.query, p.2 ≠ [] := hwf.2 rfl
    have hcq : canonQueryPairs s = K.query := by
      show (match normCore s.toList [] with | some k => k.query | none => []) = K.query
      rw [hK]
    have hbenK : ∀ p ∈ K.query, BenignPair p := by
      intro p hp
      apply hben
      rw [hcq]
      exact hp
    have hrep := normCore_reparse K hw hbenK hvne
    rw [normalize_url_str_eq, List.map_nil]
    have hcl : c.toList = renderParts K true := by
      rw [← hc]
      rfl
    rw [hcl, hrep]
    dsimp only
    have hfr : renderParts { K with fragment := none } true = renderParts K true := rfl
    rw [hfr, hc]

/-- C1 witness: a mixed-case URL with a sorted two-pair query normalizes to
a canonical text, its query pairs are benign, and the amended theorem
yields that the canonical text is a fixed point. -/
theorem claim_C1_witness :
    normalize_url (.str "http://example.com/a?b=1&c=2") [] true =
      some "http://example.com/a?b=1&c=2" :=
  claim_C1_idempotence "http://Example.com/a?b=1&c=2" "http://example.com/a?b=1&c=2"
    (by decide) (by decide)
